import Mathlib

/-!
# VectorDB: a shallow embedding of the key-value server

The wire codec (`request_parser.hpp`, `response_serializer.hpp`), the keyspace
(`entry_manager.hpp`, `src/dsa/heap.hpp`, `src/dsa/zset.hpp`, `src/dsa/avl.hpp`)
and the command dispatcher (`command_processor.hpp`) as Lean functions, followed
by the properties proved about them.

Conventions of the embedding:
* a byte is `Fin 256`, a `std::string` or `std::vector<uint8_t>` a list of bytes;
* machine integers are `Nat`/`Int`, reduced modulo `2 ^ w` where the C++ wraps;
  `size_t` has 64 bits and the host is little-endian;
* a nullable pointer is an `Option` of an address (`Nat`); the object behind an
  address is found in the structure that owns it;
* the monotonic clock reading `get_monotonic_usec()` is an argument `now`;
* a function that can throw, or dereference a pointer whose object is gone,
  returns `Option`, with `none` for the throw;
* every operation runs alone, on one thread. Of the mutexes one thing is
  modelled: a member function that locks a `std::shared_mutex` which its own
  thread holds has no result (`lock_mutex`). Locks taken one after the other, and
  the recursive node mutexes of the AVL tree, change nothing.
-/

/-! ## Bytes and machine words -/

/-- A byte (`uint8_t`, `char`). -/
abbrev Byte := Fin 256

/-- A byte string (`std::string`, `std::vector<uint8_t>`, `std::span<const uint8_t>`). -/
abbrev Bytes := List Byte

/-- The byte `n mod 256`. -/
def byte (n : Nat) : Byte := ⟨n % 256, Nat.mod_lt n (by decide)⟩

/-- The bytes of an ASCII string literal of the source. -/
def ascii (s : String) : Bytes := s.toList.map (fun c => byte c.toNat)

/-- Source `SIZE_MAX`, that is `static_cast<size_t>(-1)`. -/
abbrev SIZE_MAX : Nat := 18446744073709551615

/-- Source `std::memcpy(&x, p, sizeof(uint32_t))` on the little-endian host. -/
def load_u32 (b0 b1 b2 b3 : Byte) : Nat :=
  b0.val + b1.val * 2 ^ 8 + b2.val * 2 ^ 16 + b3.val * 2 ^ 24

/-- Source `__builtin_bswap32`. -/
def bswap32 (x : Nat) : Nat :=
  (x % 256) * 2 ^ 24 + (x / 2 ^ 8 % 256) * 2 ^ 16 + (x / 2 ^ 16 % 256) * 2 ^ 8
    + (x / 2 ^ 24 % 256)

/-- The object representation of a 32-bit word on the little-endian host. -/
def le_bytes32 (x : Nat) : Bytes :=
  [byte x, byte (x / 2 ^ 8), byte (x / 2 ^ 16), byte (x / 2 ^ 24)]

/-- The four bytes of a 32-bit word, most significant first. -/
def be_bytes32 (x : Nat) : Bytes :=
  [byte (x / 2 ^ 24), byte (x / 2 ^ 16), byte (x / 2 ^ 8), byte x]

/-! ## `request_parser.hpp` -/

/-- The two `std::errc` values `RequestParser::parse` returns. -/
inductive Errc where
  | message_size
  | bad_message
  deriving DecidableEq, Repr

/-- Source `Result<T> = std::expected<T, std::error_code>`. -/
inductive Result (α : Type) where
  | ok (v : α)
  | error (e : Errc)
  deriving DecidableEq, Repr

namespace RequestParser

/-- The `while (pos < end)` loop of `parse`: `rest` is the byte range `[pos, end)`
and `cmd` the strings collected so far. Every round consumes at least four
bytes, so a fuel of `rest.length` is never used up before the range is. -/
def parse_loop : Nat → Bytes → List Bytes → Result (List Bytes)
  | 0, _, cmd => .ok cmd
  | fuel + 1, rest, cmd =>
    if rest.length = 0 then .ok cmd
    else
      match rest with
      | b0 :: b1 :: b2 :: b3 :: tail =>
        let str_len := bswap32 (load_u32 b0 b1 b2 b3)
        if str_len > tail.length % 2 ^ 32 then .error .bad_message
        else parse_loop fuel (tail.drop str_len) (cmd ++ [tail.take str_len])
      | _ => .error .bad_message

/-- Source `RequestParser::parse`. -/
def parse (data : Bytes) : Result (List Bytes) :=
  match data with
  | b0 :: b1 :: b2 :: b3 :: body =>
    let len := bswap32 (load_u32 b0 b1 b2 b3)
    if 4 + len > data.length then .error .message_size
    else parse_loop len (body.take len) []
  | _ => .error .message_size

end RequestParser

/-- The encoding of one string of a request: its length as a big-endian 32-bit
word, then its bytes. -/
def encode_string (s : Bytes) : Bytes := be_bytes32 s.length ++ s

/-- The payload of a request: the encodings of its strings, one after another. -/
def encode_payload : List Bytes → Bytes
  | [] => []
  | s :: v => encode_string s ++ encode_payload v

/-- The request frame of a command vector, in the words of the wire format:
the big-endian 32-bit payload length, then the payload. -/
def serialize_request (v : List Bytes) : Bytes :=
  be_bytes32 (encode_payload v).length ++ encode_payload v

/-! ## `response_serializer.hpp` -/

/-- Source `std::to_string(int64_t)`: the decimal text of the value. -/
def to_string (value : Int) : Bytes := ascii (toString value)

namespace ResponseSerializer

/-- Source `append_data<uint32_t>`. -/
def append_data_u32 (buffer : Bytes) (data : Nat) : Bytes :=
  buffer ++ le_bytes32 (data % 2 ^ 32)

/-- Source `append_data<int32_t>`: the two's complement representation. -/
def append_data_i32 (buffer : Bytes) (data : Int) : Bytes :=
  buffer ++ le_bytes32 (data % 2 ^ 32).toNat

/-- Source `serialize_nil`. -/
def serialize_nil (buffer : Bytes) : Bytes := buffer ++ [0]

/-- Source `serialize_error`. -/
def serialize_error (buffer : Bytes) (code : Int) (msg : Bytes) : Bytes :=
  append_data_u32 (append_data_i32 (buffer ++ [1]) code) msg.length ++ msg

/-- Source `serialize_string`. -/
def serialize_string (buffer : Bytes) (str : Bytes) : Bytes :=
  append_data_u32 (buffer ++ [2]) str.length ++ str

/-- Source `serialize_integer`. -/
def serialize_integer (buffer : Bytes) (value : Int) : Bytes :=
  buffer ++ [3] ++ (to_string value ++ ascii "\r\n")

end ResponseSerializer

/-! ## `src/hashtable.hpp` -/

/-- Modelled from the spec: `HMap<K, V>` of `src/hashtable.hpp`, which is not
among the sources. The spec describes a mapping from unique keys to values
with `find`, `insert` (inserts or replaces), `remove`, `clear` and `size`,
whose insertion order is not observable; it is an association list here. -/
def HMap (K V : Type) := List (K × V)

namespace HMap

variable {K V : Type} [DecidableEq K]

/-- Modelled from the spec: `HMap::find`, the value stored under the key. -/
def find (m : HMap K V) (key : K) : Option V :=
  match m with
  | [] => none
  | (k, v) :: rest => if k = key then some v else find rest key

/-- Modelled from the spec: `HMap::remove`, which returns the removed value. -/
def remove (m : HMap K V) (key : K) : Option V × HMap K V :=
  (find m key, List.filter (fun p => decide (p.1 ≠ key)) m)

/-- Modelled from the spec: `HMap::insert`, which inserts or replaces. -/
def insert (m : HMap K V) (key : K) (value : V) : HMap K V :=
  (key, value) :: (remove m key).2

/-- Modelled from the spec: `HMap::clear`. -/
def clear (_m : HMap K V) : HMap K V := []

/-- Modelled from the spec: `HMap::size`. -/
def size (m : HMap K V) : Nat := List.length m

end HMap

/-! ## `std::shared_mutex` -/

/-- Source `std::shared_mutex`, as the one thread that runs an operation sees it:
`lock()` and `lock_shared()`, which the constructors of `std::unique_lock` and
`std::shared_lock` call; `owned` says whether the calling thread owns the mutex
already. A thread that does not own the mutex gets it. A thread that owns it, in
exclusive or in shared mode, must not lock it again: the behaviour is undefined
(the thread waits for itself, or the library throws `std::system_error`), and
the call has no result. -/
def lock_mutex (owned : Bool) : Option Unit := if owned then none else some ()

/-! ## `src/dsa/heap.hpp` -/

/-- Source `HeapItem<T>`: a value and `position_ref_`, the address of the external
`size_t` slot that tracks the item (`none` for `nullptr`). -/
structure HeapItem (T : Type) where
  value_ : T
  position_ref_ : Option Nat
  deriving DecidableEq, Repr

/-- A store `*position_ref_ = pos` made by the heap: the address and the value. -/
abbrev SlotWrite := Nat × Nat

namespace BinaryHeap

variable {T : Type}

/-- Source `parent(i) = (i + 1) / 2 - 1` on `size_t`. -/
def parent (i : Nat) : Nat := ((i + 1) / 2 + 2 ^ 64 - 1) % 2 ^ 64

/-- Source `left_child(i)`. -/
def left_child (i : Nat) : Nat := i * 2 + 1

/-- Source `right_child(i)`. -/
def right_child (i : Nat) : Nat := i * 2 + 2

/-- The statement `if (items_[pos].position_ref_) *items_[pos].position_ref_ = pos;`
appended to the stores made so far. -/
def note_position (items : List (HeapItem T)) (pos : Nat) (log : List SlotWrite) :
    List SlotWrite :=
  match items.get? pos with
  | some item =>
    match item.position_ref_ with
    | some ref => log ++ [(ref, pos)]
    | none => log
  | none => log

/-- The `while (pos > 0)` loop of `sift_up`; `pos` decreases in every round, so
a fuel of `pos` is enough. -/
def sift_up_loop (compare_ : T → T → Bool) (temp : HeapItem T) :
    Nat → List (HeapItem T) → Nat → List SlotWrite → List (HeapItem T) × Nat × List SlotWrite
  | 0, items, pos, log => (items, pos, log)
  | fuel + 1, items, pos, log =>
    if pos > 0 then
      let parent_pos := parent pos
      match items.get? parent_pos with
      | none => (items, pos, log)
      | some p =>
        if !compare_ temp.value_ p.value_ then (items, pos, log)
        else
          let items1 := items.set pos p
          sift_up_loop compare_ temp fuel items1 parent_pos (note_position items1 pos log)
    else (items, pos, log)

/-- Source `sift_up(pos)`, for a valid index `pos`: the new array and the stores made
through the position references. -/
def sift_up (compare_ : T → T → Bool) (items : List (HeapItem T)) (pos : Nat) :
    List (HeapItem T) × List SlotWrite :=
  match items.get? pos with
  | none => (items, [])
  | some temp =>
    let r := sift_up_loop compare_ temp pos items pos []
    let items1 := r.1.set r.2.1 temp
    (items1, note_position items1 r.2.1 r.2.2)

/-- The `while (true)` loop of `sift_down`; `pos` increases in every round and
stays below `len`, so a fuel of `len` is enough. -/
def sift_down_loop (compare_ : T → T → Bool) (temp : HeapItem T) (len : Nat) :
    Nat → List (HeapItem T) → Nat → List SlotWrite → List (HeapItem T) × Nat × List SlotWrite
  | 0, items, pos, log => (items, pos, log)
  | fuel + 1, items, pos, log =>
    let left := left_child pos
    let right := right_child pos
    let min_pos1 :=
      match items.get? left with
      | some l => if left < len ∧ compare_ l.value_ temp.value_ then left else pos
      | none => pos
    let min_pos :=
      match items.get? right with
      | some r =>
        let cur := if min_pos1 = pos then temp.value_
          else match items.get? min_pos1 with
            | some c => c.value_
            | none => temp.value_
        if right < len ∧ compare_ r.value_ cur then right else min_pos1
      | none => min_pos1
    if min_pos = pos then (items, pos, log)
    else
      match items.get? min_pos with
      | none => (items, pos, log)
      | some c =>
        let items1 := items.set pos c
        sift_down_loop compare_ temp len fuel items1 min_pos (note_position items1 pos log)

/-- Source `sift_down(pos)`, for a valid index `pos`. -/
def sift_down (compare_ : T → T → Bool) (items : List (HeapItem T)) (pos : Nat) :
    List (HeapItem T) × List SlotWrite :=
  match items.get? pos with
  | none => (items, [])
  | some temp =>
    let r := sift_down_loop compare_ temp items.length items.length items pos []
    let items1 := r.1.set r.2.1 temp
    (items1, note_position items1 r.2.1 r.2.2)

/-- Source `push(item)`. -/
def push (compare_ : T → T → Bool) (items : List (HeapItem T)) (item : HeapItem T) :
    List (HeapItem T) × List SlotWrite :=
  sift_up compare_ (items ++ [item]) ((items ++ [item]).length - 1)

/-- Source `empty()`, which takes `heap_mutex_` in shared mode; `owned` says whether
the calling thread owns `heap_mutex_` already. -/
def empty_call (owned : Bool) (items : List (HeapItem T)) : Option Bool :=
  (lock_mutex owned).map (fun _ => items.isEmpty)

/-- Source `size()`, which takes `heap_mutex_` in shared mode; `owned` says whether
the calling thread owns `heap_mutex_` already. -/
def size_call (owned : Bool) (items : List (HeapItem T)) : Option Nat :=
  (lock_mutex owned).map (fun _ => items.length)

/-- Source `top()`: it takes `heap_mutex_` in shared mode and then calls `empty()`,
which takes it again. The outer `none` is a call without result, the inner one
is `std::nullopt`. (The statement `return items_[0]` copies a `HeapItem`, whose
copy constructor is deleted.) -/
def top (items : List (HeapItem T)) : Option (Option (HeapItem T)) :=
  match empty_call true items with
  | none => none
  | some e => if e then some none else some items.head?

/-- Source `pop()`: it takes `heap_mutex_` in exclusive mode and then calls `empty()`
and `size()`, which take it again. The result is the removed root, the new
array and the stores made; `none` is a call without result (also
`std::out_of_range` on the empty heap). -/
def pop (compare_ : T → T → Bool) (items : List (HeapItem T)) :
    Option (HeapItem T × List (HeapItem T) × List SlotWrite) :=
  match empty_call true items with
  | none => none
  | some e =>
    if e then none
    else
      match items with
      | [] => none
      | result :: _ =>
        match size_call true items with
        | none => none
        | some n =>
          if n > 1 then
            match items.getLast? with
            | some back =>
              let r := sift_down compare_ ((items.set 0 back).dropLast) 0
              some (result, r.1, r.2)
            | none => none
          else some (result, items.dropLast, [])

/-- The statements of `pop()` on the array alone, with `items_.empty()` and
`items_.size()` in the place of the calls `empty()` and `size()`: what `pop()`
would return if it did not take `heap_mutex_` a second time. No code of the
repository runs this. -/
def pop_unlocked (compare_ : T → T → Bool) (items : List (HeapItem T)) :
    Option (HeapItem T × List (HeapItem T) × List SlotWrite) :=
  match items with
  | [] => none
  | result :: _ =>
    if items.length > 1 then
      match items.getLast? with
      | some back =>
        let r := sift_down compare_ ((items.set 0 back).dropLast) 0
        some (result, r.1, r.2)
      | none => none
    else some (result, items.dropLast, [])

/-- Source `update(pos)`, called by a thread that does not own `heap_mutex_`; `none`
when `pos` is out of range (`std::out_of_range`). -/
def update (compare_ : T → T → Bool) (items : List (HeapItem T)) (pos : Nat) :
    Option (List (HeapItem T) × List SlotWrite) :=
  match items.get? pos with
  | none => none
  | some cur =>
    let up :=
      match items.get? (parent pos) with
      | some p => decide (pos > 0) && compare_ cur.value_ p.value_
      | none => false
    if up then some (sift_up compare_ items pos) else some (sift_down compare_ items pos)

/-- Source `update(pos)`, whose first statement takes `heap_mutex_` in exclusive
mode; `owned` says whether the calling thread owns `heap_mutex_` already. -/
def update_call (owned : Bool) (compare_ : T → T → Bool) (items : List (HeapItem T))
    (pos : Nat) : Option (List (HeapItem T) × List SlotWrite) :=
  (lock_mutex owned).bind (fun _ => update compare_ items pos)

/-- Source `operator[]`; `none` when the index is out of range (`std::out_of_range`). -/
def get (items : List (HeapItem T)) (index : Nat) : Option (HeapItem T) := items.get? index

/-- Source `clear()`. -/
def clear (_items : List (HeapItem T)) : List (HeapItem T) := []

/-- Source `size()`, called by a thread that does not own `heap_mutex_`. -/
def size (items : List (HeapItem T)) : Nat := items.length

end BinaryHeap

/-! ## `src/dsa/avl.hpp` -/

/-- Source `std::unique_ptr<AVLNode<K, V>>`: `nil` is the null pointer. The `parent`
pointer is written by the rotations and read nowhere, so it is left out; `depth`
and `weight` are `uint32_t` fields that no tree fitting in memory overflows. -/
inductive AVLNode (K V : Type) where
  | nil
  | node (key : K) (value : V) (depth weight : Nat) (left right : AVLNode K V)
  deriving DecidableEq, Repr

namespace AVLTree

variable {K V : Type} [LT K] [DecidableRel (fun a b : K => a < b)] [DecidableEq K]

/-- Source `getDepth`. -/
def getDepth : AVLNode K V → Nat
  | .nil => 0
  | .node _ _ depth _ _ _ => depth

/-- Source `getWeight`. -/
def getWeight : AVLNode K V → Nat
  | .nil => 0
  | .node _ _ _ weight _ _ => weight

/-- Source `updateNode`. -/
def updateNode : AVLNode K V → AVLNode K V
  | .nil => .nil
  | .node k v _ _ l r =>
    .node k v (1 + max (getDepth l) (getDepth r)) (1 + getWeight l + getWeight r) l r

/-- Source `rotateLeft`. -/
def rotateLeft : AVLNode K V → AVLNode K V
  | .node k v d w l (.node rk rv rd rw rl rr) =>
    updateNode (.node rk rv rd rw (updateNode (.node k v d w l rl)) rr)
  | node => node

/-- Source `rotateRight`. -/
def rotateRight : AVLNode K V → AVLNode K V
  | .node k v d w (.node lk lv ld lw ll lr) r =>
    updateNode (.node lk lv ld lw ll (updateNode (.node k v d w lr r)))
  | node => node

/-- Source `fixLeft`. -/
def fixLeft : AVLNode K V → AVLNode K V
  | .node k v d w (.node lk lv ld lw ll lr) r =>
    if getDepth lr > getDepth ll then
      rotateRight (.node k v d w (rotateLeft (.node lk lv ld lw ll lr)) r)
    else rotateRight (.node k v d w (.node lk lv ld lw ll lr) r)
  | node => node

/-- Source `fixRight`. -/
def fixRight : AVLNode K V → AVLNode K V
  | .node k v d w l (.node rk rv rd rw rl rr) =>
    if getDepth rl > getDepth rr then
      rotateLeft (.node k v d w l (rotateRight (.node rk rv rd rw rl rr)))
    else rotateLeft (.node k v d w l (.node rk rv rd rw rl rr))
  | node => node

/-- Source `fix`. -/
def fix (node : AVLNode K V) : AVLNode K V :=
  match updateNode node with
  | .nil => .nil
  | .node k v d w l r =>
    if getDepth l > getDepth r + 1 then fixLeft (.node k v d w l r)
    else if getDepth r > getDepth l + 1 then fixRight (.node k v d w l r)
    else .node k v d w l r

/-- Source `search`: the node holding the key, as its key and value. -/
def search : AVLNode K V → K → Option (K × V)
  | .nil, _ => none
  | .node k v _ _ l r, key =>
    if key = k then some (k, v)
    else if key < k then search l key else search r key

/-- The store `existingNode->value = value` of `set`, on the node that `search`
finds for the key. -/
def assign : AVLNode K V → K → V → AVLNode K V
  | .nil, _, _ => .nil
  | .node k v d w l r, key, value =>
    if key = k then .node k value d w l r
    else if key < k then .node k v d w (assign l key value) r
    else .node k v d w l (assign r key value)

/-- Source `insert`. -/
def insert : AVLNode K V → K → V → AVLNode K V
  | .nil, key, value => .node key value 1 1 .nil .nil
  | .node k v d w l r, key, value =>
    if key < k then fix (.node k v d w (insert l key value) r)
    else if k < key then fix (.node k v d w l (insert r key value))
    else .node k v d w l r

/-- The `successor` loop of `remove`: the leftmost node of a subtree. -/
def leftmost : AVLNode K V → Option (K × V)
  | .nil => none
  | .node k v _ _ .nil _ => some (k, v)
  | .node _ _ _ _ (.node lk lv ld lw ll lr) _ => leftmost (.node lk lv ld lw ll lr)

/-- Source `remove`. -/
def remove : AVLNode K V → K → AVLNode K V
  | .nil, _ => .nil
  | .node k v d w l r, key =>
    if key < k then fix (.node k v d w (remove l key) r)
    else if k < key then fix (.node k v d w l (remove r key))
    else
      match l, r with
      | .nil, _ => r
      | _, .nil => l
      | _, _ =>
        match leftmost r with
        | some (sk, sv) => fix (.node sk sv d w l (remove r sk))
        | none => fix (.node k v d w l r)

/-- Source `AVLTree::set`. -/
def set (root_ : AVLNode K V) (key : K) (value : V) : AVLNode K V :=
  match search root_ key with
  | some _ => assign root_ key value
  | none => insert root_ key value

/-- Source `AVLTree::get`. -/
def get (root_ : AVLNode K V) (key : K) : Option V := (search root_ key).map (fun p => p.2)

/-- Source `AVLTree::del`. -/
def del (root_ : AVLNode K V) (key : K) : AVLNode K V :=
  match root_ with
  | .nil => .nil
  | _ => remove root_ key

/-- Source `AVLTree::exists`. -/
def «exists» (root_ : AVLNode K V) (key : K) : Bool := (search root_ key).isSome

end AVLTree

/-! ## `src/dsa/zset.hpp` -/

/-- Source `ZNode = AVLNode<std::string, double>` as `ZSet` uses it: `get_key()`,
`get_value()` and `set_value()`. The type of scores is a parameter. -/
structure ZNode (Score : Type) where
  key : Bytes
  value : Score
  deriving DecidableEq, Repr

instance {K V : Type} [DecidableEq K] [DecidableEq V] : DecidableEq (HMap K V) :=
  inferInstanceAs (DecidableEq (List (K × V)))

/-- A `ZNode*` argument: the null pointer, the address of a node (a node of the set
when `nodes_` owns a node at that address, else a pointer to no live node), or
a pointer to a live node that the set does not own, given by its content. -/
inductive ZNodePtr (Score : Type) where
  | null
  | addr (p : Nat)
  | foreign (node : ZNode Score)

/-- Source `ZSet`: the order index `tree`, the member index `hash` (member to `ZNode*`)
and `nodes_`, the owning `shared_ptr`s, each with the address of its node. -/
structure ZSet (Score : Type) where
  tree : AVLNode Bytes Score
  hash : HMap Bytes (Option Nat)
  nodes_ : List (Nat × ZNode Score)
  deriving DecidableEq

namespace ZSet

variable {Score : Type}

/-- The `ZSet` constructor: all three containers are empty. -/
def empty : ZSet Score := { tree := .nil, hash := [], nodes_ := [] }

/-- The node behind a `ZNode*`; `none` when no live node has that address. -/
def deref (z : ZSet Score) (p : Nat) : Option (ZNode Score) :=
  (z.nodes_.find? (fun n => decide (n.1 = p))).map (fun n => n.2)

/-- The address `std::make_shared<ZNode>` returns: one that no live node has. -/
def fresh_addr (z : ZSet Score) : Nat := 1 + (z.nodes_.map (fun n => n.1)).foldr max 0

/-- Source `lookup`, called by a thread that does not own `zset_mutex_`. -/
def lookup (z : ZSet Score) (name : Bytes) : Option Nat :=
  match z.hash.find name with
  | some (some p) => some p
  | _ => none

/-- Source `lookup`, which takes `zset_mutex_` in shared mode; `owned` says whether
the calling thread owns `zset_mutex_` already. -/
def lookup_call (owned : Bool) (z : ZSet Score) (name : Bytes) : Option (Option Nat) :=
  (lock_mutex owned).map (fun _ => lookup z name)

/-- Source `update_score`, called by a thread that does not own `zset_mutex_`. The
key is read from the node the argument points at, whoever owns that node;
`set_value` writes that node, which for a node outside the set leaves `nodes_`
as it is. A pointer to no live node has no result. -/
def update_score (z : ZSet Score) (node : ZNodePtr Score) (new_score : Score) :
    Option (ZSet Score × Bool) :=
  match node with
  | .null => some (z, false)
  | .foreign n =>
    let key := n.key
    if key.isEmpty then some (z, false)
    else
      match z.hash.find key with
      | some (some _) =>
        let tree1 := AVLTree.del z.tree key
        some ({ tree := AVLTree.set tree1 key new_score, hash := z.hash, nodes_ := z.nodes_ },
          true)
      | _ => some (z, false)
  | .addr p =>
    match deref z p with
    | none => none
    | some n =>
      let key := n.key
      if key.isEmpty then some (z, false)
      else
        match z.hash.find key with
        | some (some _) =>
          let tree1 := AVLTree.del z.tree key
          let nodes1 := z.nodes_.map
            (fun q => (q.1, if q.1 = p then { q.2 with value := new_score } else q.2))
          some ({ tree := AVLTree.set tree1 key new_score, hash := z.hash, nodes_ := nodes1 },
            true)
        | _ => some (z, false)

/-- Source `update_score`, whose first statement takes `zset_mutex_` in exclusive
mode; `owned` says whether the calling thread owns `zset_mutex_` already. -/
def update_score_call (owned : Bool) (z : ZSet Score) (node : ZNodePtr Score)
    (new_score : Score) : Option (ZSet Score × Bool) :=
  (lock_mutex owned).bind (fun _ => update_score z node new_score)

/-- Source `add_internal`: it takes `zset_mutex_` in exclusive mode and then calls
`lookup` (and, for a member, `update_score`), which take it again; `none` is a
call without result. -/
def add_internal (z : ZSet Score) (name : Bytes) (score : Score) :
    Option (ZSet Score × Bool) :=
  match lookup_call true z name with
  | none => none
  | some (some p) => (update_score_call true z (.addr p) score).map (fun r => (r.1, false))
  | some none =>
    let node : ZNode Score := { key := name, value := score }
    if node.key.isEmpty then some (z, false)
    else
      some ({ tree := AVLTree.set z.tree node.key score,
              hash := z.hash.insert node.key (some (fresh_addr z)),
              nodes_ := z.nodes_ ++ [(fresh_addr z, node)] }, true)

/-- The statements of `add_internal` with `lookup` and `update_score` called as by a
thread that does not own `zset_mutex_`: what `add_internal` would return if
these calls did not take the mutex a second time. No code of the repository
runs this. -/
def add_internal_unlocked (z : ZSet Score) (name : Bytes) (score : Score) :
    Option (ZSet Score × Bool) :=
  match lookup z name with
  | some p => (update_score z (.addr p) score).map (fun r => (r.1, false))
  | none =>
    let node : ZNode Score := { key := name, value := score }
    if node.key.isEmpty then some (z, false)
    else
      some ({ tree := AVLTree.set z.tree node.key score,
              hash := z.hash.insert node.key (some (fresh_addr z)),
              nodes_ := z.nodes_ ++ [(fresh_addr z, node)] }, true)

/-- Source `remove_internal`. -/
def remove_internal (z : ZSet Score) (name : Bytes) : Option (ZSet Score × Bool) :=
  match z.hash.find name with
  | some (some p) =>
    match deref z p with
    | none => none
    | some n =>
      some ({ tree := AVLTree.del z.tree n.key,
              hash := (z.hash.remove name).2,
              nodes_ := z.nodes_.filter (fun q => decide (q.1 ≠ p)) }, true)
  | _ => some (z, false)

/-- The score `lookup(name)->get_value()` of a member, `none` for a non-member. -/
def score_of (z : ZSet Score) (name : Bytes) : Option Score :=
  (lookup z name).bind (fun p => (deref z p).map (fun n => n.value))

end ZSet

/-! ## `entry_manager.hpp` -/

/-- The payload of an entry: `Entry<std::string>` or `Entry<std::unique_ptr<ZSet>>`. -/
inductive Value (Score : Type) where
  | string (value : Bytes)
  | zset (value : ZSet Score)
  deriving DecidableEq

/-- Source `EntryBase` with the `value` of the derived `Entry<T>`; `addr` is the address
of the object, which `shared_ptr`s and the heap's position references share. -/
structure Entry (Score : Type) where
  addr : Nat
  heap_idx : Nat
  key : Bytes
  value : Value Score
  deriving DecidableEq

/-- Source `std::less<uint64_t>`. -/
def less (a b : Nat) : Bool := decide (a < b)

/-- Source `EntryManager`: the table `db_` and the expiry heap `heap_`. -/
structure EntryManager (Score : Type) where
  db_ : HMap Bytes (Entry Score)
  heap_ : List (HeapItem Nat)
  deriving DecidableEq

namespace EntryManager

variable {Score : Type}

/-- The store `e.heap_idx = v` on the entry at address `a`; an address that no
entry of the table has (the entry was destroyed) is left alone. -/
def store_heap_idx (db : HMap Bytes (Entry Score)) (a v : Nat) : HMap Bytes (Entry Score) :=
  List.map (fun p => (p.1, if p.2.addr = a then { p.2 with heap_idx := v } else p.2)) db

/-- The store of a new value into the entry at address `a`. -/
def store_value (db : HMap Bytes (Entry Score)) (a : Nat) (v : Value Score) :
    HMap Bytes (Entry Score) :=
  List.map (fun p => (p.1, if p.2.addr = a then { p.2 with value := v } else p.2)) db

/-- The stores the heap made through its position references, in order. -/
def apply_writes (db : HMap Bytes (Entry Score)) (log : List SlotWrite) :
    HMap Bytes (Entry Score) :=
  log.foldl (fun d w => store_heap_idx d w.1 w.2) db

/-- The address `std::make_shared<Entry<T>>` returns: one that no entry of the
table has and no heap item refers to. -/
def fresh_addr (m : EntryManager Score) : Nat :=
  1 + max ((List.map (fun p => p.2.addr) m.db_).foldr max 0)
        ((m.heap_.map (fun i => i.position_ref_.getD 0)).foldr max 0)

/-- Source `find_entry`. -/
def find_entry (m : EntryManager Score) (key : Bytes) : Option (Entry Score) :=
  m.db_.find key

/-- Source `create_entry`. -/
def create_entry (m : EntryManager Score) (key : Bytes) (value : Value Score) :
    EntryManager Score × Entry Score :=
  let entry : Entry Score :=
    { addr := fresh_addr m, heap_idx := SIZE_MAX, key := key, value := value }
  ({ m with db_ := m.db_.insert entry.key entry }, entry)

/-- Source `remove_from_heap`: for a slot inside the heap it calls `heap_.pop()`. -/
def remove_from_heap (m : EntryManager Score) (entry : Entry Score) :
    Option (EntryManager Score × Bool) :=
  if entry.heap_idx ≥ BinaryHeap.size m.heap_ then some (m, false)
  else
    match BinaryHeap.pop less m.heap_ with
    | none => none
    | some (_, items, log) =>
      some ({ db_ := store_heap_idx (apply_writes m.db_ log) entry.addr SIZE_MAX,
              heap_ := items }, true)

/-- Source `delete_entry`. -/
def delete_entry (m : EntryManager Score) (key : Bytes) :
    Option (EntryManager Score × Bool) :=
  match m.db_.find key with
  | none => some (m, false)
  | some entry =>
    let removed :=
      if entry.heap_idx ≠ SIZE_MAX then (remove_from_heap m entry).map (fun r => r.1)
      else some m
    removed.map (fun m1 => ({ m1 with db_ := (m1.db_.remove key).2 }, true))

/-- Source `clear_all`. -/
def clear_all (m : EntryManager Score) : EntryManager Score × Bool :=
  let m1 : EntryManager Score := { db_ := m.db_.clear, heap_ := BinaryHeap.clear m.heap_ }
  (m1, decide (m1.db_.size = 0 ∧ BinaryHeap.size m1.heap_ = 0))

/-- Source `add_to_heap`. -/
def add_to_heap (m : EntryManager Score) (entry : Entry Score) (expire_at : Nat) :
    Option (EntryManager Score × Bool) :=
  if entry.heap_idx ≠ SIZE_MAX then some (m, false)
  else
    let pushed := BinaryHeap.push less m.heap_ { value_ := expire_at, position_ref_ := some entry.addr }
    let db1 := apply_writes m.db_ pushed.2
    let heap_idx := BinaryHeap.size pushed.1 - 1
    let db2 := store_heap_idx db1 entry.addr heap_idx
    match BinaryHeap.update less pushed.1 heap_idx with
    | none => none
    | some (items, log) => some ({ db_ := apply_writes db2 log, heap_ := items }, true)

/-- Source `update_heap`. -/
def update_heap (m : EntryManager Score) (entry : Entry Score) (new_expire_at : Nat) :
    Option (EntryManager Score × Bool) :=
  if entry.heap_idx ≥ BinaryHeap.size m.heap_ then some (m, false)
  else
    match BinaryHeap.get m.heap_ entry.heap_idx with
    | none => none
    | some item =>
      let items1 := m.heap_.set entry.heap_idx { item with value_ := new_expire_at }
      match BinaryHeap.update less items1 entry.heap_idx with
      | none => none
      | some (items, log) => some ({ db_ := apply_writes m.db_ log, heap_ := items }, true)

/-- Source `set_entry_ttl`, called at clock reading `now`. -/
def set_entry_ttl (m : EntryManager Score) (now : Nat) (entry : Entry Score) (ttl_ms : Int) :
    Option (EntryManager Score × Bool) :=
  if ttl_ms ≤ 0 then delete_entry m entry.key
  else
    let expire_at := (now + (ttl_ms % 2 ^ 64).toNat * 1000) % 2 ^ 64
    let r :=
      if entry.heap_idx = SIZE_MAX then add_to_heap m entry expire_at
      else update_heap m entry expire_at
    r.map (fun p => (p.1, true))

/-- Source `static_cast<int64_t>` of a 64-bit unsigned value. -/
def to_int64 (x : Nat) : Int := if x < 2 ^ 63 then (x : Int) else (x : Int) - 2 ^ 64

/-- Source `get_expiry_time`, called at clock reading `now`. -/
def get_expiry_time (m : EntryManager Score) (now : Nat) (entry : Entry Score) : Option Int :=
  if entry.heap_idx = SIZE_MAX ∨ entry.heap_idx ≥ BinaryHeap.size m.heap_ then some (-1)
  else
    match BinaryHeap.get m.heap_ entry.heap_idx with
    | none => none
    | some item =>
      let expire_at := item.value_
      let remaining_time := to_int64 ((expire_at + 2 ^ 64 - now) % 2 ^ 64 / 1000)
      some (if remaining_time > 0 then remaining_time else -1)

end EntryManager

/-! ## `command_processor.hpp` -/

/-- Source `ERR_ARG`. -/
def ERR_ARG : Int := -1

/-- Source `ERR_UNKNOWN`. -/
def ERR_UNKNOWN : Int := -2

/-- Source `ERR_TYPE`. -/
def ERR_TYPE : Int := -3

/-- Source `::tolower` in the "C" locale. -/
def tolower (c : Byte) : Byte := if 65 ≤ c.val ∧ c.val ≤ 90 then byte (c.val + 32) else c

/-- Source `isspace` in the "C" locale. -/
def isspace (c : Byte) : Bool := decide (c.val = 32 ∨ (9 ≤ c.val ∧ c.val ≤ 13))

/-- Source `isdigit`. -/
def isdigit (c : Byte) : Bool := decide (48 ≤ c.val ∧ c.val ≤ 57)

/-- Source `std::stoll(str, &pos)` in base 10, as the standard library defines it:
leading white space, an optional sign, then decimal digits. The result is the
value and `pos`; `none` stands for `std::invalid_argument` (no digits) and for
`std::out_of_range` (the value does not fit `long long`). -/
def stoll (str : Bytes) : Option (Int × Nat) :=
  let ws := str.takeWhile isspace
  let rest := str.drop ws.length
  let sign_len : Nat :=
    match rest with
    | c :: _ => if c.val = 45 ∨ c.val = 43 then 1 else 0
    | [] => 0
  let negative : Bool :=
    match rest with
    | c :: _ => decide (c.val = 45)
    | [] => false
  let digits := (rest.drop sign_len).takeWhile isdigit
  if digits.length = 0 then none
  else
    let magnitude : Nat := digits.foldl (fun acc d => acc * 10 + (d.val - 48)) 0
    let value : Int := if negative then -(magnitude : Int) else (magnitude : Int)
    if value < -(2 ^ 63) ∨ value > 2 ^ 63 - 1 then none
    else some (value, ws.length + sign_len + digits.length)

/-- The floating-point part of the standard library, which the embedding takes
as given: `stod` is `std::stod(str, &pos)` (`none` when it throws) and `isnan`
is `std::isnan`. -/
structure StdLib (Score : Type) where
  stod : Bytes → Option (Score × Nat)
  isnan : Score → Bool

/-- Source `CommandProcessor::CommandContext`: the arguments, the response buffer and
the entry manager the handlers work on. -/
structure CommandContext (Score : Type) where
  args : List Bytes
  response : Bytes
  entry_manager : EntryManager Score
  deriving DecidableEq

namespace CommandProcessor

variable {Score : Type}

/-- The context with `response` replaced by the buffer a serializer returned. -/
def reply (ctx : CommandContext Score) (response : Bytes) : CommandContext Score :=
  { ctx with response := response }

/-- Source `parse_double`. -/
def parse_double (lib : StdLib Score) (str : Bytes) : Option Score :=
  match lib.stod str with
  | some (out, pos) => if pos = str.length ∧ ¬ lib.isnan out then some out else none
  | none => none

/-- Source `parse_int`; `std::isnan` of an integer is false. -/
def parse_int (str : Bytes) : Option Int :=
  match stoll str with
  | some (out, pos) => if pos = str.length then some out else none
  | none => none

/-- Source `handle_get`. -/
def handle_get (ctx : CommandContext Score) : Option (CommandContext Score) :=
  match ctx.args with
  | [_, key] =>
    match ctx.entry_manager.find_entry key with
    | none => some { ctx with response := ResponseSerializer.serialize_nil ctx.response }
    | some entry =>
      match entry.value with
      | .string value =>
        some { ctx with response := ResponseSerializer.serialize_string ctx.response value }
      | .zset _ =>
        some (reply ctx
      (ResponseSerializer.serialize_error ctx.response ERR_TYPE (ascii "Key holds wrong type\n")))
  | _ =>
    some (reply ctx
      (ResponseSerializer.serialize_error ctx.response ERR_ARG (ascii "GET requires one key\n")))

/-- Source `handle_set`. -/
def handle_set (ctx : CommandContext Score) : Option (CommandContext Score) :=
  match ctx.args with
  | [_, key, value] =>
    some { ctx with
      entry_manager := (ctx.entry_manager.create_entry key (.string value)).1
      response := ResponseSerializer.serialize_string ctx.response (ascii "OK") }
  | _ =>
    some (reply ctx
      (ResponseSerializer.serialize_error ctx.response ERR_ARG (ascii "SET requires key and value\n")))

/-- Source `handle_del`. -/
def handle_del (ctx : CommandContext Score) : Option (CommandContext Score) :=
  match ctx.args with
  | [_, key] =>
    (ctx.entry_manager.delete_entry key).map (fun r =>
      { ctx with
        entry_manager := r.1
        response := ResponseSerializer.serialize_integer ctx.response (if r.2 then 1 else 0) })
  | _ =>
    some (reply ctx
      (ResponseSerializer.serialize_error ctx.response ERR_ARG (ascii "DEL requires key\n")))

/-- Source `handle_exists`. -/
def handle_exists (ctx : CommandContext Score) : Option (CommandContext Score) :=
  match ctx.args with
  | [_, key] =>
    some (reply ctx (ResponseSerializer.serialize_integer ctx.response
      (if (ctx.entry_manager.find_entry key).isSome then 1 else 0)))
  | _ =>
    some (reply ctx
      (ResponseSerializer.serialize_error ctx.response ERR_ARG (ascii "EXISTS requires key\n")))

/-- Source `handle_flushall`. -/
def handle_flushall (ctx : CommandContext Score) : Option (CommandContext Score) :=
  let r := ctx.entry_manager.clear_all
  some { ctx with
    entry_manager := r.1
    response := ResponseSerializer.serialize_integer ctx.response (if r.2 then 1 else 0) }

/-- The last two statements of `handle_zadd`: `add_internal` on the sorted set of
the entry at address `addr`, and the reply. -/
def zadd_finish (ctx : CommandContext Score) (m : EntryManager Score) (addr : Nat)
    (zset : ZSet Score) (member : Bytes) (score : Score) : Option (CommandContext Score) :=
  (zset.add_internal member score).map (fun r =>
    { ctx with
      entry_manager := { m with db_ := EntryManager.store_value m.db_ addr (.zset r.1) }
      response := ResponseSerializer.serialize_integer ctx.response (if r.2 then 1 else 0) })

/-- Source `handle_zadd`. -/
def handle_zadd (lib : StdLib Score) (ctx : CommandContext Score) :
    Option (CommandContext Score) :=
  match ctx.args with
  | [_, key, score_arg, member] =>
    match parse_double lib score_arg with
    | none =>
      some (reply ctx
      (ResponseSerializer.serialize_error ctx.response ERR_ARG (ascii "Invalid score value\n")))
    | some score =>
      match ctx.entry_manager.find_entry key with
      | some entry =>
        match entry.value with
        | .zset zset => zadd_finish ctx ctx.entry_manager entry.addr zset member score
        | .string _ =>
          some (reply ctx
      (ResponseSerializer.serialize_error ctx.response ERR_TYPE (ascii "Key holds wrong type\n")))
      | none =>
        let created := ctx.entry_manager.create_entry key (.zset ZSet.empty)
        zadd_finish ctx created.1 created.2.addr ZSet.empty member score
  | _ =>
    some (reply ctx
      (ResponseSerializer.serialize_error ctx.response ERR_ARG (ascii "ZADD requires key, score, and member\n")))

/-- Source `handle_zrem`. -/
def handle_zrem (ctx : CommandContext Score) : Option (CommandContext Score) :=
  match ctx.args with
  | [_, key, member] =>
    match ctx.entry_manager.find_entry key with
    | none => some { ctx with response := ResponseSerializer.serialize_integer ctx.response 0 }
    | some entry =>
      match entry.value with
      | .zset zset =>
        (zset.remove_internal member).map (fun r =>
          { ctx with
            entry_manager := { ctx.entry_manager with
              db_ := EntryManager.store_value ctx.entry_manager.db_ entry.addr (.zset r.1) }
            response :=
              ResponseSerializer.serialize_integer ctx.response (if r.2 then 1 else 0) })
      | .string _ =>
        some (reply ctx
      (ResponseSerializer.serialize_error ctx.response ERR_TYPE (ascii "Key holds wrong type\n")))
  | _ =>
    some (reply ctx
      (ResponseSerializer.serialize_error ctx.response ERR_ARG (ascii "ZREM requires key and member\n")))

/-- Source `handle_pexpire`, run at clock reading `now`. -/
def handle_pexpire (now : Nat) (ctx : CommandContext Score) : Option (CommandContext Score) :=
  match ctx.args with
  | [_, key, ttl_arg] =>
    match parse_int ttl_arg with
    | none =>
      some (reply ctx
      (ResponseSerializer.serialize_error ctx.response ERR_ARG (ascii "Invalid TTL value\n")))
    | some ttl_ms =>
      if ttl_ms < 0 then
        some (reply ctx
      (ResponseSerializer.serialize_error ctx.response ERR_ARG (ascii "Invalid TTL value\n")))
      else
        match ctx.entry_manager.find_entry key with
        | none =>
          some { ctx with response := ResponseSerializer.serialize_integer ctx.response 0 }
        | some entry =>
          (ctx.entry_manager.set_entry_ttl now entry ttl_ms).map (fun r =>
            { ctx with
              entry_manager := r.1
              response :=
                ResponseSerializer.serialize_integer ctx.response (if r.2 then 1 else 0) })
  | _ =>
    some (reply ctx
      (ResponseSerializer.serialize_error ctx.response ERR_ARG (ascii "PEXPIRE requires key and TTL\n")))

/-- Source `handle_pttl`, run at clock reading `now`. -/
def handle_pttl (now : Nat) (ctx : CommandContext Score) : Option (CommandContext Score) :=
  match ctx.args with
  | [_, key] =>
    match ctx.entry_manager.find_entry key with
    | none => some { ctx with response := ResponseSerializer.serialize_integer ctx.response (-2) }
    | some entry =>
      (ctx.entry_manager.get_expiry_time now entry).map (fun ttl =>
        { ctx with response := ResponseSerializer.serialize_integer ctx.response ttl })
  | _ =>
    some (reply ctx
      (ResponseSerializer.serialize_error ctx.response ERR_ARG (ascii "PTTL requires key\n")))

/-- Source `command_handlers`: the handler registered under a lower-case name. -/
def command_handlers (lib : StdLib Score) (now : Nat) (name : Bytes) :
    Option (CommandContext Score → Option (CommandContext Score)) :=
  if name = ascii "get" then some handle_get
  else if name = ascii "set" then some handle_set
  else if name = ascii "del" then some handle_del
  else if name = ascii "exists" then some handle_exists
  else if name = ascii "zadd" then some (handle_zadd lib)
  else if name = ascii "zrem" then some handle_zrem
  else if name = ascii "flushall" then some handle_flushall
  else if name = ascii "pexpire" then some (handle_pexpire now)
  else if name = ascii "pttl" then some (handle_pttl now)
  else none

/-- Source `process_command`, run at clock reading `now`: the context after the command,
with the reply appended to `response`. -/
def process_command (lib : StdLib Score) (now : Nat) (ctx : CommandContext Score) :
    Option (CommandContext Score) :=
  match ctx.args with
  | [] =>
    some (reply ctx
      (ResponseSerializer.serialize_error ctx.response ERR_ARG (ascii "empty command\n")))
  | arg0 :: _ =>
    let command_key := arg0.map tolower
    match command_handlers lib now command_key with
    | none =>
      some (reply ctx
      (ResponseSerializer.serialize_error ctx.response ERR_UNKNOWN (ascii "unknown command\n")))
    | some handler => handler ctx

end CommandProcessor

/-! ## Running commands -/

/-- The keyspace of a server that has just started. -/
def EntryManager.init {Score : Type} : EntryManager Score := { db_ := [], heap_ := [] }

/-- One command sent to a keyspace at clock reading `now`, with an empty response
buffer: the reply bytes and the keyspace afterwards. -/
def run {Score : Type} (lib : StdLib Score) (now : Nat) (m : EntryManager Score)
    (args : List Bytes) : Option (Bytes × EntryManager Score) :=
  (CommandProcessor.process_command lib now
    { args := args, response := [], entry_manager := m }).map
    (fun ctx => (ctx.response, ctx.entry_manager))

/-- A standard library for integer scores, used to run the model on examples:
`stod` reads a decimal integer and nothing is a NaN. -/
def intLib : StdLib Int := { stod := stoll, isnan := fun _ => false }

/-- The commands of a list run one after another from a keyspace, each at its
own clock reading: the replies in order and the final keyspace. -/
def run_all {Score : Type} (lib : StdLib Score) :
    List (Nat × List Bytes) → EntryManager Score → Option (List Bytes × EntryManager Score)
  | [], m => some ([], m)
  | (now, args) :: rest, m =>
    match run lib now m args with
    | none => none
    | some (reply, m1) =>
      match run_all lib rest m1 with
      | none => none
      | some (replies, m2) => some (reply :: replies, m2)

/-- The four bytes at the head of a byte range read as a big-endian 32-bit
length: the declared payload length of a frame, the declared length of a
string tuple. It is `0` when fewer than four bytes are there. -/
def declared_length : Bytes → Nat
  | b0 :: b1 :: b2 :: b3 :: _ => b0.val * 2 ^ 24 + b1.val * 2 ^ 16 + b2.val * 2 ^ 8 + b3.val
  | _ => 0

/-- The invariant that ties the member index of a sorted set to its nodes: every
pointer stored in `hash` points at a live node of `nodes_`, and that node
carries the name it is stored under. -/
def ZSet.WF {Score : Type} (z : ZSet Score) : Prop :=
  ∀ name p, HMap.find z.hash name = some (some p) → ∃ n, z.deref p = some n ∧ n.key = name

/-- Whether `name` is a member of the sorted set stored under `key`. -/
def is_member {Score : Type} (m : EntryManager Score) (key name : Bytes) : Bool :=
  match m.find_entry key with
  | some entry =>
    match entry.value with
    | .zset z => (z.lookup name).isSome
    | .string _ => false
  | none => false

/-- The score of `name` in the sorted set stored under `key`, `none` when `name`
is not a member or `key` holds no sorted set. -/
def member_score {Score : Type} (m : EntryManager Score) (key name : Bytes) : Option Score :=
  match m.find_entry key with
  | some entry =>
    match entry.value with
    | .zset z => z.score_of name
    | .string _ => none
  | none => none

/-- The sorted set that holds the one member "alice" with score 10. -/
def demo_zset : ZSet Int :=
  { tree := AVLTree.set .nil (ascii "alice") 10
    hash := [(ascii "alice", some 1)]
    nodes_ := [(1, { key := ascii "alice", value := 10 })] }

/-- A keyspace in which the key "lb" holds the sorted set `demo_zset`. -/
def demo_keyspace : EntryManager Int :=
  { db_ := [(ascii "lb", { addr := 1, heap_idx := SIZE_MAX, key := ascii "lb",
                           value := .zset demo_zset })]
    heap_ := [] }

/-- The invariant of the keyspace that the sorted-set commands rely on: every
sorted set stored in the table satisfies `ZSet.WF`. -/
def KeyspaceWF {Score : Type} (m : EntryManager Score) : Prop :=
  ∀ k e z, m.find_entry k = some e → e.value = .zset z → z.WF

/-- The keyspace after `SET k v` on a fresh server. -/
def demo_string_keyspace : EntryManager Int :=
  { db_ := [(ascii "k", { addr := 1, heap_idx := SIZE_MAX, key := ascii "k",
                          value := .string (ascii "v") })]
    heap_ := [] }

/-- An entry without its heap slot: the part that the stores made through the
heap's position references leave alone. -/
def EntryManager.core {Score : Type} (e : Entry Score) : Nat × Bytes × Value Score :=
  (e.addr, e.key, e.value)

/-- Source `ResponseSerializer::deserialize_error`: the message of an Error reply,
"No error" for any other buffer. It is `none` when the buffer is too short for
the bytes the function reads. -/
def ResponseSerializer.deserialize_error (buffer : Bytes) : Option Bytes :=
  match buffer with
  | [] => some (ascii "No error")
  | tag :: _ =>
    if tag.val ≠ 1 then some (ascii "No error")
    else
      match buffer.drop 5 with
      | b0 :: b1 :: b2 :: b3 :: rest =>
        let size := load_u32 b0 b1 b2 b3
        if size ≤ rest.length then some (rest.take size) else none
      | _ => none

/-- Two bytes that are equal or are the upper-case and the lower-case form of the
same ASCII letter. -/
def same_letter (x y : Byte) : Prop :=
  x = y ∨ (65 ≤ x.val ∧ x.val ≤ 90 ∧ y.val = x.val + 32)
    ∨ (65 ≤ y.val ∧ y.val ≤ 90 ∧ x.val = y.val + 32)

/-- Two strings that differ only in the case of ASCII letters. -/
def differs_only_in_case (a b : Bytes) : Prop := List.Forall₂ same_letter a b

/-- The part of a context that a client and the next command see: the reply
bytes and the keyspace. -/
def CommandContext.outcome {Score : Type} (ctx : CommandContext Score) :
    Bytes × EntryManager Score :=
  (ctx.response, ctx.entry_manager)

/-- A call of one of the four mutating operations of `EntryManager`;
`set_entry_ttl` is called on the entry found under a key, at a clock reading. -/
inductive KeyspaceOp where
  | create_entry (key value : Bytes)
  | delete_entry (key : Bytes)
  | set_entry_ttl (key : Bytes) (ttl_ms : Int) (now : Nat)
  | clear_all
  deriving DecidableEq

/-- The keyspace after one operation; `set_entry_ttl` under a key that is absent
has no entry to be called on and leaves the keyspace alone. -/
def EntryManager.apply_op {Score : Type} (m : EntryManager Score) :
    KeyspaceOp → Option (EntryManager Score)
  | .create_entry key value => some (m.create_entry key (.string value)).1
  | .delete_entry key => (m.delete_entry key).map (fun r => r.1)
  | .set_entry_ttl key ttl_ms now =>
    match m.find_entry key with
    | none => some m
    | some entry => (m.set_entry_ttl now entry ttl_ms).map (fun r => r.1)
  | .clear_all => some m.clear_all.1

/-- The keyspace after a sequence of operations. -/
def EntryManager.apply_ops {Score : Type} :
    EntryManager Score → List KeyspaceOp → Option (EntryManager Score)
  | m, [] => some m
  | m, op :: rest =>
    match m.apply_op op with
    | none => none
    | some m1 => EntryManager.apply_ops m1 rest

/-- The pairs of key and entry that the table holds. -/
def EntryManager.entries {Score : Type} (m : EntryManager Score) :
    List (Bytes × Entry Score) := m.db_

/-- The back-reference of the heap item at index `i`: the address of the entry
whose `heap_idx` it points at. -/
def EntryManager.back_ref {Score : Type} (m : EntryManager Score) (i : Nat) : Option Nat :=
  (m.heap_.get? i).bind (fun item => item.position_ref_)

/-- Heap-slot consistency of a keyspace, in the words of the invariant: for every
entry `e` of the table and every heap index `i`, `e.heap_idx = i` iff the item
at `i` carries the back-reference of `e`; every heap item belongs to an entry
of the table; an entry that no heap item refers to has `heap_idx = size_t(-1)`. -/
def heap_slot_consistent {Score : Type} (m : EntryManager Score) : Prop :=
  (∀ p ∈ m.entries, ∀ i < m.heap_.length,
      (p.2.heap_idx = i ↔ m.back_ref i = some p.2.addr))
    ∧ (∀ item ∈ m.heap_, ∃ p ∈ m.entries, item.position_ref_ = some p.2.addr)
    ∧ (∀ p ∈ m.entries,
        (∀ item ∈ m.heap_, item.position_ref_ ≠ some p.2.addr) → p.2.heap_idx = SIZE_MAX)

instance {Score : Type} (m : EntryManager Score) : Decidable (heap_slot_consistent m) := by
  unfold heap_slot_consistent
  infer_instance

/-- The nine command names, lower case, as registered in `command_handlers`. -/
def command_names : List Bytes :=
  [ascii "get", ascii "set", ascii "del", ascii "exists", ascii "zadd", ascii "zrem",
   ascii "flushall", ascii "pexpire", ascii "pttl"]

/-- Whether a string is, case-insensitively, one of the nine command names. -/
def is_command_name (name : Bytes) : Prop := name.map tolower ∈ command_names

/-- The laws of a strict total order, as `operator<` of `std::string` has them. -/
structure StrictTotalOrder (K : Type) [LT K] : Prop where
  irrefl : ∀ a : K, ¬ a < a
  trans : ∀ a b c : K, a < b → b < c → a < c
  total : ∀ a b : K, a < b ∨ a = b ∨ b < a

/-- The keys and values of a tree in in-order. -/
def AVLTree.toList {K V : Type} : AVLNode K V → List (K × V)
  | .nil => []
  | .node k v _ _ l r => AVLTree.toList l ++ (k, v) :: AVLTree.toList r

/-- A binary search tree: the keys are strictly increasing in in-order. -/
def AVLTree.BST {K V : Type} [LT K] (t : AVLNode K V) : Prop :=
  (AVLTree.toList t).Pairwise (fun a b => a.1 < b.1)

/-- Source `ZSet::pop_internal`: as `remove_internal`, but the result is the
pointer to the node, which `nodes_` no longer owns. -/
def ZSet.pop_internal {Score : Type} (z : ZSet Score) (name : Bytes) :
    Option (ZSet Score × Option Nat) :=
  match z.hash.find name with
  | some (some p) =>
    match ZSet.deref z p with
    | none => none
    | some n =>
      some ({ tree := AVLTree.del z.tree n.key,
              hash := (z.hash.remove name).2,
              nodes_ := z.nodes_.filter (fun q => decide (q.1 ≠ p)) }, some p)
  | _ => some (z, none)

/-- The sorted sets that a sequence of `add_internal_unlocked`, `update_score` (with
the null pointer or the address of a node), `remove_internal` and
`pop_internal` builds from the empty one: the sets a sequence of the four
operations would build if `add_internal` did not take `zset_mutex_` a second
time. -/
inductive ZSet.Reachable {Score : Type} : ZSet Score → Prop where
  | empty : ZSet.Reachable ZSet.empty
  | add_internal {z z1 : ZSet Score} (name : Bytes) (score : Score) (added : Bool) :
      ZSet.Reachable z → z.add_internal_unlocked name score = some (z1, added) →
      ZSet.Reachable z1
  | update_score {z z1 : ZSet Score} (node : Option Nat) (score : Score) (done : Bool) :
      ZSet.Reachable z →
      z.update_score (match node with | none => .null | some p => .addr p) score
        = some (z1, done) →
      ZSet.Reachable z1
  | remove_internal {z z1 : ZSet Score} (name : Bytes) (removed : Bool) :
      ZSet.Reachable z → z.remove_internal name = some (z1, removed) → ZSet.Reachable z1
  | pop_internal {z z1 : ZSet Score} (name : Bytes) (node : Option Nat) :
      ZSet.Reachable z → z.pop_internal name = some (z1, node) → ZSet.Reachable z1

/-- The dual-index invariant of a sorted set: the member index is well formed,
the order index is a search tree that holds for every name the score the
member index gives, the nodes have distinct addresses and each is the node of
its own member. -/
structure ZSet.Inv {Score : Type} (z : ZSet Score) : Prop where
  wf : z.WF
  bst : AVLTree.BST z.tree
  scores : ∀ name, AVLTree.get z.tree name = z.score_of name
  addrs : (z.nodes_.map (fun q => q.1)).Nodup
  owned : ∀ q ∈ z.nodes_, HMap.find z.hash q.2.key = some (some q.1)

/-- The decimal digits of `n`, most significant first; `fuel` bounds the number
of digits. -/
def decimal_digits_loop : Nat → Nat → Bytes
  | 0, _ => []
  | fuel + 1, n =>
    if n < 10 then [byte (48 + n)]
    else decimal_digits_loop fuel (n / 10) ++ [byte (48 + n % 10)]

/-- The decimal digits of a natural number in ASCII, most significant first and
without leading zeros. A number has at most `n + 1` digits. -/
def decimal_digits (n : Nat) : Bytes := decimal_digits_loop (n + 1) n

/-- The decimal text of an integer, in the words of the reply format: the digits
of its absolute value, after a '-' when it is negative. -/
def decimal_text (v : Int) : Bytes :=
  if v < 0 then byte 45 :: decimal_digits v.natAbs else decimal_digits v.natAbs

/-- Source `std::memcpy(&value, p, sizeof(int64_t))` on the little-endian host: the
eight bytes read as a two's complement number. -/
def load_i64 (bs : Bytes) : Int :=
  let u : Nat := bs.foldr (fun b acc => b.val + 256 * acc) 0
  if u < 2 ^ 63 then (u : Int) else (u : Int) - 2 ^ 64

/-- Source `ResponseSerializer::deserialize_integer`: -1 for an empty buffer and for
a buffer that does not start with the Integer tag, else the eight bytes after
the tag. It is `none` when the buffer ends before those eight bytes do. -/
def ResponseSerializer.deserialize_integer (buffer : Bytes) : Option Int :=
  match buffer with
  | [] => some (-1)
  | tag :: rest =>
    if tag.val ≠ 3 then some (-1)
    else if 8 ≤ rest.length then some (load_i64 (rest.take 8))
    else none

/-- Source `ResponseSerializer::deserialize_string`: the empty string for an empty
buffer and for a buffer that does not start with the String tag, else the
`size` bytes after the length word. It is `none` when the buffer is too short
for the bytes the function reads. -/
def ResponseSerializer.deserialize_string (buffer : Bytes) : Option Bytes :=
  match buffer with
  | [] => some []
  | tag :: _ =>
    if tag.val ≠ 2 then some []
    else
      match buffer.drop 1 with
      | b0 :: b1 :: b2 :: b3 :: rest =>
        let size := load_u32 b0 b1 b2 b3
        if size ≤ rest.length then some (rest.take size) else none
      | _ => none

/-! ## `connection.hpp` -/

/-- Source `MAX_MSG_SIZE`. -/
def MAX_MSG_SIZE : Nat := 4096

/-- Source `ConnectionState`. -/
inductive ConnectionState where
  | Request
  | Response
  | End
  deriving DecidableEq, Repr

/-- Source `Connection`: the members that `try_process_request` reads and writes.
The entry manager is a reference member; the keyspace it refers to is passed
along with the connection. -/
structure Connection where
  state_ : ConnectionState
  rbuf_ : Bytes
  wbuf_ : Bytes
  wbuf_sent_ : Nat
  deriving DecidableEq, Repr

namespace Connection

/-- The `Connection` constructor: state `Request`, empty buffers. -/
def init : Connection := { state_ := .Request, rbuf_ := [], wbuf_ := [], wbuf_sent_ := 0 }

/-- Source `Connection::try_process_request`, at clock reading `now`: the `bool` it
returns, the connection and the keyspace afterwards. It is `none` when
`process_command` has no result. -/
def try_process_request {Score : Type} (lib : StdLib Score) (now : Nat) (c : Connection)
    (m : EntryManager Score) : Option (Bool × Connection × EntryManager Score) :=
  if c.rbuf_.length < 4 then some (false, c, m)
  else
    match RequestParser.parse c.rbuf_ with
    | .error _ => some (false, { c with state_ := .End }, m)
    | .ok cmd =>
      match CommandProcessor.process_command lib now
          { args := cmd, response := [], entry_manager := m } with
      | none => none
      | some ctx =>
        let wlen := ctx.response.length % 2 ^ 32
        let wbuf := ResponseSerializer.append_data_u32 [] wlen ++ ctx.response
        let consumed := 4 + cmd.length
        let rbuf := if consumed < c.rbuf_.length then c.rbuf_.drop consumed else []
        some (decide (rbuf.length ≥ 4),
          { state_ := .Response, rbuf_ := rbuf, wbuf_ := wbuf, wbuf_sent_ := 0 },
          ctx.entry_manager)

end Connection

/-- The request frames of `SET k v` and of `GET k`, one after the other: 21 and
16 bytes. -/
def demo_two_frames : Bytes :=
  serialize_request [ascii "SET", ascii "k", ascii "v"]
    ++ serialize_request [ascii "GET", ascii "k"]

/-- A new connection whose read buffer holds the given bytes. -/
def Connection.with_rbuf (rbuf : Bytes) : Connection :=
  { state_ := .Request, rbuf_ := rbuf, wbuf_ := [], wbuf_sent_ := 0 }

/-- The true height of a tree: the number of nodes on its longest path down. -/
def AVLTree.height {K V : Type} : AVLNode K V → Nat
  | .nil => 0
  | .node _ _ _ _ l r => 1 + max (AVLTree.height l) (AVLTree.height r)

/-- The number of nodes of a tree. -/
def AVLTree.count {K V : Type} : AVLNode K V → Nat
  | .nil => 0
  | .node _ _ _ _ l r => 1 + AVLTree.count l + AVLTree.count r

/-- The bookkeeping and balance invariant of an AVL tree: in every node the
`depth` field is the height of the subtree, the `weight` field the number of
its nodes, and the heights of the two subtrees differ by at most 1. -/
def AVLTree.Balanced {K V : Type} : AVLNode K V → Prop
  | .nil => True
  | .node _ _ d w l r =>
    d = 1 + max (AVLTree.height l) (AVLTree.height r)
      ∧ w = 1 + AVLTree.count l + AVLTree.count r
      ∧ AVLTree.height l ≤ AVLTree.height r + 1
      ∧ AVLTree.height r ≤ AVLTree.height l + 1
      ∧ AVLTree.Balanced l ∧ AVLTree.Balanced r

/-- The trees that a sequence of `set` and `del` builds from the empty tree. -/
inductive AVLTree.Reachable {K V : Type} [LT K] [DecidableRel (fun a b : K => a < b)]
    [DecidableEq K] : AVLNode K V → Prop where
  | empty : AVLTree.Reachable .nil
  | set {t : AVLNode K V} (key : K) (value : V) :
      AVLTree.Reachable t → AVLTree.Reachable (AVLTree.set t key value)
  | del {t : AVLNode K V} (key : K) :
      AVLTree.Reachable t → AVLTree.Reachable (AVLTree.del t key)

/-- The tree after `set b 2`, `set a 1`, `set c 3` on the empty tree: the root
"b" has the two children "a" and "c". -/
def demo_tree : AVLNode Bytes Int :=
  AVLTree.set (AVLTree.set (AVLTree.set .nil (ascii "b") 2) (ascii "a") 1) (ascii "c") 3

/-- The tree after `set a 1`, `set b 2`, `set c 3` on the empty tree; the third
`set` rotates. -/
def demo_rotated_tree : AVLNode Bytes Int :=
  AVLTree.set (AVLTree.set (AVLTree.set .nil (ascii "a") 1) (ascii "b") 2) (ascii "c") 3

/-- A read of the `n` bytes at offset `pos` through a pointer into the input:
`none` when the range leaves the input or passes the offset `limit`. -/
def read_range (data : Bytes) (limit pos n : Nat) : Option Bytes :=
  if pos + n ≤ data.length ∧ pos + n ≤ limit then some ((data.drop pos).take n) else none

/-- The `while (pos < end)` loop of `parse` with `pos` and `end` as offsets into
the input and every read checked against the end of the input and the end of
the declared payload. It is `none` when a read is out of bounds, and when the
fuel is used up before the loop ends. -/
def RequestParser.parse_checked_loop (data : Bytes) (end_ : Nat) :
    Nat → Nat → List Bytes → Option (Result (List Bytes))
  | 0, pos, cmd => if pos < end_ then none else some (.ok cmd)
  | fuel + 1, pos, cmd =>
    if pos < end_ then
      if end_ - pos < 4 then some (.error .bad_message)
      else
        match read_range data end_ pos 4 with
        | some [b0, b1, b2, b3] =>
          let str_len := bswap32 (load_u32 b0 b1 b2 b3)
          if str_len > (end_ - (pos + 4)) % 2 ^ 32 then some (.error .bad_message)
          else
            match read_range data end_ (pos + 4) str_len with
            | some s =>
              RequestParser.parse_checked_loop data end_ fuel (pos + 4 + str_len) (cmd ++ [s])
            | none => none
        | _ => none
    else some (.ok cmd)

/-- Source `RequestParser::parse` with every read checked: `none` when a read is
out of bounds or the loop does not end. -/
def RequestParser.parse_checked (data : Bytes) : Option (Result (List Bytes)) :=
  if data.length < 4 then some (.error .message_size)
  else
    match read_range data data.length 0 4 with
    | some [b0, b1, b2, b3] =>
      let len := bswap32 (load_u32 b0 b1 b2 b3)
      if 4 + len > data.length then some (.error .message_size)
      else RequestParser.parse_checked_loop data (4 + len) len 4 []
    | _ => none

/-! ## `main.cpp` -/

/-- Source `std::stoi(str)` in base 10: as `stoll`, with the range of `int`
(32 bits). `none` stands for `std::invalid_argument` and `std::out_of_range`. -/
def stoi (str : Bytes) : Option (Int × Nat) :=
  let ws := str.takeWhile isspace
  let rest := str.drop ws.length
  let sign_len : Nat :=
    match rest with
    | c :: _ => if c.val = 45 ∨ c.val = 43 then 1 else 0
    | [] => 0
  let negative : Bool :=
    match rest with
    | c :: _ => decide (c.val = 45)
    | [] => false
  let digits := (rest.drop sign_len).takeWhile isdigit
  if digits.length = 0 then none
  else
    let magnitude : Nat := digits.foldl (fun acc d => acc * 10 + (d.val - 48)) 0
    let value : Int := if negative then -(magnitude : Int) else (magnitude : Int)
    if value < -(2 ^ 31) ∨ value > 2 ^ 31 - 1 then none
    else some (value, ws.length + sign_len + digits.length)

/-- What `main` does with its command line: it returns an exit code before a
server exists, or it constructs `Server server(port, thread_pool_size)` and
goes on to initialize and run it. -/
inductive MainOutcome where
  | exit (code : Nat)
  | serve (port : Nat) (thread_pool_size : Nat)
  deriving DecidableEq, Repr

/-- The part of `main` on `thread_pool_size`, reached with a port that passed the
range test. -/
def main_thread_pool (argv : List Bytes) (port : Nat) : MainOutcome :=
  match argv.get? 2 with
  | none => .serve port 4
  | some a2 =>
    match stoi a2 with
    | none => .exit 1
    | some (n, _) =>
      let thread_pool_size := (n % 2 ^ 64).toNat
      if thread_pool_size = 0 then .exit 1 else .serve port thread_pool_size

/-- Source `main`, up to the construction of the server; `argv[0]` is the program
name. An exception of `std::stoi` is caught and makes `main` return 1. -/
def main_config (argv : List Bytes) : MainOutcome :=
  match argv.get? 1 with
  | none => main_thread_pool argv 1234
  | some a1 =>
    match stoi a1 with
    | none => .exit 1
    | some (n, _) =>
      let port := (n % 2 ^ 16).toNat
      if port < 1024 ∨ port > 65535 then .exit 1 else main_thread_pool argv port

/-! ## `connection.hpp`: `process_io` and the request loop -/

/-- The loop `while (iss >> word)`: the maximal runs of bytes that are not white
space; `cur` is the word read so far. -/
def words_loop : Bytes → Bytes → List Bytes
  | [], cur => if cur.isEmpty then [] else [cur]
  | b :: rest, cur =>
    if isspace b then
      if cur.isEmpty then words_loop rest [] else cur :: words_loop rest []
    else words_loop rest (cur ++ [b])

/-- Source `Connection::process_io` when `read` returns the bytes `input` (at least
one, at most 1023): the text up to the first zero byte is split into words,
the words are the arguments of `process_command`, and the response is handed
to `write`. The result is the bytes written and the keyspace afterwards. -/
def Connection.process_io {Score : Type} (lib : StdLib Score) (now : Nat) (input : Bytes)
    (m : EntryManager Score) : Option (Bytes × EntryManager Score) :=
  let request := input.takeWhile (fun b => decide (b.val ≠ 0))
  let args := words_loop request []
  (CommandProcessor.process_command lib now
    { args := args, response := [], entry_manager := m }).map
    (fun ctx => (ctx.response, ctx.entry_manager))

/-- Source `explicit operator bool` of `std::expected`: `has_value()`. -/
def Result.has_value {α : Type} : Result α → Bool
  | .ok _ => true
  | .error _ => false

/-- The loop `while (try_process_request()) {}` of `try_fill_buffer`. The value
`try_process_request` returns is a `Result<bool>` that holds its `bool`, and
the condition converts that `Result<bool>` to `bool`. The result is the
connection and the keyspace when the loop ends; it is `none` when
`process_command` has no result and when the fuel is used up before the loop
ends. -/
def Connection.process_requests {Score : Type} (lib : StdLib Score) (now : Nat) :
    Nat → Connection → EntryManager Score → Option (Connection × EntryManager Score)
  | 0, _, _ => none
  | fuel + 1, c, m =>
    match c.try_process_request lib now m with
    | none => none
    | some (value, c1, m1) =>
      if Result.has_value (Result.ok value : Result Bool) then
        Connection.process_requests lib now fuel c1 m1
      else some (c1, m1)

/-- The connection and the keyspace after `n` calls of `try_process_request`; `none`
when `process_command` has no result in one of them. -/
def Connection.after_calls {Score : Type} (lib : StdLib Score) (now : Nat) :
    Nat → Connection → EntryManager Score → Option (Bool × Connection × EntryManager Score)
  | 0, c, m => some (true, c, m)
  | n + 1, c, m =>
    match Connection.after_calls lib now n c m with
    | none => none
    | some (_, c1, m1) => c1.try_process_request lib now m1

/-- The min-heap order of the array: every item is not smaller than its parent. -/
def BinaryHeap.HeapOrdered {T : Type} [LE T] (items : List (HeapItem T)) : Prop :=
  ∀ i c p, 0 < i → items.get? i = some c → items.get? (BinaryHeap.parent i) = some p →
    p.value_ ≤ c.value_

/-- The external slots after the stores of a log, made in order; `mem a` is the
content of the slot at address `a`. -/
def apply_slot_writes (log : List SlotWrite) (mem : Nat → Nat) : Nat → Nat :=
  log.foldl (fun m w => Function.update m w.1 w.2) mem

/-- The back-reference invariant of the heap: every item with a non-null position
reference has its external slot equal to its index. -/
def BinaryHeap.RefsConsistent {T : Type} (items : List (HeapItem T)) (mem : Nat → Nat) : Prop :=
  ∀ i item a, items.get? i = some item → item.position_ref_ = some a → mem a = i

/-- Source `swap(i, j)`: it takes `heap_mutex_` in exclusive mode, throws
`std::out_of_range` when an index is out of range, makes the `std::swap` of the
two items, and calls `update(i)` and `update(j)`, which take `heap_mutex_`
again; `none` is a call without result. -/
def BinaryHeap.swap {T : Type} (compare_ : T → T → Bool) (items : List (HeapItem T))
    (i j : Nat) : Option (List (HeapItem T) × List SlotWrite) :=
  match items.get? i, items.get? j with
  | some a, some b =>
    match BinaryHeap.update_call true compare_ ((items.set i b).set j a) i with
    | none => none
    | some r1 =>
      match BinaryHeap.update_call true compare_ r1.1 j with
      | none => none
      | some r2 => some (r2.1, r1.2 ++ r2.2)
  | _, _ => none

/-- The array after the statement `std::swap(items_[i], items_[j])` of `swap`, for
indices in range: the last state of the heap before `swap` calls `update(i)`. No
store through a position reference has been made. -/
def BinaryHeap.swap_items {T : Type} (items : List (HeapItem T)) (i j : Nat) :
    Option (List (HeapItem T)) :=
  match items.get? i, items.get? j with
  | some a, some b => some ((items.set i b).set j a)
  | _, _ => none

/-- The statements of `swap(i, j)` with the two calls of `update` made as by a
thread that does not own `heap_mutex_`: what `swap` would return if `update`
did not take the mutex a second time. No code of the repository runs this. -/
def BinaryHeap.swap_unlocked {T : Type} (compare_ : T → T → Bool)
    (items : List (HeapItem T)) (i j : Nat) : Option (List (HeapItem T) × List SlotWrite) :=
  match items.get? i, items.get? j with
  | some a, some b =>
    match BinaryHeap.update compare_ ((items.set i b).set j a) i with
    | none => none
    | some r1 =>
      match BinaryHeap.update compare_ r1.1 j with
      | none => none
      | some r2 => some (r2.1, r1.2 ++ r2.2)
  | _, _ => none

/-- The heap after the items of a list are pushed, one after the other, into the
empty heap. -/
def BinaryHeap.push_all {T : Type} (compare_ : T → T → Bool) (xs : List (HeapItem T)) :
    List (HeapItem T) :=
  xs.foldl (fun items x => (BinaryHeap.push compare_ items x).1) []

/-- The items that `pop_unlocked` returns when it is applied until the heap is
empty, at most `fuel` times. -/
def BinaryHeap.pop_all {T : Type} (compare_ : T → T → Bool) :
    Nat → List (HeapItem T) → List (HeapItem T)
  | 0, _ => []
  | fuel + 1, items =>
    match BinaryHeap.pop_unlocked compare_ items with
    | none => []
    | some r => r.1 :: BinaryHeap.pop_all compare_ fuel r.2.1

namespace BinaryHeap

variable {T : Type}

/-- The array with the item `temp` at the position of the hole: all edges of the
heap tree are in order except the one from the hole to its parent, and the
children of the hole are not smaller than its parent. -/
def HoleUp [LE T] (v : List (HeapItem T)) (pos : Nat) : Prop :=
  (∀ i c p, 0 < i → i ≠ pos → v[i]? = some c → v[(i - 1) / 2]? = some p → p.value_ ≤ c.value_)
    ∧ (∀ i c g, 0 < pos → 0 < i → (i - 1) / 2 = pos → v[i]? = some c →
        v[(pos - 1) / 2]? = some g → g.value_ ≤ c.value_)

/-- The min-heap order with the parent written as `(i - 1) / 2`. -/
def Ordered [LE T] (v : List (HeapItem T)) : Prop :=
  ∀ i c p, 0 < i → v[i]? = some c → v[(i - 1) / 2]? = some p → p.value_ ≤ c.value_

/-- The items of the array have distinct position references. -/
def RefsDistinct (v : List (HeapItem T)) : Prop :=
  ∀ (i j : Nat) (x y : HeapItem T) (a : Nat), v[i]? = some x → v[j]? = some y →
    x.position_ref_ = some a →
    y.position_ref_ = some a → i = j

/-- The slots agree with the array at every index outside `E` other than the
hole `pos`. -/
def RefsExcept (v : List (HeapItem T)) (pos : Nat) (mem : Nat → Nat) (E : Nat → Prop) : Prop :=
  ∀ (k : Nat) (x : HeapItem T) (a : Nat), ¬ E k → k ≠ pos → v[k]? = some x →
    x.position_ref_ = some a → mem a = k

/-- The slots agree with the array at every index outside `E`. -/
def RefsOutside (v : List (HeapItem T)) (mem : Nat → Nat) (E : Nat → Prop) : Prop :=
  ∀ (k : Nat) (x : HeapItem T) (a : Nat), ¬ E k → v[k]? = some x →
    x.position_ref_ = some a → mem a = k

/-- The position `min_pos` that one round of the loop of `sift_down` computes. -/
def min_child (compare_ : T → T → Bool) (temp : HeapItem T) (len : Nat)
    (items : List (HeapItem T)) (pos : Nat) : Nat :=
  let left := left_child pos
  let right := right_child pos
  let min_pos1 :=
    match items.get? left with
    | some l => if left < len ∧ compare_ l.value_ temp.value_ then left else pos
    | none => pos
  match items.get? right with
  | some r =>
    let cur := if min_pos1 = pos then temp.value_
      else match items.get? min_pos1 with
        | some c => c.value_
        | none => temp.value_
    if right < len ∧ compare_ r.value_ cur then right else min_pos1
  | none => min_pos1

/-- The array with the item `temp` at the position of the hole: all edges of the
heap tree are in order except those from the hole to its children, and the
children of the hole are not smaller than its parent. -/
def HoleDown [LE T] (v : List (HeapItem T)) (pos : Nat) : Prop :=
  (∀ (i : Nat) (c p : HeapItem T), 0 < i → (i - 1) / 2 ≠ pos → v[i]? = some c →
      v[(i - 1) / 2]? = some p → p.value_ ≤ c.value_)
    ∧ (∀ (i : Nat) (c g : HeapItem T), 0 < pos → 0 < i → (i - 1) / 2 = pos → v[i]? = some c →
        v[(pos - 1) / 2]? = some g → g.value_ ≤ c.value_)

end BinaryHeap

/-! ## Properties of the wire codec -/

theorem bswap32_load_u32 (b0 b1 b2 b3 : Byte) :
    bswap32 (load_u32 b0 b1 b2 b3) = declared_length (b0 :: b1 :: b2 :: b3 :: []) := by
  have h0 := b0.isLt
  have h1 := b1.isLt
  have h2 := b2.isLt
  have h3 := b3.isLt
  simp only [bswap32, load_u32, declared_length, Nat.reducePow]
  omega

theorem declared_length_be_bytes32 (n : Nat) (h : n < 2 ^ 32) (rest : Bytes) :
    declared_length (be_bytes32 n ++ rest) = n := by
  simp only [be_bytes32, byte, declared_length, List.cons_append, List.nil_append,
    Nat.reducePow] at *
  omega

theorem declared_length_cons4 (b0 b1 b2 b3 : Byte) (rest : Bytes) :
    declared_length (b0 :: b1 :: b2 :: b3 :: rest) = bswap32 (load_u32 b0 b1 b2 b3) := by
  rw [bswap32_load_u32]; rfl

theorem parse_loop_nil (fuel : Nat) (cmd : List Bytes) :
    RequestParser.parse_loop fuel [] cmd = .ok cmd := by
  cases fuel <;> simp [RequestParser.parse_loop]

/-- The fuel of `parse_loop` is never used up before the byte range is: with at
least `rest.length` of it, one more unit changes nothing. -/
theorem parse_loop_fuel_succ :
    ∀ (fuel : Nat) (rest : Bytes) (cmd : List Bytes), rest.length ≤ fuel →
      RequestParser.parse_loop (fuel + 1) rest cmd = RequestParser.parse_loop fuel rest cmd := by
  intro fuel
  induction fuel with
  | zero =>
    intro rest cmd h
    have : rest = [] := List.length_eq_zero.mp (Nat.le_zero.mp h)
    subst this
    rfl
  | succ fuel ih =>
    intro rest cmd h
    match rest, h with
    | [], _ => rfl
    | [_], _ => rfl
    | [_, _], _ => rfl
    | [_, _, _], _ => rfl
    | b0 :: b1 :: b2 :: b3 :: tail, h =>
      rw [RequestParser.parse_loop, RequestParser.parse_loop.eq_def (fuel + 1)]
      simp only [List.length_cons, Nat.add_one_ne_zero, if_false]
      by_cases hc : bswap32 (load_u32 b0 b1 b2 b3) > tail.length % 2 ^ 32
      · simp only [hc, if_true]
      · simp only [hc, if_false]
        apply ih
        simp only [List.length_cons, List.length_drop] at h ⊢
        omega

theorem encode_payload_length_ge (v : List Bytes) : 4 * v.length ≤ (encode_payload v).length := by
  induction v with
  | nil => simp [encode_payload]
  | cons s v ih =>
    simp only [encode_payload, encode_string, be_bytes32, List.length_append, List.length_cons,
      List.length_nil]
    omega

theorem parse_loop_payload (v : List Bytes) (rest : Bytes) :
    ∀ (fuel : Nat) (cmd : List Bytes),
      (encode_payload v ++ rest).length ≤ fuel →
      (encode_payload v ++ rest).length < 2 ^ 32 →
      RequestParser.parse_loop fuel (encode_payload v ++ rest) cmd
        = RequestParser.parse_loop (fuel - v.length) rest (cmd ++ v) := by
  induction v with
  | nil => intro fuel cmd _ _; simp [encode_payload]
  | cons s v ih =>
    intro fuel cmd hfuel hlt
    have hlen : (encode_payload (s :: v) ++ rest).length
        = 4 + s.length + (encode_payload v ++ rest).length := by
      simp only [encode_payload, encode_string, be_bytes32, List.length_append,
        List.length_cons, List.length_nil]
      omega
    rw [hlen] at hfuel hlt
    obtain ⟨fuel1, rfl⟩ : ∃ f, fuel = f + 1 := ⟨fuel - 1, by omega⟩
    have hs : s.length < 2 ^ 32 := by omega
    have hdl : declared_length (be_bytes32 s.length ++ (s ++ (encode_payload v ++ rest)))
        = s.length := declared_length_be_bytes32 s.length hs _
    have hshape : encode_payload (s :: v) ++ rest
        = byte (s.length / 2 ^ 24) :: byte (s.length / 2 ^ 16) :: byte (s.length / 2 ^ 8)
          :: byte s.length :: (s ++ (encode_payload v ++ rest)) := by
      simp [encode_payload, encode_string, be_bytes32]
    have hdl2 : bswap32 (load_u32 (byte (s.length / 2 ^ 24)) (byte (s.length / 2 ^ 16))
        (byte (s.length / 2 ^ 8)) (byte s.length)) = s.length := by
      rw [← declared_length_cons4 _ _ _ _ (s ++ (encode_payload v ++ rest))]
      simpa [be_bytes32] using hdl
    rw [hshape]
    simp only [RequestParser.parse_loop, hdl2, List.length_cons]
    have hmod : (s ++ (encode_payload v ++ rest)).length % 2 ^ 32
        = (s ++ (encode_payload v ++ rest)).length := by
      apply Nat.mod_eq_of_lt
      simp only [List.length_append] at hlt ⊢
      omega
    rw [hmod]
    have hnot : ¬ s.length > (s ++ (encode_payload v ++ rest)).length := by
      simp only [List.length_append]; omega
    simp only [Nat.add_one_ne_zero, if_false, hnot, List.drop_left, List.take_left]
    rw [ih fuel1 (cmd ++ [s]) (by omega) (by omega)]
    simp [Nat.add_sub_add_right, List.append_assoc]

theorem parse_frame (payload trailing : Bytes) (h : payload.length < 2 ^ 32) :
    RequestParser.parse (be_bytes32 payload.length ++ payload ++ trailing)
      = RequestParser.parse_loop payload.length payload [] := by
  have hshape : be_bytes32 payload.length ++ payload ++ trailing
      = byte (payload.length / 2 ^ 24) :: byte (payload.length / 2 ^ 16)
        :: byte (payload.length / 2 ^ 8) :: byte payload.length :: (payload ++ trailing) := by
    simp [be_bytes32]
  have hdl : bswap32 (load_u32 (byte (payload.length / 2 ^ 24)) (byte (payload.length / 2 ^ 16))
      (byte (payload.length / 2 ^ 8)) (byte payload.length)) = payload.length := by
    rw [← declared_length_cons4 _ _ _ _ []]
    simpa [be_bytes32] using declared_length_be_bytes32 payload.length h []
  rw [hshape]
  simp only [RequestParser.parse, hdl, List.length_cons, List.length_append]
  have : ¬ 4 + payload.length > payload.length + trailing.length + 1 + 1 + 1 + 1 := by omega
  simp only [this, if_false, List.take_left]

/-! ## Properties of the table -/

namespace HMap

variable {K V : Type} [DecidableEq K]

theorem find_filter_ne (m : HMap K V) (key k : K) :
    find (List.filter (fun p => decide (p.1 ≠ key)) m : HMap K V) k
      = if k = key then none else find m k := by
  induction m with
  | nil => simp [find]
  | cons p rest ih =>
    obtain ⟨pk, pv⟩ := p
    by_cases hp : pk = key
    · subst hp
      simp only [List.filter, ne_eq, not_true_eq_false, decide_False, find]
      rw [ih]
      by_cases hk : k = pk
      · simp [hk]
      · have : ¬ pk = k := fun h => hk h.symm
        simp [hk, this]
    · have hd : decide ((pk, pv).1 ≠ key) = true := by simpa using hp
      simp only [List.filter, hd, find]
      by_cases hk : pk = k
      · subst hk; simp [hp]
      · simp only [hk, if_false]; exact ih

theorem find_remove (m : HMap K V) (key k : K) :
    find (remove m key).2 k = if k = key then none else find m k :=
  find_filter_ne m key k

theorem find_insert (m : HMap K V) (key k : K) (value : V) :
    find (insert m key value) k = if k = key then some value else find m k := by
  simp only [insert, find, find_remove]
  by_cases hk : key = k
  · simp [hk]
  · have : ¬ k = key := fun h => hk h.symm
    simp [hk, this]

theorem find_map_val (m : HMap K V) (g : V → V) (k : K) :
    find (List.map (fun p => (p.1, g p.2)) m : HMap K V) k = (find m k).map g := by
  induction m with
  | nil => simp [find]
  | cons p rest ih =>
    obtain ⟨pk, pv⟩ := p
    by_cases hk : pk = k
    · simp [find, hk]
    · simp only [List.map, find, hk, if_false]
      exact ih

theorem find_eq_find? (m : HMap K V) (k : K) :
    find m k = (m.find? (fun p => decide (p.1 = k))).map (fun p => p.2) := by
  induction m with
  | nil => simp [find]
  | cons p rest ih =>
    obtain ⟨pk, pv⟩ := p
    by_cases hk : pk = k
    · simp [find, hk, List.find?]
    · simp only [find, hk, if_false, List.find?, decide_False]
      exact ih

end HMap

namespace EntryManager

variable {Score : Type}

theorem find_store_heap_idx (db : HMap Bytes (Entry Score)) (a v : Nat) (k : Bytes) :
    HMap.find (store_heap_idx db a v) k
      = (HMap.find db k).map (fun e => if e.addr = a then { e with heap_idx := v } else e) :=
  HMap.find_map_val db (fun e => if e.addr = a then { e with heap_idx := v } else e) k

theorem find_store_value (db : HMap Bytes (Entry Score)) (a : Nat) (v : Value Score)
    (k : Bytes) :
    HMap.find (store_value db a v) k
      = (HMap.find db k).map (fun e => if e.addr = a then { e with value := v } else e) :=
  HMap.find_map_val db (fun e => if e.addr = a then { e with value := v } else e) k

theorem core_find_store_heap_idx (db : HMap Bytes (Entry Score)) (a v : Nat) (k : Bytes) :
    (HMap.find (store_heap_idx db a v) k).map core = (HMap.find db k).map core := by
  rw [find_store_heap_idx]
  cases HMap.find db k with
  | none => rfl
  | some e => by_cases ha : e.addr = a <;> simp [ha, core]

theorem core_find_apply_writes (log : List SlotWrite) :
    ∀ (db : HMap Bytes (Entry Score)) (k : Bytes),
      (HMap.find (apply_writes db log) k).map core = (HMap.find db k).map core := by
  induction log with
  | nil => intro db k; rfl
  | cons w rest ih =>
    intro db k
    simp only [apply_writes, List.foldl] at ih ⊢
    rw [ih, core_find_store_heap_idx]

end EntryManager

/-! ## Properties of the commands -/

section Dispatch

variable {Score : Type} (lib : StdLib Score) (now : Nat)

theorem dispatch_set (rest : List Bytes) (r : Bytes) (m : EntryManager Score) :
    CommandProcessor.process_command lib now
        { args := ascii "SET" :: rest, response := r, entry_manager := m }
      = CommandProcessor.handle_set
        { args := ascii "SET" :: rest, response := r, entry_manager := m } := rfl

theorem dispatch_get (rest : List Bytes) (r : Bytes) (m : EntryManager Score) :
    CommandProcessor.process_command lib now
        { args := ascii "GET" :: rest, response := r, entry_manager := m }
      = CommandProcessor.handle_get
        { args := ascii "GET" :: rest, response := r, entry_manager := m } := rfl

theorem dispatch_del (rest : List Bytes) (r : Bytes) (m : EntryManager Score) :
    CommandProcessor.process_command lib now
        { args := ascii "DEL" :: rest, response := r, entry_manager := m }
      = CommandProcessor.handle_del
        { args := ascii "DEL" :: rest, response := r, entry_manager := m } := rfl

theorem dispatch_exists (rest : List Bytes) (r : Bytes) (m : EntryManager Score) :
    CommandProcessor.process_command lib now
        { args := ascii "EXISTS" :: rest, response := r, entry_manager := m }
      = CommandProcessor.handle_exists
        { args := ascii "EXISTS" :: rest, response := r, entry_manager := m } := rfl

theorem dispatch_zadd (rest : List Bytes) (r : Bytes) (m : EntryManager Score) :
    CommandProcessor.process_command lib now
        { args := ascii "ZADD" :: rest, response := r, entry_manager := m }
      = CommandProcessor.handle_zadd lib
        { args := ascii "ZADD" :: rest, response := r, entry_manager := m } := rfl

theorem dispatch_zrem (rest : List Bytes) (r : Bytes) (m : EntryManager Score) :
    CommandProcessor.process_command lib now
        { args := ascii "ZREM" :: rest, response := r, entry_manager := m }
      = CommandProcessor.handle_zrem
        { args := ascii "ZREM" :: rest, response := r, entry_manager := m } := rfl

theorem dispatch_pexpire (rest : List Bytes) (r : Bytes) (m : EntryManager Score) :
    CommandProcessor.process_command lib now
        { args := ascii "PEXPIRE" :: rest, response := r, entry_manager := m }
      = CommandProcessor.handle_pexpire now
        { args := ascii "PEXPIRE" :: rest, response := r, entry_manager := m } := rfl

theorem dispatch_pttl (rest : List Bytes) (r : Bytes) (m : EntryManager Score) :
    CommandProcessor.process_command lib now
        { args := ascii "PTTL" :: rest, response := r, entry_manager := m }
      = CommandProcessor.handle_pttl now
        { args := ascii "PTTL" :: rest, response := r, entry_manager := m } := rfl

theorem run_get (m : EntryManager Score) (k : Bytes) :
    run lib now m [ascii "GET", k]
      = some (match m.find_entry k with
          | none => ResponseSerializer.serialize_nil []
          | some entry =>
            match entry.value with
            | .string value => ResponseSerializer.serialize_string [] value
            | .zset _ => ResponseSerializer.serialize_error [] ERR_TYPE
                (ascii "Key holds wrong type\n"), m) := by
  rw [run, dispatch_get]
  simp only [CommandProcessor.handle_get]
  cases m.find_entry k with
  | none => rfl
  | some e =>
    obtain ⟨a, i, ky, val⟩ := e
    cases val <;> rfl

theorem run_exists (m : EntryManager Score) (k : Bytes) :
    run lib now m [ascii "EXISTS", k]
      = some (ResponseSerializer.serialize_integer []
          (if (m.find_entry k).isSome then 1 else 0), m) := by
  rw [run, dispatch_exists]; rfl

theorem run_set (m : EntryManager Score) (k v : Bytes) :
    run lib now m [ascii "SET", k, v]
      = some (ResponseSerializer.serialize_string [] (ascii "OK"),
          (m.create_entry k (.string v)).1) := by
  rw [run, dispatch_set]; rfl

theorem run_del (m : EntryManager Score) (k : Bytes) :
    run lib now m [ascii "DEL", k]
      = (m.delete_entry k).map (fun r =>
          (ResponseSerializer.serialize_integer [] (if r.2 then 1 else 0), r.1)) := by
  rw [run, dispatch_del]
  simp only [CommandProcessor.handle_del]
  cases m.delete_entry k <;> rfl

end Dispatch

namespace EntryManager

variable {Score : Type}

theorem pop_isSome {T : Type} (compare_ : T → T → Bool) (items : List (HeapItem T))
    (h : items ≠ []) : ∃ r, BinaryHeap.pop_unlocked compare_ items = some r := by
  cases items with
  | nil => exact absurd rfl h
  | cons x rest =>
    simp only [BinaryHeap.pop_unlocked]
    by_cases hl : (x :: rest).length > 1
    · simp only [hl, if_true]
      cases hg : (x :: rest).getLast? with
      | none => simp at hg
      | some back => exact ⟨_, rfl⟩
    · simp only [hl, if_false]
      exact ⟨_, rfl⟩

/-- The call `pop()` has no result: `empty()` locks the mutex that `pop()` holds. -/
theorem pop_eq_none {T : Type} (compare_ : T → T → Bool) (items : List (HeapItem T)) :
    BinaryHeap.pop compare_ items = none := rfl

/-- About `remove_from_heap`: it returns false for a slot outside the heap, and calls
`pop()`, which has no result, for a slot inside. -/
theorem remove_from_heap_eq (m : EntryManager Score) (entry : Entry Score) :
    remove_from_heap m entry
      = if entry.heap_idx ≥ BinaryHeap.size m.heap_ then some (m, false) else none := by
  unfold remove_from_heap
  by_cases hidx : entry.heap_idx ≥ BinaryHeap.size m.heap_
  · simp only [hidx, if_true]
  · simp only [hidx, if_false, pop_eq_none]

theorem delete_entry_absent (m : EntryManager Score) (k : Bytes)
    (h : m.find_entry k = none) : delete_entry m k = some (m, false) := by
  simp only [find_entry] at h
  simp [delete_entry, h]

/-- About `delete_entry` of a key whose entry has a slot in the expiry heap:
`remove_from_heap` calls `pop()`, and the call has no result. -/
theorem delete_entry_with_slot (m : EntryManager Score) (k : Bytes) (e : Entry Score)
    (h : m.find_entry k = some e) (hidx : e.heap_idx ≠ SIZE_MAX)
    (hsize : e.heap_idx < BinaryHeap.size m.heap_) : delete_entry m k = none := by
  simp only [find_entry] at h
  have hge : ¬ e.heap_idx ≥ BinaryHeap.size m.heap_ := by omega
  simp only [delete_entry, h, remove_from_heap_eq, hge, if_false, if_pos hidx, Option.map_none']

/-- About `delete_entry` of a key whose entry has no slot in the expiry heap (it has
no TTL, or its `heap_idx` is not an index of the heap): the key is removed and
the other entries are left alone. -/
theorem delete_entry_present (m : EntryManager Score) (k : Bytes) (e : Entry Score)
    (h : m.find_entry k = some e)
    (hslot : e.heap_idx = SIZE_MAX ∨ e.heap_idx ≥ BinaryHeap.size m.heap_) :
    ∃ m1, delete_entry m k = some (m1, true)
      ∧ m1.heap_ = m.heap_
      ∧ ∀ k', (m1.find_entry k').map core
          = if k' = k then none else (m.find_entry k').map core := by
  simp only [find_entry] at h ⊢
  simp only [delete_entry, h]
  by_cases hidx : e.heap_idx ≠ SIZE_MAX
  · have hge : e.heap_idx ≥ BinaryHeap.size m.heap_ := by
      rcases hslot with h1 | h1
      · exact absurd h1 hidx
      · exact h1
    rw [if_pos hidx, remove_from_heap_eq, if_pos hge]
    simp only [Option.map_some']
    refine ⟨_, rfl, rfl, fun k' => ?_⟩
    simp only [HMap.find_remove]
    by_cases hk : k' = k
    · simp [hk]
    · simp only [hk, if_false]
  · rw [if_neg hidx]
    simp only [Option.map_some']
    refine ⟨_, rfl, rfl, fun k' => ?_⟩
    simp only [HMap.find_remove]
    by_cases hk : k' = k <;> simp [hk]

end EntryManager

theorem core_value_eq {Score : Type} {a b : Option (Entry Score)}
    (h : a.map EntryManager.core = b.map EntryManager.core) :
    a.map (fun e => e.value) = b.map (fun e => e.value) := by
  cases a <;> cases b <;> simp [EntryManager.core] at h ⊢
  exact h.2.2

theorem core_isSome_eq {Score : Type} {a b : Option (Entry Score)}
    (h : a.map EntryManager.core = b.map EntryManager.core) : a.isSome = b.isSome := by
  cases a <;> cases b <;> simp at h ⊢

/-! ## Properties of the sorted set -/

namespace ZSet

variable {Score : Type}

theorem lookup_eq_some (z : ZSet Score) (name : Bytes) (p : Nat) :
    lookup z name = some p ↔ HMap.find z.hash name = some (some p) := by
  unfold lookup
  cases h : HMap.find z.hash name with
  | none => simp
  | some q => cases q <;> simp

theorem lookup_eq_none (z : ZSet Score) (name : Bytes) :
    lookup z name = none ↔ ∀ p, HMap.find z.hash name ≠ some (some p) := by
  unfold lookup
  cases h : HMap.find z.hash name with
  | none => simp
  | some q => cases q <;> simp

theorem le_foldr_max (l : List Nat) (a : Nat) (h : a ∈ l) : a ≤ l.foldr max 0 := by
  induction l with
  | nil => cases h
  | cons x rest ih =>
    simp only [List.foldr]
    rcases List.mem_cons.mp h with h | h
    · subst h; exact le_max_left _ _
    · exact le_trans (ih h) (le_max_right _ _)

theorem find?_fresh (nodes : List (Nat × ZNode Score)) :
    nodes.find? (fun n => decide (n.1 = 1 + (nodes.map (fun n => n.1)).foldr max 0)) = none := by
  rw [List.find?_eq_none]
  intro n hn
  have : n.1 ≤ (nodes.map (fun n => n.1)).foldr max 0 :=
    le_foldr_max _ _ (List.mem_map_of_mem (fun n => n.1) hn)
  simp only [decide_eq_true_eq]
  omega

theorem find?_map_node (nodes : List (Nat × ZNode Score)) (g : Nat × ZNode Score → ZNode Score)
    (q : Nat) :
    (nodes.map (fun n => (n.1, g n))).find? (fun n => decide (n.1 = q))
      = (nodes.find? (fun n => decide (n.1 = q))).map (fun n => (n.1, g n)) := by
  induction nodes with
  | nil => rfl
  | cons n rest ih =>
    by_cases hq : n.1 = q
    · simp [List.find?, hq]
    · simp [List.find?, hq, ih]

theorem find?_filter_ne (nodes : List (Nat × ZNode Score)) (p q : Nat) (h : q ≠ p) :
    (nodes.filter (fun n => decide (n.1 ≠ p))).find? (fun n => decide (n.1 = q))
      = nodes.find? (fun n => decide (n.1 = q)) := by
  induction nodes with
  | nil => rfl
  | cons n rest ih =>
    by_cases hp : n.1 = p
    · have hq : ¬ n.1 = q := fun hq => h (hq.symm.trans hp)
      have hd : decide (n.1 ≠ p) = false := by simp [hp]
      rw [List.filter_cons, hd, List.find?_cons]
      simp only [Bool.false_eq_true, if_false, hq, decide_False]
      exact ih
    · have hd : decide (n.1 ≠ p) = true := by simp [hp]
      rw [List.filter_cons, hd]
      simp only [if_true, List.find?_cons]
      rw [ih]

theorem WF_empty : (empty : ZSet Score).WF := by
  intro name p h
  simp [empty, HMap.find] at h

theorem isEmpty_eq_false {name : Bytes} (h : name ≠ []) : name.isEmpty = false := by
  cases name with
  | nil => exact absurd rfl h
  | cons _ _ => rfl

/-- The call `add_internal` has no result: `lookup` locks the mutex that
`add_internal` holds. -/
theorem add_internal_eq_none (z : ZSet Score) (name : Bytes) (s : Score) :
    add_internal z name s = none := rfl

/-- About `add_internal_unlocked` of a non-empty name on a well-formed set: the reply
tells whether the name is new, afterwards the name has the given score, and the
set is well formed. -/
theorem add_internal_spec (z : ZSet Score) (hz : z.WF) (name : Bytes) (hname : name ≠ [])
    (s : Score) :
    ∃ z', add_internal_unlocked z name s = some (z', !(lookup z name).isSome)
      ∧ score_of z' name = some s ∧ z'.WF := by
  have hne := isEmpty_eq_false hname
  unfold add_internal_unlocked
  cases hl : lookup z name with
  | some p =>
    have hfind := (lookup_eq_some z name p).mp hl
    obtain ⟨n, hderef, hkey⟩ := hz name p hfind
    simp only [update_score, hderef, hkey, hne, hfind, Option.map_some', Option.isSome_some,
      Bool.not_true, Bool.false_eq_true, if_false]
    refine ⟨_, rfl, ?_, ?_⟩
    · simp only [score_of, lookup, hfind, Option.some_bind, deref, find?_map_node]
      simp only [deref] at hderef
      cases hf : z.nodes_.find? (fun n => decide (n.1 = p)) with
      | none => simp [hf] at hderef
      | some q =>
        have hq : q.1 = p := by simpa using List.find?_some hf
        simp [hq]
    · intro name' p' h'
      obtain ⟨n', hd', hk'⟩ := hz name' p' h'
      simp only [deref, find?_map_node] at hd' ⊢
      cases hf : z.nodes_.find? (fun n => decide (n.1 = p')) with
      | none => simp [hf] at hd'
      | some q =>
        simp only [hf, Option.map_some', Option.some.injEq] at hd'
        subst hd'
        by_cases hq : q.1 = p <;> simp [hq, hk']
  | none =>
    simp only [hne, Bool.false_eq_true, if_false, Option.isSome_none, Bool.not_false]
    refine ⟨_, rfl, ?_, ?_⟩
    · simp only [score_of, lookup, HMap.find_insert, if_true, Option.some_bind, deref,
        List.find?_append, fresh_addr, find?_fresh]
      simp
    · intro name' p' h'
      simp only [HMap.find_insert] at h'
      by_cases hn : name' = name
      · simp only [hn, if_true, Option.some.injEq] at h'
        subst h'
        refine ⟨{ key := name, value := s }, ?_, hn.symm⟩
        simp only [deref, List.find?_append, fresh_addr, find?_fresh]
        simp
      · simp only [hn, if_false] at h'
        obtain ⟨n', hd', hk'⟩ := hz name' p' h'
        refine ⟨n', ?_, hk'⟩
        simp only [deref, List.find?_append] at hd' ⊢
        cases hf : z.nodes_.find? (fun n => decide (n.1 = p')) with
        | none => simp [hf] at hd'
        | some q => simpa [hf] using hd'

/-- About `add_internal_unlocked` of the empty name on a well-formed set: nothing is
added and the reply is "not added". -/
theorem add_internal_empty (z : ZSet Score) (hz : z.WF) (s : Score) :
    add_internal_unlocked z [] s = some (z, false) := by
  unfold add_internal_unlocked
  cases hl : lookup z [] with
  | some p =>
    have hfind := (lookup_eq_some z [] p).mp hl
    obtain ⟨n, hderef, hkey⟩ := hz [] p hfind
    simp [update_score, hderef, hkey]
  | none => simp

/-- About `remove_internal` on a well-formed set: the reply tells whether the name was
a member, afterwards it is none, every other name keeps its score, and the set
is well formed. -/
theorem remove_internal_spec (z : ZSet Score) (hz : z.WF) (name : Bytes) :
    ∃ z', remove_internal z name = some (z', (lookup z name).isSome)
      ∧ lookup z' name = none
      ∧ (∀ name', name' ≠ name → score_of z' name' = score_of z name')
      ∧ z'.WF := by
  cases hl : lookup z name with
  | none =>
    have hnone := (lookup_eq_none z name).mp hl
    have : remove_internal z name = some (z, false) := by
      unfold remove_internal
      cases hf : HMap.find z.hash name with
      | none => rfl
      | some q =>
        cases q with
        | none => rfl
        | some p => exact absurd hf (hnone p)
    rw [this]
    exact ⟨z, rfl, hl, fun _ _ => rfl, hz⟩
  | some p =>
    have hfind := (lookup_eq_some z name p).mp hl
    obtain ⟨n, hderef, hkey⟩ := hz name p hfind
    unfold remove_internal
    simp only [hfind, hderef, Option.isSome_some]
    have hother : ∀ name' p', name' ≠ name → HMap.find z.hash name' = some (some p') →
        p' ≠ p := by
      intro name' p' hne h' hpp
      obtain ⟨n', hd', hk'⟩ := hz name' p' h'
      rw [hpp, hderef] at hd'
      simp only [Option.some.injEq] at hd'
      exact hne (by rw [← hk', ← hd', hkey])
    refine ⟨_, rfl, ?_, ?_, ?_⟩
    · rw [lookup_eq_none]; intro q; simp [HMap.find_remove]
    · intro name' hne
      simp only [score_of, lookup, HMap.find_remove, hne, if_false]
      cases hf : HMap.find z.hash name' with
      | none => rfl
      | some q =>
        cases q with
        | none => rfl
        | some p' =>
          have hp' := hother name' p' hne hf
          simp only [Option.some_bind, deref, find?_filter_ne _ _ _ hp']
    · intro name' p' h'
      simp only [HMap.find_remove] at h'
      by_cases hn : name' = name
      · simp [hn] at h'
      · simp only [hn, if_false] at h'
        obtain ⟨n', hd', hk'⟩ := hz name' p' h'
        refine ⟨n', ?_, hk'⟩
        simp only [deref, find?_filter_ne _ _ _ (hother name' p' hn h')] at hd' ⊢
        exact hd'

end ZSet

/-! ## Sorted-set commands -/

section ZCommands

variable {Score : Type} (lib : StdLib Score) (now : Nat)

theorem find_entry_store_value (m : EntryManager Score) (k : Bytes) (e : Entry Score)
    (v : Value Score) (h : m.find_entry k = some e) :
    EntryManager.find_entry
        { m with db_ := EntryManager.store_value m.db_ e.addr v } k
      = some { e with value := v } := by
  simp only [EntryManager.find_entry] at h ⊢
  simp [EntryManager.find_store_value, h]

theorem is_member_of_find (m : EntryManager Score) (k name : Bytes) (e : Entry Score)
    (z : ZSet Score) (h : m.find_entry k = some e) (hv : e.value = .zset z) :
    is_member m k name = (z.lookup name).isSome := by
  simp [is_member, h, hv]

theorem member_score_of_find (m : EntryManager Score) (k name : Bytes) (e : Entry Score)
    (z : ZSet Score) (h : m.find_entry k = some e) (hv : e.value = .zset z) :
    member_score m k name = z.score_of name := by
  simp [member_score, h, hv]

theorem run_zrem_absent (m : EntryManager Score) (k name : Bytes)
    (h : m.find_entry k = none) :
    run lib now m [ascii "ZREM", k, name]
      = some (ResponseSerializer.serialize_integer [] 0, m) := by
  rw [run, dispatch_zrem]
  simp [CommandProcessor.handle_zrem, h]

theorem run_zrem_zset (m : EntryManager Score) (k name : Bytes) (e : Entry Score)
    (z : ZSet Score) (h : m.find_entry k = some e) (hv : e.value = .zset z) :
    run lib now m [ascii "ZREM", k, name]
      = (z.remove_internal name).map (fun r =>
          (ResponseSerializer.serialize_integer [] (if r.2 then 1 else 0),
            { m with db_ := EntryManager.store_value m.db_ e.addr (.zset r.1) })) := by
  rw [run, dispatch_zrem]
  simp only [CommandProcessor.handle_zrem, h, hv]
  cases z.remove_internal name <;> rfl

theorem find_entry_create (m : EntryManager Score) (k : Bytes) (v : Value Score) :
    (m.create_entry k v).1.find_entry k = some (m.create_entry k v).2 := by
  simp [EntryManager.create_entry, EntryManager.find_entry, HMap.find_insert]

end ZCommands

/-! ## Expiry -/

namespace BinaryHeap

variable {T : Type}

theorem length_sift_up_loop (compare_ : T → T → Bool) (temp : HeapItem T) :
    ∀ (fuel : Nat) (items : List (HeapItem T)) (pos : Nat) (log : List SlotWrite),
      (sift_up_loop compare_ temp fuel items pos log).1.length = items.length := by
  intro fuel
  induction fuel with
  | zero => intro items pos log; rfl
  | succ fuel ih =>
    intro items pos log
    simp only [sift_up_loop]
    by_cases hpos : pos > 0
    · simp only [hpos, if_true]
      cases hg : items.get? (parent pos) with
      | none => rfl
      | some p =>
        simp only
        by_cases hc : compare_ temp.value_ p.value_
        · simp only [hc, Bool.not_true, Bool.false_eq_true, if_false]
          rw [ih]; simp
        · simp [hc]
    · simp [hpos]

theorem length_sift_up (compare_ : T → T → Bool) (items : List (HeapItem T)) (pos : Nat) :
    (sift_up compare_ items pos).1.length = items.length := by
  unfold sift_up
  cases hg : items.get? pos with
  | none => rfl
  | some temp => simp [length_sift_up_loop]

theorem update_isSome (compare_ : T → T → Bool) (items : List (HeapItem T)) (pos : Nat)
    (h : pos < items.length) : ∃ r, update compare_ items pos = some r := by
  unfold update
  cases hg : items.get? pos with
  | none =>
    rw [List.get?_eq_none] at hg
    omega
  | some cur =>
    simp only
    split <;> exact ⟨_, rfl⟩

end BinaryHeap

namespace EntryManager

variable {Score : Type}

theorem set_entry_ttl_spec (m : EntryManager Score) (now : Nat) (entry : Entry Score)
    (ttl_ms : Int) (h : 0 < ttl_ms) :
    ∃ m1, set_entry_ttl m now entry ttl_ms = some (m1, true)
      ∧ ∀ k, (HMap.find m1.db_ k).map core = (HMap.find m.db_ k).map core := by
  have hnot : ¬ ttl_ms ≤ 0 := by omega
  simp only [set_entry_ttl, hnot, if_false]
  by_cases hidx : entry.heap_idx = SIZE_MAX
  · simp only [hidx, if_true, add_to_heap, ne_eq, not_true_eq_false, if_false]
    obtain ⟨⟨items, log⟩, hup⟩ := BinaryHeap.update_isSome less
      (BinaryHeap.push less m.heap_
        { value_ := (now + (ttl_ms % 2 ^ 64).toNat * 1000) % 2 ^ 64,
          position_ref_ := some entry.addr }).1
      (BinaryHeap.size (BinaryHeap.push less m.heap_
        { value_ := (now + (ttl_ms % 2 ^ 64).toNat * 1000) % 2 ^ 64,
          position_ref_ := some entry.addr }).1 - 1)
      (by simp [BinaryHeap.size, BinaryHeap.push, BinaryHeap.length_sift_up])
    rw [hup]
    refine ⟨_, rfl, fun k => ?_⟩
    simp only [core_find_apply_writes, core_find_store_heap_idx]
  · simp only [hidx, if_false, update_heap]
    by_cases hsz : entry.heap_idx ≥ BinaryHeap.size m.heap_
    · simp only [hsz, if_true, Option.map_some']
      exact ⟨m, rfl, fun _ => rfl⟩
    · simp only [hsz, if_false, BinaryHeap.get]
      have hlt : entry.heap_idx < m.heap_.length := by
        simpa [BinaryHeap.size] using hsz
      cases hg : m.heap_.get? entry.heap_idx with
      | none =>
        rw [List.get?_eq_none] at hg
        omega
      | some item =>
        simp only
        obtain ⟨⟨items, log⟩, hup⟩ := BinaryHeap.update_isSome less
          (m.heap_.set entry.heap_idx
            { item with value_ := (now + (ttl_ms % 2 ^ 64).toNat * 1000) % 2 ^ 64 })
          entry.heap_idx (by simpa using hlt)
        rw [hup]
        refine ⟨_, rfl, fun k => ?_⟩
        simp only [core_find_apply_writes]

theorem get_expiry_time_spec (m : EntryManager Score) (now : Nat) (entry : Entry Score) :
    ∃ ttl, get_expiry_time m now entry = some ttl ∧ (ttl = -1 ∨ 0 < ttl) := by
  unfold get_expiry_time
  by_cases hc : entry.heap_idx = SIZE_MAX ∨ entry.heap_idx ≥ BinaryHeap.size m.heap_
  · rw [if_pos hc]
    exact ⟨-1, rfl, Or.inl rfl⟩
  · rw [if_neg hc]
    have hlt : entry.heap_idx < m.heap_.length := by
      simp only [BinaryHeap.size, not_or] at hc
      omega
    simp only [BinaryHeap.get]
    cases hg : m.heap_.get? entry.heap_idx with
    | none =>
      rw [List.get?_eq_none] at hg
      omega
    | some item =>
      simp only
      by_cases hpos : to_int64 ((item.value_ + 2 ^ 64 - now) % 2 ^ 64 / 1000) > 0
      · refine ⟨_, rfl, Or.inr ?_⟩
        rw [if_pos hpos]; exact hpos
      · refine ⟨_, rfl, Or.inl ?_⟩
        rw [if_neg hpos]

end EntryManager

section TtlCommands

variable {Score : Type} (lib : StdLib Score) (now : Nat)

theorem run_pexpire_present (m : EntryManager Score) (k x : Bytes) (t : Int)
    (e : Entry Score) (hx : CommandProcessor.parse_int x = some t) (ht : 0 ≤ t)
    (h : m.find_entry k = some e) :
    run lib now m [ascii "PEXPIRE", k, x]
      = (m.set_entry_ttl now e t).map (fun r =>
          (ResponseSerializer.serialize_integer [] (if r.2 then 1 else 0), r.1)) := by
  have hneg : ¬ t < 0 := by omega
  rw [run, dispatch_pexpire]
  simp only [CommandProcessor.handle_pexpire, hx, hneg, if_false, h]
  cases m.set_entry_ttl now e t <;> rfl

theorem run_pttl_present (m : EntryManager Score) (k : Bytes) (e : Entry Score)
    (h : m.find_entry k = some e) :
    run lib now m [ascii "PTTL", k]
      = (m.get_expiry_time now e).map (fun ttl =>
          (ResponseSerializer.serialize_integer [] ttl, m)) := by
  rw [run, dispatch_pttl]
  simp only [CommandProcessor.handle_pttl, h]
  cases m.get_expiry_time now e <;> rfl

end TtlCommands

/-! ## The sorted sets of every reachable keyspace are well formed -/

section Reachable

variable {Score : Type}

theorem KeyspaceWF_init : KeyspaceWF (EntryManager.init : EntryManager Score) := by
  intro k e z h
  simp [EntryManager.init, EntryManager.find_entry, HMap.find] at h

theorem KeyspaceWF_of_core (m m1 : EntryManager Score)
    (h : ∀ k, m1.find_entry k = none
      ∨ (m1.find_entry k).map EntryManager.core = (m.find_entry k).map EntryManager.core)
    (hm : KeyspaceWF m) : KeyspaceWF m1 := by
  intro k e z he hv
  rcases h k with h0 | hc
  · rw [he] at h0; cases h0
  · have := core_value_eq hc
    rw [he] at this
    cases h2 : m.find_entry k with
    | none => simp [h2] at this
    | some e0 =>
      simp only [h2, Option.map_some', Option.some.injEq] at this
      exact hm k e0 z h2 (by rw [← this, hv])

theorem KeyspaceWF_store_value (m : EntryManager Score) (a : Nat) (z : ZSet Score)
    (hz : z.WF) (hm : KeyspaceWF m) :
    KeyspaceWF { m with db_ := EntryManager.store_value m.db_ a (.zset z) } := by
  intro k e z1 he hv
  simp only [EntryManager.find_entry, EntryManager.find_store_value] at he
  cases h0 : HMap.find m.db_ k with
  | none => simp [h0] at he
  | some e0 =>
    simp only [h0, Option.map_some', Option.some.injEq] at he
    by_cases ha : e0.addr = a
    · simp only [ha, if_true] at he
      subst he
      simp only [Value.zset.injEq] at hv
      subst hv
      exact hz
    · simp only [ha, if_false] at he
      subst he
      exact hm k e0 z1 h0 hv

theorem KeyspaceWF_create (m : EntryManager Score) (k : Bytes) (v : Value Score)
    (hv : ∀ z, v = .zset z → z.WF) (hm : KeyspaceWF m) :
    KeyspaceWF (m.create_entry k v).1 := by
  intro k1 e z he hz
  simp only [EntryManager.create_entry, EntryManager.find_entry, HMap.find_insert] at he
  by_cases hk : k1 = k
  · simp only [hk, if_true, Option.some.injEq] at he
    subst he
    exact hv z hz
  · simp only [hk, if_false] at he
    exact hm k1 e z he hz

theorem KeyspaceWF_delete (m m1 : EntryManager Score) (k : Bytes) (b : Bool)
    (h : m.delete_entry k = some (m1, b)) (hm : KeyspaceWF m) : KeyspaceWF m1 := by
  cases hf : m.find_entry k with
  | none =>
    rw [EntryManager.delete_entry_absent m k hf] at h
    simp only [Option.some.injEq, Prod.mk.injEq] at h
    rw [← h.1]; exact hm
  | some e =>
    by_cases hslot : e.heap_idx = SIZE_MAX ∨ e.heap_idx ≥ BinaryHeap.size m.heap_
    · obtain ⟨m2, hdel, _, hcore⟩ := EntryManager.delete_entry_present m k e hf hslot
      rw [hdel] at h
      simp only [Option.some.injEq, Prod.mk.injEq] at h
      rw [← h.1]
      refine KeyspaceWF_of_core m m2 (fun k' => ?_) hm
      have := hcore k'
      by_cases hk : k' = k
      · left
        subst hk
        simpa using this
      · right
        simpa [hk] using this
    · push_neg at hslot
      rw [EntryManager.delete_entry_with_slot m k e hf hslot.1 hslot.2] at h
      cases h

theorem add_internal_WF (z z1 : ZSet Score) (name : Bytes) (s : Score) (b : Bool)
    (h : z.add_internal_unlocked name s = some (z1, b)) (hz : z.WF) : z1.WF := by
  by_cases hn : name = []
  · subst hn
    rw [ZSet.add_internal_empty z hz s] at h
    simp only [Option.some.injEq, Prod.mk.injEq] at h
    rw [← h.1]; exact hz
  · obtain ⟨z2, hadd, _, hz2⟩ := ZSet.add_internal_spec z hz name hn s
    rw [hadd] at h
    simp only [Option.some.injEq, Prod.mk.injEq] at h
    rw [← h.1]; exact hz2

theorem remove_internal_WF (z z1 : ZSet Score) (name : Bytes) (b : Bool)
    (h : z.remove_internal name = some (z1, b)) (hz : z.WF) : z1.WF := by
  obtain ⟨z2, hrem, _, _, hz2⟩ := ZSet.remove_internal_spec z hz name
  rw [hrem] at h
  simp only [Option.some.injEq, Prod.mk.injEq] at h
  rw [← h.1]; exact hz2

theorem KeyspaceWF_handle_zadd (lib : StdLib Score) (ctx ctx1 : CommandContext Score)
    (h : CommandProcessor.handle_zadd lib ctx = some ctx1)
    (hm : KeyspaceWF ctx.entry_manager) : KeyspaceWF ctx1.entry_manager := by
  unfold CommandProcessor.handle_zadd at h
  split at h
  · split at h
    · cases h; exact hm
    · split at h
      · split at h
        · simp only [CommandProcessor.zadd_finish, ZSet.add_internal_eq_none,
            Option.map_none'] at h
          cases h
        · cases h; exact hm
      · simp only [CommandProcessor.zadd_finish, ZSet.add_internal_eq_none,
          Option.map_none'] at h
        cases h
  · cases h; exact hm

theorem KeyspaceWF_handle_zrem (ctx ctx1 : CommandContext Score)
    (h : CommandProcessor.handle_zrem ctx = some ctx1)
    (hm : KeyspaceWF ctx.entry_manager) : KeyspaceWF ctx1.entry_manager := by
  unfold CommandProcessor.handle_zrem at h
  split at h
  · split at h
    · cases h; exact hm
    · split at h
      · obtain ⟨r, hrem, hctx⟩ := Option.map_eq_some'.mp h
        subst hctx
        exact KeyspaceWF_store_value _ _ _
          (remove_internal_WF _ r.1 _ r.2 hrem (hm _ _ _ (by assumption) (by assumption))) hm
      · cases h; exact hm
  · cases h; exact hm

theorem KeyspaceWF_handle_pexpire (now : Nat) (ctx ctx1 : CommandContext Score)
    (h : CommandProcessor.handle_pexpire now ctx = some ctx1)
    (hm : KeyspaceWF ctx.entry_manager) : KeyspaceWF ctx1.entry_manager := by
  unfold CommandProcessor.handle_pexpire at h
  split at h
  · split at h
    · cases h; exact hm
    · split at h
      · cases h; exact hm
      · split at h
        · cases h; exact hm
        · obtain ⟨r, hset, hctx⟩ := Option.map_eq_some'.mp h
          subst hctx
          rename_i ttl_ms _ _ _ entry _
          by_cases hpos : 0 < ttl_ms
          · obtain ⟨m1, hspec, hcore⟩ :=
              EntryManager.set_entry_ttl_spec ctx.entry_manager now entry ttl_ms hpos
            rw [hspec] at hset
            simp only [Option.some.injEq] at hset
            subst hset
            exact KeyspaceWF_of_core _ _ (fun k => Or.inr (hcore k)) hm
          · have hle : ttl_ms ≤ 0 := by omega
            simp only [EntryManager.set_entry_ttl, hle, if_true] at hset
            exact KeyspaceWF_delete _ _ _ r.2 hset hm
  · cases h; exact hm

theorem KeyspaceWF_process_command (lib : StdLib Score) (now : Nat)
    (ctx ctx1 : CommandContext Score)
    (h : CommandProcessor.process_command lib now ctx = some ctx1)
    (hm : KeyspaceWF ctx.entry_manager) : KeyspaceWF ctx1.entry_manager := by
  unfold CommandProcessor.process_command at h
  split at h
  · cases h; exact hm
  · rename_i arg0 rest hargs
    simp only [CommandProcessor.command_handlers] at h
    split_ifs at h
    · -- get
      simp only [CommandProcessor.handle_get] at h
      split at h
      · split at h
        · cases h; exact hm
        · split at h <;> (cases h; exact hm)
      · cases h; exact hm
    · -- set
      simp only [CommandProcessor.handle_set] at h
      split at h
      · cases h
        exact KeyspaceWF_create _ _ _ (fun z hz => by cases hz) hm
      · cases h; exact hm
    · -- del
      simp only [CommandProcessor.handle_del] at h
      split at h
      · obtain ⟨r, hdel, hctx⟩ := Option.map_eq_some'.mp h
        subst hctx
        exact KeyspaceWF_delete _ _ _ r.2 hdel hm
      · cases h; exact hm
    · -- exists
      simp only [CommandProcessor.handle_exists] at h
      split at h <;> (cases h; exact hm)
    · exact KeyspaceWF_handle_zadd lib ctx ctx1 h hm
    · exact KeyspaceWF_handle_zrem ctx ctx1 h hm
    · -- flushall
      simp only [CommandProcessor.handle_flushall, Option.some.injEq] at h
      subst h
      intro k e z he
      simp [EntryManager.clear_all, EntryManager.find_entry, HMap.clear, HMap.find] at he
    · exact KeyspaceWF_handle_pexpire now ctx ctx1 h hm
    · -- pttl
      simp only [CommandProcessor.handle_pttl] at h
      split at h
      · split at h
        · cases h; exact hm
        · obtain ⟨r, _, hctx⟩ := Option.map_eq_some'.mp h
          subst hctx
          exact hm
      · cases h; exact hm
    · cases h; exact hm

/-- Every keyspace that a sequence of commands builds on a fresh server has only
well-formed sorted sets. -/
theorem KeyspaceWF_run_all (lib : StdLib Score) :
    ∀ (cmds : List (Nat × List Bytes)) (m m1 : EntryManager Score) (replies : List Bytes),
      run_all lib cmds m = some (replies, m1) → KeyspaceWF m → KeyspaceWF m1 := by
  intro cmds
  induction cmds with
  | nil =>
    intro m m1 replies h hm
    simp only [run_all, Option.some.injEq, Prod.mk.injEq] at h
    rw [← h.2]; exact hm
  | cons c rest ih =>
    intro m m1 replies h hm
    obtain ⟨now, args⟩ := c
    simp only [run_all] at h
    cases hrun : run lib now m args with
    | none => simp [hrun] at h
    | some r =>
      obtain ⟨reply, m2⟩ := r
      simp only [hrun] at h
      cases hrest : run_all lib rest m2 with
      | none => simp [hrest] at h
      | some r2 =>
        obtain ⟨replies2, m3⟩ := r2
        simp only [hrest, Option.some.injEq, Prod.mk.injEq] at h
        rw [← h.2]
        refine ih m2 m3 replies2 hrest ?_
        simp only [run] at hrun
        cases hp : CommandProcessor.process_command lib now
            { args := args, response := [], entry_manager := m } with
        | none => simp [hp] at hrun
        | some ctx1 =>
          simp only [hp, Option.map_some', Option.some.injEq, Prod.mk.injEq] at hrun
          rw [← hrun.2]
          exact KeyspaceWF_process_command lib now _ ctx1 hp hm

end Reachable

/-! ## Command names and arities -/

theorem tolower_same_letter (x y : Byte) (h : same_letter x y) : tolower x = tolower y := by
  have hx := x.isLt
  have hy := y.isLt
  rcases h with h | ⟨h1, h2, h3⟩ | ⟨h1, h2, h3⟩
  · rw [h]
  · have hny : ¬ (65 ≤ y.val ∧ y.val ≤ 90) := by omega
    simp only [tolower, h1, h2, and_self, if_true, hny, if_false]
    apply Fin.ext
    simp only [byte]
    omega
  · have hnx : ¬ (65 ≤ x.val ∧ x.val ≤ 90) := by omega
    simp only [tolower, h1, h2, and_self, if_true, hnx, if_false]
    apply Fin.ext
    simp only [byte]
    omega

theorem map_tolower_of_differs (a b : Bytes) (h : differs_only_in_case a b) :
    a.map tolower = b.map tolower := by
  induction h with
  | nil => rfl
  | cons hxy _ ih => simp only [List.map, tolower_same_letter _ _ hxy, ih]

section HeadIndependent

variable {Score : Type}

theorem handle_get_head (a b : Bytes) (rest : List Bytes) (r : Bytes)
    (m : EntryManager Score) :
    (CommandProcessor.handle_get { args := a :: rest, response := r, entry_manager := m }).map
        CommandContext.outcome
      = (CommandProcessor.handle_get
          { args := b :: rest, response := r, entry_manager := m }).map
        CommandContext.outcome := by
  rcases rest with _ | ⟨x, _ | ⟨y, rest⟩⟩
  · rfl
  · simp only [CommandProcessor.handle_get]
    cases m.find_entry x with
    | none => rfl
    | some e =>
      obtain ⟨ea, ei, ek, ev⟩ := e
      cases ev <;> rfl
  · rfl

theorem handle_set_head (a b : Bytes) (rest : List Bytes) (r : Bytes)
    (m : EntryManager Score) :
    (CommandProcessor.handle_set { args := a :: rest, response := r, entry_manager := m }).map
        CommandContext.outcome
      = (CommandProcessor.handle_set
          { args := b :: rest, response := r, entry_manager := m }).map
        CommandContext.outcome := by
  rcases rest with _ | ⟨x, _ | ⟨y, _ | ⟨z, rest⟩⟩⟩ <;> rfl

theorem handle_del_head (a b : Bytes) (rest : List Bytes) (r : Bytes)
    (m : EntryManager Score) :
    (CommandProcessor.handle_del { args := a :: rest, response := r, entry_manager := m }).map
        CommandContext.outcome
      = (CommandProcessor.handle_del
          { args := b :: rest, response := r, entry_manager := m }).map
        CommandContext.outcome := by
  rcases rest with _ | ⟨x, _ | ⟨y, rest⟩⟩
  · rfl
  · simp only [CommandProcessor.handle_del]
    cases m.delete_entry x <;> rfl
  · rfl

theorem handle_exists_head (a b : Bytes) (rest : List Bytes) (r : Bytes)
    (m : EntryManager Score) :
    (CommandProcessor.handle_exists
          { args := a :: rest, response := r, entry_manager := m }).map
        CommandContext.outcome
      = (CommandProcessor.handle_exists
          { args := b :: rest, response := r, entry_manager := m }).map
        CommandContext.outcome := by
  rcases rest with _ | ⟨x, _ | ⟨y, rest⟩⟩ <;> rfl

theorem handle_flushall_head (a b : Bytes) (rest : List Bytes) (r : Bytes)
    (m : EntryManager Score) :
    (CommandProcessor.handle_flushall
          { args := a :: rest, response := r, entry_manager := m }).map
        CommandContext.outcome
      = (CommandProcessor.handle_flushall
          { args := b :: rest, response := r, entry_manager := m }).map
        CommandContext.outcome := rfl

theorem handle_zadd_head (lib : StdLib Score) (a b : Bytes) (rest : List Bytes) (r : Bytes)
    (m : EntryManager Score) :
    (CommandProcessor.handle_zadd lib
          { args := a :: rest, response := r, entry_manager := m }).map
        CommandContext.outcome
      = (CommandProcessor.handle_zadd lib
          { args := b :: rest, response := r, entry_manager := m }).map
        CommandContext.outcome := by
  rcases rest with _ | ⟨x, _ | ⟨y, _ | ⟨z, _ | ⟨w, rest⟩⟩⟩⟩
  · rfl
  · rfl
  · rfl
  · simp only [CommandProcessor.handle_zadd]
    cases CommandProcessor.parse_double lib y with
    | none => rfl
    | some s =>
      simp only
      cases m.find_entry x with
      | none =>
        simp only [CommandProcessor.zadd_finish]
        cases (ZSet.empty : ZSet Score).add_internal z s <;> rfl
      | some e =>
        obtain ⟨ea, ei, ek, ev⟩ := e
        cases ev with
        | string v => rfl
        | zset zs =>
          simp only [CommandProcessor.zadd_finish]
          cases zs.add_internal z s <;> rfl
  · rfl

theorem handle_zrem_head (a b : Bytes) (rest : List Bytes) (r : Bytes)
    (m : EntryManager Score) :
    (CommandProcessor.handle_zrem { args := a :: rest, response := r, entry_manager := m }).map
        CommandContext.outcome
      = (CommandProcessor.handle_zrem
          { args := b :: rest, response := r, entry_manager := m }).map
        CommandContext.outcome := by
  rcases rest with _ | ⟨x, _ | ⟨y, _ | ⟨z, rest⟩⟩⟩
  · rfl
  · rfl
  · simp only [CommandProcessor.handle_zrem]
    cases m.find_entry x with
    | none => rfl
    | some e =>
      obtain ⟨ea, ei, ek, ev⟩ := e
      cases ev with
      | string v => rfl
      | zset zs =>
        simp only
        cases zs.remove_internal y <;> rfl
  · rfl

theorem handle_pexpire_head (now : Nat) (a b : Bytes) (rest : List Bytes) (r : Bytes)
    (m : EntryManager Score) :
    (CommandProcessor.handle_pexpire now
          { args := a :: rest, response := r, entry_manager := m }).map
        CommandContext.outcome
      = (CommandProcessor.handle_pexpire now
          { args := b :: rest, response := r, entry_manager := m }).map
        CommandContext.outcome := by
  rcases rest with _ | ⟨x, _ | ⟨y, _ | ⟨z, rest⟩⟩⟩
  · rfl
  · rfl
  · simp only [CommandProcessor.handle_pexpire]
    cases CommandProcessor.parse_int y with
    | none => rfl
    | some t =>
      simp only
      by_cases ht : t < 0
      · simp only [ht, if_true]; rfl
      · simp only [ht, if_false]
        cases m.find_entry x with
        | none => rfl
        | some e =>
          simp only
          cases m.set_entry_ttl now e t <;> rfl
  · rfl

theorem handle_pttl_head (now : Nat) (a b : Bytes) (rest : List Bytes) (r : Bytes)
    (m : EntryManager Score) :
    (CommandProcessor.handle_pttl now
          { args := a :: rest, response := r, entry_manager := m }).map
        CommandContext.outcome
      = (CommandProcessor.handle_pttl now
          { args := b :: rest, response := r, entry_manager := m }).map
        CommandContext.outcome := by
  rcases rest with _ | ⟨x, _ | ⟨y, rest⟩⟩
  · rfl
  · simp only [CommandProcessor.handle_pttl]
    cases m.find_entry x with
    | none => rfl
    | some e =>
      simp only
      cases m.get_expiry_time now e <;> rfl
  · rfl

theorem process_command_head (lib : StdLib Score) (now : Nat) (a b : Bytes)
    (rest : List Bytes) (r : Bytes) (m : EntryManager Score)
    (h : a.map tolower = b.map tolower) :
    (CommandProcessor.process_command lib now
          { args := a :: rest, response := r, entry_manager := m }).map
        CommandContext.outcome
      = (CommandProcessor.process_command lib now
          { args := b :: rest, response := r, entry_manager := m }).map
        CommandContext.outcome := by
  simp only [CommandProcessor.process_command, h, CommandProcessor.command_handlers]
  split_ifs
  · exact handle_get_head a b rest r m
  · exact handle_set_head a b rest r m
  · exact handle_del_head a b rest r m
  · exact handle_exists_head a b rest r m
  · exact handle_zadd_head lib a b rest r m
  · exact handle_zrem_head a b rest r m
  · exact handle_flushall_head a b rest r m
  · exact handle_pexpire_head now a b rest r m
  · exact handle_pttl_head now a b rest r m
  · rfl

theorem run_eq_outcome (lib : StdLib Score) (now : Nat) (m : EntryManager Score)
    (args : List Bytes) :
    run lib now m args
      = (CommandProcessor.process_command lib now
          { args := args, response := [], entry_manager := m }).map
        CommandContext.outcome := rfl

end HeadIndependent

/-! ## Unknown commands, arities, and the heap of a deleted entry -/

section Unknown

variable {Score : Type}

theorem command_handlers_none (lib : StdLib Score) (now : Nat) (name : Bytes)
    (h : ¬ is_command_name name) :
    (CommandProcessor.command_handlers lib now (name.map tolower)).isNone = true := by
  simp only [is_command_name, command_names, List.mem_cons, List.mem_singleton, not_or,
    List.not_mem_nil, or_false] at h
  obtain ⟨h1, h2, h3, h4, h5, h6, h7, h8, h9⟩ := h
  simp only [CommandProcessor.command_handlers, h1, h2, h3, h4, h5, h6, h7, h8, h9, if_false]
  rfl

/-- An argument vector whose first element names no command is answered with the
Error reply of code -2 and the message "unknown command\n"; the keyspace stays
as it was. -/
theorem run_unknown (lib : StdLib Score) (now : Nat) (m : EntryManager Score)
    (name : Bytes) (rest : List Bytes) (h : ¬ is_command_name name) :
    run lib now m (name :: rest)
      = some (ResponseSerializer.serialize_error [] (-2) (ascii "unknown command\n"), m) := by
  have hn := command_handlers_none lib now name h
  simp only [run, CommandProcessor.process_command]
  cases hc : CommandProcessor.command_handlers lib now (name.map tolower) with
  | none => rfl
  | some f => simp [hc] at hn

/-- Eight of the nine handlers check the length of the argument vector first:
with any other length than the arity they reply an Error of code -1 and leave
the keyspace as it was. -/
theorem arity_errors (lib : StdLib Score) (now : Nat) (m : EntryManager Score)
    (rest : List Bytes) :
    (rest.length + 1 ≠ 2 → run lib now m (ascii "GET" :: rest)
        = some (ResponseSerializer.serialize_error [] (-1) (ascii "GET requires one key\n"), m))
    ∧ (rest.length + 1 ≠ 3 → run lib now m (ascii "SET" :: rest)
        = some (ResponseSerializer.serialize_error [] (-1)
            (ascii "SET requires key and value\n"), m))
    ∧ (rest.length + 1 ≠ 2 → run lib now m (ascii "DEL" :: rest)
        = some (ResponseSerializer.serialize_error [] (-1) (ascii "DEL requires key\n"), m))
    ∧ (rest.length + 1 ≠ 2 → run lib now m (ascii "EXISTS" :: rest)
        = some (ResponseSerializer.serialize_error [] (-1) (ascii "EXISTS requires key\n"), m))
    ∧ (rest.length + 1 ≠ 4 → run lib now m (ascii "ZADD" :: rest)
        = some (ResponseSerializer.serialize_error [] (-1)
            (ascii "ZADD requires key, score, and member\n"), m))
    ∧ (rest.length + 1 ≠ 3 → run lib now m (ascii "ZREM" :: rest)
        = some (ResponseSerializer.serialize_error [] (-1)
            (ascii "ZREM requires key and member\n"), m))
    ∧ (rest.length + 1 ≠ 3 → run lib now m (ascii "PEXPIRE" :: rest)
        = some (ResponseSerializer.serialize_error [] (-1)
            (ascii "PEXPIRE requires key and TTL\n"), m))
    ∧ (rest.length + 1 ≠ 2 → run lib now m (ascii "PTTL" :: rest)
        = some (ResponseSerializer.serialize_error [] (-1) (ascii "PTTL requires key\n"), m)) := by
  refine ⟨?_, ?_, ?_, ?_, ?_, ?_, ?_, ?_⟩
  · intro h
    rw [run, dispatch_get]
    rcases rest with _ | ⟨x, _ | ⟨y, rest⟩⟩
    · rfl
    · exact absurd rfl h
    · rfl
  · intro h
    rw [run, dispatch_set]
    rcases rest with _ | ⟨x, _ | ⟨y, _ | ⟨z, rest⟩⟩⟩
    · rfl
    · rfl
    · exact absurd rfl h
    · rfl
  · intro h
    rw [run, dispatch_del]
    rcases rest with _ | ⟨x, _ | ⟨y, rest⟩⟩
    · rfl
    · exact absurd rfl h
    · rfl
  · intro h
    rw [run, dispatch_exists]
    rcases rest with _ | ⟨x, _ | ⟨y, rest⟩⟩
    · rfl
    · exact absurd rfl h
    · rfl
  · intro h
    rw [run, dispatch_zadd]
    rcases rest with _ | ⟨x, _ | ⟨y, _ | ⟨z, _ | ⟨w, rest⟩⟩⟩⟩
    · rfl
    · rfl
    · rfl
    · exact absurd rfl h
    · rfl
  · intro h
    rw [run, dispatch_zrem]
    rcases rest with _ | ⟨x, _ | ⟨y, _ | ⟨z, rest⟩⟩⟩
    · rfl
    · rfl
    · exact absurd rfl h
    · rfl
  · intro h
    rw [run, dispatch_pexpire]
    rcases rest with _ | ⟨x, _ | ⟨y, _ | ⟨z, rest⟩⟩⟩
    · rfl
    · rfl
    · exact absurd rfl h
    · rfl
  · intro h
    rw [run, dispatch_pttl]
    rcases rest with _ | ⟨x, _ | ⟨y, rest⟩⟩
    · rfl
    · exact absurd rfl h
    · rfl

theorem set_entry_ttl_zero (m : EntryManager Score) (now : Nat) (entry : Entry Score) :
    m.set_entry_ttl now entry 0 = m.delete_entry entry.key := by
  simp [EntryManager.set_entry_ttl]

/-- What holds of `PEXPIRE k x` for every `x` that parses to a `ttl ≥ 0`: on an
absent key the reply is Integer 0 and the keyspace stays as it was; on a
present key the reply is Integer 1 when `ttl > 0` or the entry has no slot in
the expiry heap, and with `ttl = 0` the key is then absent afterwards (for an
entry stored under its own key); with `ttl = 0` on an entry that has a slot in
the expiry heap the command has no result. -/
theorem pexpire_reply (lib : StdLib Score) (now now' : Nat) (m : EntryManager Score)
    (k x : Bytes) (t : Int) (hx : CommandProcessor.parse_int x = some t) (ht : 0 ≤ t) :
    (m.find_entry k = none →
        run lib now m [ascii "PEXPIRE", k, x]
          = some (ResponseSerializer.serialize_integer [] 0, m))
      ∧ (∀ e, m.find_entry k = some e → e.key = k →
          (t = 0 → e.heap_idx = SIZE_MAX ∨ e.heap_idx ≥ BinaryHeap.size m.heap_) →
        ∃ m', run lib now m [ascii "PEXPIRE", k, x]
            = some (ResponseSerializer.serialize_integer [] 1, m')
          ∧ (t = 0 → run lib now' m' [ascii "EXISTS", k]
              = some (ResponseSerializer.serialize_integer [] 0, m')))
      ∧ (∀ e, m.find_entry k = some e → e.key = k → t = 0 → e.heap_idx ≠ SIZE_MAX →
          e.heap_idx < BinaryHeap.size m.heap_ →
          run lib now m [ascii "PEXPIRE", k, x] = none) := by
  have hneg : ¬ t < 0 := by omega
  refine ⟨?_, ?_, ?_⟩
  · intro h
    rw [run, dispatch_pexpire]
    simp [CommandProcessor.handle_pexpire, hx, hneg, h]
  · intro e he hkey hslot
    rw [run_pexpire_present lib now m k x t e hx ht he]
    by_cases hz : t = 0
    · subst hz
      rw [set_entry_ttl_zero, hkey]
      obtain ⟨m1, hdel, _, hcore⟩ := EntryManager.delete_entry_present m k e he (hslot rfl)
      rw [hdel]
      refine ⟨m1, rfl, fun _ => ?_⟩
      have habs : m1.find_entry k = none := by
        have := hcore k
        simpa using this
      rw [run_exists, habs]; rfl
    · obtain ⟨m1, hset, _⟩ := EntryManager.set_entry_ttl_spec m now e t (by omega)
      rw [hset]
      exact ⟨m1, rfl, fun h0 => absurd h0 hz⟩
  · intro e he hkey hz hidx hsize
    subst hz
    rw [run_pexpire_present lib now m k x 0 e hx ht he, set_entry_ttl_zero, hkey,
      EntryManager.delete_entry_with_slot m k e he hidx hsize]
    rfl

end Unknown

/-! ## The order index: search trees -/

theorem bytes_order : StrictTotalOrder Bytes :=
  ⟨fun a => lt_irrefl a, fun _ _ _ h1 h2 => lt_trans h1 h2, fun a b => lt_trichotomy a b⟩

namespace AVLTree

variable {K V : Type} [LT K] [DecidableRel (fun a b : K => a < b)] [DecidableEq K]

omit [LT K] [DecidableRel (fun a b : K => a < b)] [DecidableEq K] in
theorem toList_updateNode (t : AVLNode K V) : toList (updateNode t) = toList t := by
  cases t <;> rfl

omit [LT K] [DecidableRel (fun a b : K => a < b)] [DecidableEq K] in
theorem toList_rotateLeft (t : AVLNode K V) : toList (rotateLeft t) = toList t := by
  cases t with
  | nil => rfl
  | node k v d w l r =>
    cases r with
    | nil => rfl
    | node rk rv rd rw rl rr =>
      simp [rotateLeft, updateNode, toList, List.append_assoc]

omit [LT K] [DecidableRel (fun a b : K => a < b)] [DecidableEq K] in
theorem toList_rotateRight (t : AVLNode K V) : toList (rotateRight t) = toList t := by
  cases t with
  | nil => rfl
  | node k v d w l r =>
    cases l with
    | nil => rfl
    | node lk lv ld lw ll lr =>
      simp [rotateRight, updateNode, toList, List.append_assoc]

omit [LT K] [DecidableRel (fun a b : K => a < b)] [DecidableEq K] in
theorem toList_fixLeft (t : AVLNode K V) : toList (fixLeft t) = toList t := by
  cases t with
  | nil => rfl
  | node k v d w l r =>
    cases l with
    | nil => rfl
    | node lk lv ld lw ll lr =>
      simp only [fixLeft]
      split
      · rw [toList_rotateRight]
        simp only [toList, toList_rotateLeft]
      · rw [toList_rotateRight]

omit [LT K] [DecidableRel (fun a b : K => a < b)] [DecidableEq K] in
theorem toList_fixRight (t : AVLNode K V) : toList (fixRight t) = toList t := by
  cases t with
  | nil => rfl
  | node k v d w l r =>
    cases r with
    | nil => rfl
    | node rk rv rd rw rl rr =>
      simp only [fixRight]
      split
      · rw [toList_rotateLeft]
        simp only [toList, toList_rotateRight]
      · rw [toList_rotateLeft]

omit [LT K] [DecidableRel (fun a b : K => a < b)] [DecidableEq K] in
theorem toList_fix (t : AVLNode K V) : toList (fix t) = toList t := by
  unfold fix
  have h := toList_updateNode t
  cases hu : updateNode t with
  | nil => rw [hu] at h; exact h
  | node k v d w l r =>
    rw [hu] at h
    simp only
    split
    · rw [toList_fixLeft]; exact h
    · split
      · rw [toList_fixRight]; exact h
      · exact h

end AVLTree

namespace AVLTree

variable {K V : Type} [LT K] [DecidableRel (fun a b : K => a < b)] [DecidableEq K]

omit [DecidableRel (fun a b : K => a < b)] [DecidableEq K] in
theorem BST_node (k : K) (v : V) (d w : Nat) (l r : AVLNode K V) :
    BST (.node k v d w l r) ↔
      BST l ∧ BST r ∧ (∀ a ∈ toList l, a.1 < k) ∧ (∀ b ∈ toList r, k < b.1)
        ∧ (∀ a ∈ toList l, ∀ b ∈ toList r, a.1 < b.1) := by
  simp only [BST, toList, List.pairwise_append, List.pairwise_cons, List.mem_cons]
  constructor
  · rintro ⟨hl, ⟨hkr, hr⟩, hlr⟩
    exact ⟨hl, hr, fun a ha => hlr a ha (k, v) (Or.inl rfl), hkr,
      fun a ha b hb => hlr a ha b (Or.inr hb)⟩
  · rintro ⟨hl, hr, hlk, hkr, hlr⟩
    refine ⟨hl, ⟨hkr, hr⟩, fun a ha b hb => ?_⟩
    rcases hb with hb | hb
    · rw [hb]; exact hlk a ha
    · exact hlr a ha b hb

omit [LT K] [DecidableRel (fun a b : K => a < b)] in
theorem find?_key_none (l : List (K × V)) (x : K) (h : ∀ a ∈ l, a.1 ≠ x) :
    l.find? (fun p => decide (p.1 = x)) = none := by
  rw [List.find?_eq_none]
  intro a ha
  simpa using h a ha

/-- In a search tree `search` finds what the in-order list holds under the key. -/
theorem search_eq_find? (ord : StrictTotalOrder K) (t : AVLNode K V) (x : K) (h : BST t) :
    search t x = (toList t).find? (fun p => decide (p.1 = x)) := by
  induction t with
  | nil => rfl
  | node k v d w l r ihl ihr =>
    obtain ⟨hl, hr, hlk, hkr, _⟩ := (BST_node k v d w l r).mp h
    simp only [search, toList, List.find?_append, List.find?_cons]
    by_cases hxk : x = k
    · subst hxk
      have : (toList l).find? (fun p => decide (p.1 = x)) = none :=
        find?_key_none _ _ (fun a ha he => ord.irrefl x (he ▸ hlk a ha))
      simp [this]
    · have hkx : ¬ k = x := fun e => hxk e.symm
      simp only [hxk, if_false, hkx, decide_False]
      by_cases hlt : x < k
      · simp only [hlt, if_true]
        have : (toList r).find? (fun p => decide (p.1 = x)) = none :=
          find?_key_none _ _ (fun b hb he =>
            ord.irrefl x (ord.trans _ _ _ hlt (he ▸ hkr b hb)))
        rw [this, ihl hl]
        simp
      · simp only [hlt, if_false]
        have hgt : k < x := by
          rcases ord.total x k with h1 | h1 | h1
          · exact absurd h1 hlt
          · exact absurd h1 hxk
          · exact h1
        have : (toList l).find? (fun p => decide (p.1 = x)) = none :=
          find?_key_none _ _ (fun a ha he =>
            ord.irrefl x (ord.trans _ _ _ (he ▸ hlk a ha) hgt))
        rw [this, ihr hr]
        simp

omit [DecidableEq K] in
/-- Inserting a key that the search tree does not hold puts it at its place in
the in-order list. -/
theorem toList_insert (ord : StrictTotalOrder K) (t : AVLNode K V) (key : K) (value : V)
    (h : BST t) (hnew : ∀ a ∈ toList t, a.1 ≠ key) :
    ∃ l1 l2, toList t = l1 ++ l2 ∧ toList (insert t key value) = l1 ++ (key, value) :: l2
      ∧ (∀ a ∈ l1, a.1 < key) ∧ (∀ b ∈ l2, key < b.1) := by
  induction t with
  | nil => exact ⟨[], [], rfl, rfl, by simp, by simp⟩
  | node k v d w l r ihl ihr =>
    obtain ⟨hl, hr, hlk, hkr, _⟩ := (BST_node k v d w l r).mp h
    have hne : k ≠ key := hnew (k, v) (by simp [toList])
    simp only [insert]
    by_cases hlt : key < k
    · simp only [hlt, if_true, toList_fix, toList]
      obtain ⟨l1, l2, e1, e2, h1, h2⟩ := ihl hl (fun a ha => hnew a (by simp [toList, ha]))
      refine ⟨l1, l2 ++ (k, v) :: toList r, ?_, ?_, h1, ?_⟩
      · rw [e1, List.append_assoc]
      · rw [e2]; simp
      · intro b hb
        rcases List.mem_append.mp hb with hb | hb
        · exact h2 b hb
        · rcases List.mem_cons.mp hb with hb | hb
          · rw [hb]; exact hlt
          · exact ord.trans _ _ _ hlt (hkr b hb)
    · have hgt : k < key := by
        rcases ord.total key k with h1 | h1 | h1
        · exact absurd h1 hlt
        · exact absurd h1.symm hne
        · exact h1
      simp only [hlt, if_false, hgt, if_true, toList_fix, toList]
      obtain ⟨l1, l2, e1, e2, h1, h2⟩ := ihr hr (fun a ha => hnew a (by simp [toList, ha]))
      refine ⟨toList l ++ (k, v) :: l1, l2, ?_, ?_, ?_, h2⟩
      · rw [e1]; simp
      · rw [e2]; simp
      · intro a ha
        rcases List.mem_append.mp ha with ha | ha
        · exact ord.trans _ _ _ (hlk a ha) hgt
        · rcases List.mem_cons.mp ha with ha | ha
          · rw [ha]; exact hgt
          · exact h1 a ha

omit [LT K] [DecidableRel (fun a b : K => a < b)] [DecidableEq K] in
theorem leftmost_eq_head? (t : AVLNode K V) : leftmost t = (toList t).head? := by
  induction t with
  | nil => rfl
  | node k v d w l r ihl _ =>
    cases l with
    | nil => rfl
    | node lk lv ld lw ll lr =>
      simp only [leftmost, ihl, toList, List.head?_append]
      cases (toList ll).head? <;> simp

omit [LT K] [DecidableRel (fun a b : K => a < b)] in
theorem filter_key_all (l : List (K × V)) (x : K) (h : ∀ a ∈ l, a.1 ≠ x) :
    l.filter (fun p => decide (p.1 ≠ x)) = l := by
  rw [List.filter_eq_self]
  intro a ha
  simpa using h a ha

omit [DecidableEq K] in
theorem remove_two (k : K) (v : V) (d w : Nat) (lk : K) (lv : V) (ld lw : Nat)
    (ll lr : AVLNode K V) (rk : K) (rv : V) (rd rw : Nat) (rl rr : AVLNode K V) (key : K)
    (h1 : ¬ key < k) (h2 : ¬ k < key) :
    remove (.node k v d w (.node lk lv ld lw ll lr) (.node rk rv rd rw rl rr)) key
      = match leftmost (.node rk rv rd rw rl rr) with
        | some (sk, sv) =>
          fix (.node sk sv d w (.node lk lv ld lw ll lr) (remove (.node rk rv rd rw rl rr) sk))
        | none => fix (.node k v d w (.node lk lv ld lw ll lr) (.node rk rv rd rw rl rr)) := by
  rw [remove]
  · simp only [h1, h2, if_false]
  · intro h; cases h
  · intro h; cases h

/-- Removing a key from a search tree removes it from the in-order list. -/
theorem toList_remove (ord : StrictTotalOrder K) (t : AVLNode K V) :
    ∀ (key : K), BST t →
      toList (remove t key) = (toList t).filter (fun p => decide (p.1 ≠ key)) := by
  induction t with
  | nil => intro key _; rfl
  | node k v d w l r ihl ihr =>
    intro key h
    obtain ⟨hl, hr, hlk, hkr, _⟩ := (BST_node k v d w l r).mp h
    simp only [toList, List.filter_append, List.filter_cons]
    by_cases hlt : key < k
    · have hne : k ≠ key := fun e => ord.irrefl key (e ▸ hlt)
      have hfr : (toList r).filter (fun p => decide (p.1 ≠ key)) = toList r :=
        filter_key_all _ _ (fun b hb he =>
          ord.irrefl key (ord.trans _ _ _ hlt (he ▸ hkr b hb)))
      simp only [remove, hlt, if_true, toList_fix, toList, ihl key hl, hfr, ne_eq, hne,
        not_false_eq_true, decide_True]
    · by_cases hgt : k < key
      · have hne : k ≠ key := fun e => ord.irrefl key (e ▸ hgt)
        have hfl : (toList l).filter (fun p => decide (p.1 ≠ key)) = toList l :=
          filter_key_all _ _ (fun a ha he =>
            ord.irrefl key (ord.trans _ _ _ (he ▸ hlk a ha) hgt))
        simp only [remove, hlt, if_false, hgt, if_true, toList_fix, toList, ihr key hr, hfl,
          ne_eq, hne, not_false_eq_true, decide_True]
      · have heq : k = key := by
          rcases ord.total key k with h1 | h1 | h1
          · exact absurd h1 hlt
          · exact h1.symm
          · exact absurd h1 hgt
        subst heq
        have hfl : (toList l).filter (fun p => decide (p.1 ≠ k)) = toList l :=
          filter_key_all _ _ (fun a ha he => ord.irrefl k (he ▸ hlk a ha))
        have hfr : (toList r).filter (fun p => decide (p.1 ≠ k)) = toList r :=
          filter_key_all _ _ (fun b hb he => ord.irrefl k (he ▸ hkr b hb))
        simp only [hfl, hfr, ne_eq, not_true_eq_false, decide_False, Bool.false_eq_true,
          if_false]
        cases l with
        | nil => simp [remove, hlt, toList]
        | node lk lv ld lw ll lr =>
          cases r with
          | nil => simp [remove, hlt, toList]
          | node rk rv rd rw rl rr =>
            rw [remove_two _ _ _ _ _ _ _ _ _ _ _ _ _ _ _ _ _ hlt hgt, leftmost_eq_head?]
            cases hh : (toList (.node rk rv rd rw rl rr)).head? with
            | none => simp [toList] at hh
            | some s =>
              obtain ⟨sk, sv⟩ := s
              simp only [toList_fix, toList]
              have hrl : ∃ tl, toList (.node rk rv rd rw rl rr) = (sk, sv) :: tl := by
                cases hlist : toList (.node rk rv rd rw rl rr) with
                | nil => rw [hlist] at hh; cases hh
                | cons p tl =>
                  rw [hlist] at hh
                  simp only [List.head?_cons, Option.some.injEq] at hh
                  exact ⟨tl, by rw [hh]⟩
              obtain ⟨tl, htl⟩ := hrl
              have hrem := ihr sk hr
              rw [htl] at hrem
              have hsorted : ((sk, sv) :: tl).Pairwise (fun a b => a.1 < b.1) := by
                have := hr
                rw [BST, htl] at this
                exact this
              have htl_ne : ∀ b ∈ tl, b.1 ≠ sk := fun b hb he =>
                ord.irrefl sk (he ▸ (List.pairwise_cons.mp hsorted).1 b hb)
              simp only [List.filter_cons, ne_eq, not_true_eq_false, decide_False,
                Bool.false_eq_true, if_false, filter_key_all _ _ htl_ne] at hrem
              rw [hrem]
              simp only [toList] at htl
              rw [htl]

omit [LT K] [DecidableRel (fun a b : K => a < b)] in
theorem find?_filter_key (l : List (K × V)) (key x : K) :
    (l.filter (fun p => decide (p.1 ≠ key))).find? (fun p => decide (p.1 = x))
      = if x = key then none else l.find? (fun p => decide (p.1 = x)) := by
  induction l with
  | nil => simp
  | cons p rest ih =>
    by_cases hp : p.1 = key
    · have hd : decide (p.1 ≠ key) = false := by simp [hp]
      rw [List.filter_cons, hd]
      simp only [Bool.false_eq_true, if_false, ih, List.find?_cons]
      by_cases hx : x = key
      · simp [hx]
      · have : ¬ p.1 = x := fun e => hx (e.symm.trans hp)
        simp [hx, this]
    · have hd : decide (p.1 ≠ key) = true := by simp [hp]
      rw [List.filter_cons, hd]
      simp only [if_true, List.find?_cons, ih]
      by_cases hpx : p.1 = x
      · have : ¬ x = key := fun e => hp (hpx.trans e)
        simp [hpx, this]
      · simp [hpx]

theorem remove_spec (ord : StrictTotalOrder K) (t : AVLNode K V) (key : K) (h : BST t) :
    BST (remove t key)
      ∧ ∀ x, search (remove t key) x = if x = key then none else search t x := by
  have hb : BST (remove t key) := by
    rw [BST, toList_remove ord t key h]
    exact List.Pairwise.filter _ h
  refine ⟨hb, fun x => ?_⟩
  rw [search_eq_find? ord _ x hb, toList_remove ord t key h, find?_filter_key,
    search_eq_find? ord t x h]

theorem insert_spec (ord : StrictTotalOrder K) (t : AVLNode K V) (key : K) (value : V)
    (h : BST t) (hnone : search t key = none) :
    BST (insert t key value)
      ∧ ∀ x, search (insert t key value) x
          = if x = key then some (key, value) else search t x := by
  have hnew : ∀ a ∈ toList t, a.1 ≠ key := by
    rw [search_eq_find? ord t key h, List.find?_eq_none] at hnone
    intro a ha
    simpa using hnone a ha
  obtain ⟨l1, l2, e1, e2, h1, h2⟩ := toList_insert ord t key value h hnew
  have hp := h
  rw [BST, e1, List.pairwise_append] at hp
  obtain ⟨hp1, hp2, hp12⟩ := hp
  have hb : BST (insert t key value) := by
    rw [BST, e2, List.pairwise_append, List.pairwise_cons]
    refine ⟨hp1, ⟨h2, hp2⟩, fun a ha b hb => ?_⟩
    rcases List.mem_cons.mp hb with hb | hb
    · rw [hb]; exact h1 a ha
    · exact hp12 a ha b hb
  refine ⟨hb, fun x => ?_⟩
  rw [search_eq_find? ord _ x hb, e2, search_eq_find? ord t x h, e1]
  simp only [List.find?_append, List.find?_cons]
  by_cases hx : x = key
  · subst hx
    have : l1.find? (fun p => decide (p.1 = x)) = none :=
      find?_key_none _ _ (fun a ha he => ord.irrefl x (he ▸ h1 a ha))
    simp [this]
  · have hkx : ¬ key = x := fun e => hx e.symm
    simp [hx, hkx]

/-- Reading the tree after `set` of a key it did not hold. -/
theorem get_set_new (ord : StrictTotalOrder K) (t : AVLNode K V) (key : K) (value : V)
    (h : BST t) (hnone : get t key = none) :
    BST (set t key value)
      ∧ ∀ x, get (set t key value) x = if x = key then some value else get t x := by
  have hs : search t key = none := by
    simp only [get] at hnone
    cases hh : search t key with
    | none => rfl
    | some p => simp [hh] at hnone
  obtain ⟨hb, hsearch⟩ := insert_spec ord t key value h hs
  have hset : set t key value = insert t key value := by simp [set, hs]
  rw [hset]
  refine ⟨hb, fun x => ?_⟩
  simp only [get, hsearch]
  by_cases hx : x = key <;> simp [hx]

/-- Reading the tree after `del`. -/
theorem get_del (ord : StrictTotalOrder K) (t : AVLNode K V) (key : K) (h : BST t) :
    BST (del t key) ∧ ∀ x, get (del t key) x = if x = key then none else get t x := by
  have hdel : del t key = remove t key := by cases t <;> rfl
  obtain ⟨hb, hsearch⟩ := remove_spec ord t key h
  rw [hdel]
  refine ⟨hb, fun x => ?_⟩
  simp only [get, hsearch]
  by_cases hx : x = key <;> simp [hx]

omit [DecidableRel (fun a b : K => a < b)] [DecidableEq K] in
theorem BST_nil : BST (AVLNode.nil : AVLNode K V) := List.Pairwise.nil

end AVLTree

/-! ## The dual-index invariant of the sorted set -/

namespace ZSet

variable {Score : Type}

theorem deref_mem (z : ZSet Score) (p : Nat) (n : ZNode Score) (h : z.deref p = some n) :
    (p, n) ∈ z.nodes_ := by
  simp only [deref] at h
  cases hf : z.nodes_.find? (fun n => decide (n.1 = p)) with
  | none => simp [hf] at h
  | some q =>
    have hq : q.1 = p := by simpa using List.find?_some hf
    have hm : q ∈ z.nodes_ := List.mem_of_find?_eq_some hf
    simp only [hf, Option.map_some', Option.some.injEq] at h
    have : q = (p, n) := Prod.ext hq h
    rw [← this]; exact hm

theorem deref_of_mem (z : ZSet Score) (ha : (z.nodes_.map (fun q => q.1)).Nodup)
    (q : Nat × ZNode Score) (hq : q ∈ z.nodes_) : z.deref q.1 = some q.2 := by
  simp only [deref]
  cases hf : z.nodes_.find? (fun n => decide (n.1 = q.1)) with
  | none =>
    rw [List.find?_eq_none] at hf
    exact absurd (by simp) (hf q hq)
  | some r =>
    have hr : r.1 = q.1 := by simpa using List.find?_some hf
    have hm : r ∈ z.nodes_ := List.mem_of_find?_eq_some hf
    have : r = q := List.inj_on_of_nodup_map ha hm hq hr
    simp [this]

theorem score_of_isSome (z : ZSet Score) (hz : z.WF) (name : Bytes) :
    (z.score_of name).isSome = (z.lookup name).isSome := by
  simp only [score_of]
  cases hl : lookup z name with
  | none => rfl
  | some p =>
    obtain ⟨n, hd, _⟩ := hz name p ((lookup_eq_some z name p).mp hl)
    simp [hd]

theorem deref_map_value (t : AVLNode Bytes Score) (h : HMap Bytes (Option Nat))
    (nodes : List (Nat × ZNode Score)) (p q : Nat) (s : Score) :
    deref (ZSet.mk t h (nodes.map
        (fun r => (r.1, if r.1 = p then ZNode.mk r.2.key s else r.2)))) q
      = (deref (ZSet.mk t h nodes) q).map
          (fun m => if q = p then ZNode.mk m.key s else m) := by
  simp only [deref]
  rw [find?_map_node nodes (fun r => if r.1 = p then ZNode.mk r.2.key s else r.2) q]
  cases hf : nodes.find? (fun n => decide (n.1 = q)) with
  | none => rfl
  | some r =>
    have hr : r.1 = q := by simpa using List.find?_some hf
    simp [hr]

theorem Inv_empty : (empty : ZSet Score).Inv where
  wf := WF_empty
  bst := AVLTree.BST_nil
  scores := fun name => by simp [empty, score_of, lookup, HMap.find, AVLTree.get, AVLTree.search]
  addrs := by simp [empty]
  owned := fun q hq => by simp [empty] at hq

theorem Inv_update (z : ZSet Score) (hz : z.Inv) (p : Nat) (n : ZNode Score)
    (hd : deref z p = some n) (s : Score) :
    Inv (ZSet.mk (AVLTree.set (AVLTree.del z.tree n.key) n.key s) z.hash
      (z.nodes_.map (fun q => (q.1, if q.1 = p then ZNode.mk q.2.key s else q.2)))) := by
  have hmem := deref_mem z p n hd
  have hown : HMap.find z.hash n.key = some (some p) := hz.owned _ hmem
  obtain ⟨hb1, hg1⟩ := AVLTree.get_del bytes_order z.tree n.key hz.bst
  have hnone : AVLTree.get (AVLTree.del z.tree n.key) n.key = none := by rw [hg1]; simp
  obtain ⟨hb2, hg2⟩ := AVLTree.get_set_new bytes_order _ n.key s hb1 hnone
  have hderef : ∀ q, deref (ZSet.mk (AVLTree.set (AVLTree.del z.tree n.key) n.key s) z.hash
      (z.nodes_.map (fun q => (q.1, if q.1 = p then ZNode.mk q.2.key s else q.2)))) q
      = (deref z q).map (fun m => if q = p then ZNode.mk m.key s else m) :=
    fun q => deref_map_value _ _ z.nodes_ p q s
  refine ⟨?_, hb2, ?_, ?_, ?_⟩
  · intro name q hf
    obtain ⟨m, hm, hk⟩ := hz.wf name q hf
    refine ⟨if q = p then ZNode.mk m.key s else m, ?_, ?_⟩
    · rw [hderef, hm]; rfl
    · by_cases hq : q = p <;> simp [hq, hk]
  · intro name
    show AVLTree.get (AVLTree.set (AVLTree.del z.tree n.key) n.key s) name = _
    rw [hg2, hg1]
    by_cases hname : name = n.key
    · subst hname
      have hl : lookup (ZSet.mk (AVLTree.set (AVLTree.del z.tree n.key) n.key s) z.hash
          (z.nodes_.map (fun q => (q.1, if q.1 = p then ZNode.mk q.2.key s else q.2)))) n.key
          = some p := (lookup_eq_some _ _ _).mpr hown
      simp only [score_of, hl, Option.some_bind, hderef, hd, if_true, Option.map_some']
    · simp only [hname, if_false]
      rw [hz.scores name]
      have hl : lookup (ZSet.mk (AVLTree.set (AVLTree.del z.tree n.key) n.key s) z.hash
          (z.nodes_.map (fun q => (q.1, if q.1 = p then ZNode.mk q.2.key s else q.2)))) name
          = lookup z name := rfl
      simp only [score_of, hl]
      cases hlk : lookup z name with
      | none => rfl
      | some q =>
        obtain ⟨m, hm, hk⟩ := hz.wf name q ((lookup_eq_some z name q).mp hlk)
        have hq : q ≠ p := by
          intro e
          rw [e, hd] at hm
          simp only [Option.some.injEq] at hm
          exact hname (by rw [← hk, hm])
        simp only [Option.some_bind, hderef, hm, hq, if_false, Option.map_some']
  · show ((z.nodes_.map (fun q => (q.1, if q.1 = p then ZNode.mk q.2.key s else q.2))).map
      (fun q => q.1)).Nodup
    rw [List.map_map]
    exact hz.addrs
  · intro q hq
    obtain ⟨r, hr, e⟩ := List.mem_map.mp hq
    have := hz.owned r hr
    rw [← e]
    by_cases h1 : r.1 = p <;> simpa [h1] using this

theorem Inv_update_score (z z1 : ZSet Score) (node : Option Nat) (s : Score) (b : Bool)
    (h : update_score z (match node with | none => .null | some p => .addr p) s
      = some (z1, b)) (hz : z.Inv) : z1.Inv := by
  cases node with
  | none =>
    simp only [update_score, Option.some.injEq, Prod.mk.injEq] at h
    rw [← h.1]; exact hz
  | some p =>
    simp only [update_score] at h
    cases hd : deref z p with
    | none => simp [hd] at h
    | some n =>
      simp only [hd] at h
      by_cases hk : n.key.isEmpty = true
      · simp only [hk, if_true, Option.some.injEq, Prod.mk.injEq] at h
        rw [← h.1]; exact hz
      · have hown : HMap.find z.hash n.key = some (some p) := hz.owned _ (deref_mem z p n hd)
        simp only [hk, Bool.false_eq_true, if_false, hown, Option.some.injEq,
          Prod.mk.injEq] at h
        rw [← h.1]
        exact Inv_update z hz p n hd s

theorem Inv_add (z : ZSet Score) (hz : z.Inv) (name : Bytes) (hl : lookup z name = none)
    (s : Score) :
    Inv (ZSet.mk (AVLTree.set z.tree name s) (z.hash.insert name (some (fresh_addr z)))
      (z.nodes_ ++ [(fresh_addr z, ZNode.mk name s)])) := by
  have hnone : AVLTree.get z.tree name = none := by
    rw [hz.scores name]; simp [score_of, hl]
  obtain ⟨hb, hg⟩ := AVLTree.get_set_new bytes_order z.tree name s hz.bst hnone
  have hfresh : z.nodes_.find? (fun n => decide (n.1 = fresh_addr z)) = none :=
    find?_fresh z.nodes_
  have hderef : ∀ q, deref (ZSet.mk (AVLTree.set z.tree name s)
      (z.hash.insert name (some (fresh_addr z)))
      (z.nodes_ ++ [(fresh_addr z, ZNode.mk name s)])) q
      = (deref z q).or (if fresh_addr z = q then some (ZNode.mk name s) else none) := by
    intro q
    simp only [deref, List.find?_append, List.find?_cons, List.find?_nil]
    cases z.nodes_.find? (fun n => decide (n.1 = q)) with
    | some r => rfl
    | none => by_cases hq : fresh_addr z = q <;> simp [hq]
  have hlook : ∀ x, lookup (ZSet.mk (AVLTree.set z.tree name s)
      (z.hash.insert name (some (fresh_addr z)))
      (z.nodes_ ++ [(fresh_addr z, ZNode.mk name s)])) x
      = if x = name then some (fresh_addr z) else lookup z x := by
    intro x
    simp only [lookup, HMap.find_insert]
    by_cases hx : x = name <;> simp [hx]
  refine ⟨?_, hb, ?_, ?_, ?_⟩
  · intro x q hf
    have hq := (lookup_eq_some _ x q).mpr hf
    rw [hlook] at hq
    by_cases hx : x = name
    · simp only [hx, if_true, Option.some.injEq] at hq
      refine ⟨ZNode.mk name s, ?_, hx.symm⟩
      rw [hderef, ← hq]
      simp only [deref, hfresh, Option.map_none', if_true]
      rfl
    · simp only [hx, if_false] at hq
      obtain ⟨m, hm, hk⟩ := hz.wf x q ((lookup_eq_some z x q).mp hq)
      exact ⟨m, by rw [hderef, hm]; rfl, hk⟩
  · intro x
    show AVLTree.get (AVLTree.set z.tree name s) x = _
    rw [hg]
    simp only [score_of, hlook]
    by_cases hx : x = name
    · simp only [hx, if_true, Option.some_bind, hderef]
      simp only [deref, hfresh, Option.map_none', if_true]
      rfl
    · simp only [hx, if_false]
      rw [hz.scores x]
      simp only [score_of]
      cases hlk : lookup z x with
      | none => rfl
      | some q =>
        obtain ⟨m, hm, _⟩ := hz.wf x q ((lookup_eq_some z x q).mp hlk)
        simp only [Option.some_bind, hderef, hm]
        rfl
  · show ((z.nodes_ ++ [(fresh_addr z, ZNode.mk name s)]).map (fun q => q.1)).Nodup
    rw [List.map_append, List.nodup_append]
    refine ⟨hz.addrs, by simp, ?_⟩
    intro a ha hb2
    simp only [List.map_cons, List.map_nil, List.mem_singleton] at hb2
    have := le_foldr_max _ a ha
    simp only [fresh_addr] at hb2
    omega
  · intro q hq
    show HMap.find (z.hash.insert name (some (fresh_addr z))) q.2.key = some (some q.1)
    rw [HMap.find_insert]
    rcases List.mem_append.mp hq with hq | hq
    · have ho := hz.owned q hq
      have hne : q.2.key ≠ name := by
        intro e
        rw [e] at ho
        have := (lookup_eq_none z name).mp hl q.1
        exact this ho
      simp only [hne, if_false]; exact ho
    · simp only [List.mem_singleton] at hq
      subst hq
      simp

theorem Inv_add_internal (z z1 : ZSet Score) (name : Bytes) (s : Score) (b : Bool)
    (h : add_internal_unlocked z name s = some (z1, b)) (hz : z.Inv) : z1.Inv := by
  simp only [add_internal_unlocked] at h
  cases hl : lookup z name with
  | some p =>
    simp only [hl] at h
    cases hu : update_score z (.addr p) s with
    | none => simp [hu] at h
    | some r =>
      simp only [hu, Option.map_some', Option.some.injEq, Prod.mk.injEq] at h
      rw [← h.1]
      exact Inv_update_score z r.1 (some p) s r.2 hu hz
  | none =>
    simp only [hl] at h
    by_cases hk : name.isEmpty = true
    · simp only [hk, if_true, Option.some.injEq, Prod.mk.injEq] at h
      rw [← h.1]; exact hz
    · simp only [hk, Bool.false_eq_true, if_false, Option.some.injEq, Prod.mk.injEq] at h
      rw [← h.1]
      exact Inv_add z hz name hl s

theorem Inv_remove (z : ZSet Score) (hz : z.Inv) (name : Bytes) (p : Nat) (n : ZNode Score)
    (hf : HMap.find z.hash name = some (some p)) (hd : deref z p = some n) :
    Inv (ZSet.mk (AVLTree.del z.tree n.key) (z.hash.remove name).2
      (z.nodes_.filter (fun q => decide (q.1 ≠ p)))) := by
  obtain ⟨m, hm, hk⟩ := hz.wf name p hf
  have hnk : n.key = name := by
    rw [hd] at hm
    simp only [Option.some.injEq] at hm
    rw [hm]; exact hk
  rw [hnk]
  obtain ⟨hb, hg⟩ := AVLTree.get_del bytes_order z.tree name hz.bst
  have hderef : ∀ q, q ≠ p → deref (ZSet.mk (AVLTree.del z.tree name) (z.hash.remove name).2
      (z.nodes_.filter (fun q => decide (q.1 ≠ p)))) q = deref z q := by
    intro q hq
    simp only [deref, find?_filter_ne z.nodes_ p q hq]
  have hlook : ∀ x, lookup (ZSet.mk (AVLTree.del z.tree name) (z.hash.remove name).2
      (z.nodes_.filter (fun q => decide (q.1 ≠ p)))) x
      = if x = name then none else lookup z x := by
    intro x
    simp only [lookup, HMap.find_remove]
    by_cases hx : x = name <;> simp [hx]
  have hother : ∀ x q, x ≠ name → HMap.find z.hash x = some (some q) → q ≠ p := by
    intro x q hx hfx e
    obtain ⟨m2, hm2, hk2⟩ := hz.wf x q hfx
    rw [e, hd] at hm2
    simp only [Option.some.injEq] at hm2
    exact hx (by rw [← hk2, ← hm2, hnk])
  refine ⟨?_, hb, ?_, ?_, ?_⟩
  · intro x q hfx
    have hq := (lookup_eq_some _ x q).mpr hfx
    rw [hlook] at hq
    by_cases hx : x = name
    · simp [hx] at hq
    · simp only [hx, if_false] at hq
      have hfz := (lookup_eq_some z x q).mp hq
      obtain ⟨m2, hm2, hk2⟩ := hz.wf x q hfz
      exact ⟨m2, by rw [hderef q (hother x q hx hfz)]; exact hm2, hk2⟩
  · intro x
    show AVLTree.get (AVLTree.del z.tree name) x = _
    rw [hg]
    simp only [score_of, hlook]
    by_cases hx : x = name
    · simp [hx]
    · simp only [hx, if_false]
      rw [hz.scores x]
      simp only [score_of]
      cases hlk : lookup z x with
      | none => rfl
      | some q =>
        have hfz := (lookup_eq_some z x q).mp hlk
        simp only [Option.some_bind, hderef q (hother x q hx hfz)]
  · show ((z.nodes_.filter (fun q => decide (q.1 ≠ p))).map (fun q => q.1)).Nodup
    exact List.Nodup.sublist ((List.filter_sublist z.nodes_).map _) hz.addrs
  · intro q hq
    show HMap.find (z.hash.remove name).2 q.2.key = some (some q.1)
    have hq2 := List.mem_filter.mp hq
    have ho := hz.owned q hq2.1
    have hqp : q.1 ≠ p := by simpa using hq2.2
    have hne : q.2.key ≠ name := by
      intro e
      rw [e, hf] at ho
      simp only [Option.some.injEq] at ho
      exact hqp ho.symm
    rw [HMap.find_remove]
    simp only [hne, if_false]; exact ho

theorem Inv_remove_internal (z z1 : ZSet Score) (name : Bytes) (b : Bool)
    (h : remove_internal z name = some (z1, b)) (hz : z.Inv) : z1.Inv := by
  simp only [remove_internal] at h
  cases hf : HMap.find z.hash name with
  | none =>
    simp only [hf, Option.some.injEq, Prod.mk.injEq] at h
    rw [← h.1]; exact hz
  | some o =>
    cases o with
    | none =>
      simp only [hf, Option.some.injEq, Prod.mk.injEq] at h
      rw [← h.1]; exact hz
    | some p =>
      simp only [hf] at h
      cases hd : deref z p with
      | none => simp [hd] at h
      | some n =>
        simp only [hd, Option.some.injEq, Prod.mk.injEq] at h
        rw [← h.1]
        exact Inv_remove z hz name p n hf hd

theorem Inv_pop_internal (z z1 : ZSet Score) (name : Bytes) (node : Option Nat)
    (h : pop_internal z name = some (z1, node)) (hz : z.Inv) : z1.Inv := by
  simp only [pop_internal] at h
  cases hf : HMap.find z.hash name with
  | none =>
    simp only [hf, Option.some.injEq, Prod.mk.injEq] at h
    rw [← h.1]; exact hz
  | some o =>
    cases o with
    | none =>
      simp only [hf, Option.some.injEq, Prod.mk.injEq] at h
      rw [← h.1]; exact hz
    | some p =>
      simp only [hf] at h
      cases hd : deref z p with
      | none => simp [hd] at h
      | some n =>
        simp only [hd, Option.some.injEq, Prod.mk.injEq] at h
        rw [← h.1]
        exact Inv_remove z hz name p n hf hd

/-- Every sorted set built from the empty one satisfies the dual-index invariant. -/
theorem Inv_of_Reachable (z : ZSet Score) (h : Reachable z) : z.Inv := by
  induction h with
  | empty => exact Inv_empty
  | add_internal name score added _ hstep ih => exact Inv_add_internal _ _ name score added hstep ih
  | update_score node score done _ hstep ih => exact Inv_update_score _ _ node score done hstep ih
  | remove_internal name removed _ hstep ih => exact Inv_remove_internal _ _ name removed hstep ih
  | pop_internal name node _ hstep ih => exact Inv_pop_internal _ _ name node hstep ih

theorem Inv_exists (z : ZSet Score) (hz : z.Inv) (name : Bytes) :
    (z.lookup name).isSome = AVLTree.«exists» z.tree name := by
  have h1 := hz.scores name
  have h2 := score_of_isSome z hz.wf name
  rw [← h2, ← h1]
  simp only [AVLTree.«exists», AVLTree.get]
  cases AVLTree.search z.tree name <;> rfl

theorem Inv_keys (z : ZSet Score) (hz : z.Inv) :
    (z.nodes_.map (fun q => q.2.key)).Nodup
      ∧ ∀ name, name ∈ z.nodes_.map (fun q => q.2.key) ↔ (z.lookup name).isSome = true := by
  constructor
  · refine List.Nodup.map_on ?_ (List.Nodup.of_map _ hz.addrs)
    intro x hx y hy e
    have h1 := hz.owned x hx
    have h2 := hz.owned y hy
    rw [e, h2] at h1
    simp only [Option.some.injEq] at h1
    exact List.inj_on_of_nodup_map hz.addrs hx hy h1.symm
  · intro name
    constructor
    · intro h
      obtain ⟨q, hq, e⟩ := List.mem_map.mp h
      have ho := hz.owned q hq
      rw [e] at ho
      rw [(lookup_eq_some z name q.1).mpr ho]; rfl
    · intro h
      cases hl : lookup z name with
      | none => rw [hl] at h; cases h
      | some p =>
        obtain ⟨n, hd, hk⟩ := hz.wf name p ((lookup_eq_some z name p).mp hl)
        exact List.mem_map.mpr ⟨(p, n), deref_mem z p n hd, hk⟩

end ZSet

/-! ## Properties of the reply codec -/

theorem digitChar_byte (d : Nat) (h : d < 10) : byte (Nat.digitChar d).toNat = byte (48 + d) := by
  interval_cases d <;> rfl

theorem toDigitsCore_map (fuel : Nat) : ∀ (n : Nat) (ds : List Char), n < fuel →
    (Nat.toDigitsCore 10 fuel n ds).map (fun c => byte c.toNat)
      = decimal_digits_loop fuel n ++ ds.map (fun c => byte c.toNat) := by
  induction fuel with
  | zero => intro n ds h; omega
  | succ fuel ih =>
    intro n ds h
    simp only [Nat.toDigitsCore, decimal_digits_loop]
    by_cases hn : n < 10
    · have h0 : n / 10 = 0 := by omega
      have hm : n % 10 = n := by omega
      simp only [h0, if_true, hn, List.map_cons, hm, digitChar_byte n hn]
      rfl
    · have h0 : ¬ n / 10 = 0 := by omega
      simp only [h0, if_false, hn]
      rw [ih (n / 10) _ (by omega)]
      simp only [List.map_cons, digitChar_byte (n % 10) (by omega), List.append_assoc]
      rfl

theorem to_string_ofNat (n : Nat) : to_string (n : Int) = decimal_digits n := by
  have h : (toString (n : Int)).toList = Nat.toDigitsCore 10 (n + 1) n [] := rfl
  simp only [to_string, ascii, h]
  rw [toDigitsCore_map (n + 1) n [] (by omega)]
  simp [decimal_digits]

theorem to_string_negSucc (n : Nat) :
    to_string (Int.negSucc n) = byte 45 :: decimal_digits (n + 1) := by
  have h : (toString (Int.negSucc n)).toList
      = Char.ofNat 45 :: Nat.toDigitsCore 10 (n + 1 + 1) (n + 1) [] := rfl
  simp only [to_string, ascii, h, List.map_cons]
  rw [toDigitsCore_map (n + 1 + 1) (n + 1) [] (by omega)]
  simp only [List.map_nil, List.append_nil, decimal_digits]
  rfl

/-- The text `std::to_string` gives is the decimal text of the value. -/
theorem to_string_eq_decimal_text (v : Int) : to_string v = decimal_text v := by
  cases v with
  | ofNat n =>
    have : ¬ (Int.ofNat n < 0) := by simp
    simp only [decimal_text, this, if_false]
    exact to_string_ofNat n
  | negSucc n =>
    have : Int.negSucc n < 0 := Int.negSucc_lt_zero n
    simp only [decimal_text, this, if_true]
    exact to_string_negSucc n

theorem load_u32_le_bytes32 (n : Nat) (h : n < 2 ^ 32) :
    load_u32 (byte n) (byte (n / 2 ^ 8)) (byte (n / 2 ^ 16)) (byte (n / 2 ^ 24)) = n := by
  simp only [byte, load_u32, Nat.reducePow] at *
  omega

theorem length_le_bytes32 (n : Nat) : (le_bytes32 n).length = 4 := rfl

/-- About `deserialize_string` after `serialize_string`: the string comes back when
its length fits the 32-bit length word. -/
theorem deserialize_serialize_string (s : Bytes) (h : s.length < 2 ^ 32) :
    ResponseSerializer.deserialize_string (ResponseSerializer.serialize_string [] s)
      = some s := by
  have hmod : s.length % 2 ^ 32 = s.length := Nat.mod_eq_of_lt h
  simp only [ResponseSerializer.serialize_string, ResponseSerializer.append_data_u32, hmod,
    List.nil_append, List.singleton_append, ResponseSerializer.deserialize_string,
    List.drop_succ_cons, List.drop_zero, le_bytes32, List.cons_append,
    load_u32_le_bytes32 s.length h]
  simp

/-- About `deserialize_error` after `serialize_error`: what comes back is the first
`|m| mod 2^32` bytes of the message. -/
theorem deserialize_serialize_error (c : Int) (m : Bytes) :
    ResponseSerializer.deserialize_error (ResponseSerializer.serialize_error [] c m)
      = some (m.take (m.length % 2 ^ 32)) := by
  have hlt : m.length % 2 ^ 32 < 2 ^ 32 := Nat.mod_lt _ (by decide)
  have hle : m.length % 2 ^ 32 ≤ m.length := Nat.mod_le _ _
  simp only [ResponseSerializer.serialize_error, ResponseSerializer.append_data_u32,
    ResponseSerializer.append_data_i32, List.nil_append, List.singleton_append,
    ResponseSerializer.deserialize_error, le_bytes32, List.cons_append,
    List.drop_succ_cons, List.drop_zero, load_u32_le_bytes32 _ hlt, Nat.mod_mod]
  simp only [Nat.reducePow] at hle
  simp [hle]

/-! ## Balance of the order index -/

namespace AVLTree

variable {K V : Type} [LT K] [DecidableRel (fun a b : K => a < b)] [DecidableEq K]

omit [LT K] [DecidableRel (fun a b : K => a < b)] [DecidableEq K] in
theorem getDepth_eq_height (t : AVLNode K V) (h : Balanced t) : getDepth t = height t := by
  cases t with
  | nil => rfl
  | node k v d w l r => exact h.1

omit [LT K] [DecidableRel (fun a b : K => a < b)] [DecidableEq K] in
theorem getWeight_eq_count (t : AVLNode K V) (h : Balanced t) : getWeight t = count t := by
  cases t with
  | nil => rfl
  | node k v d w l r => exact h.2.1

omit [LT K] [DecidableRel (fun a b : K => a < b)] [DecidableEq K] in
theorem count_eq_length (t : AVLNode K V) : count t = (toList t).length := by
  induction t with
  | nil => rfl
  | node k v d w l r ihl ihr => simp [count, toList, ihl, ihr]; omega

omit [LT K] [DecidableRel (fun a b : K => a < b)] [DecidableEq K] in
/-- About `updateNode` on a node whose subtrees are balanced and differ in height
by at most 1: the result is balanced. -/
theorem Balanced_updateNode (k : K) (v : V) (d w : Nat) (l r : AVLNode K V)
    (hl : Balanced l) (hr : Balanced r) (h1 : height l ≤ height r + 1)
    (h2 : height r ≤ height l + 1) :
    Balanced (updateNode (.node k v d w l r))
      ∧ height (updateNode (.node k v d w l r)) = 1 + max (height l) (height r) := by
  simp only [updateNode, Balanced, height, getDepth_eq_height l hl, getDepth_eq_height r hr,
    getWeight_eq_count l hl, getWeight_eq_count r hr]
  exact ⟨⟨trivial, trivial, h1, h2, hl, hr⟩, trivial⟩

omit [LT K] [DecidableRel (fun a b : K => a < b)] [DecidableEq K] in
theorem height_pos_node (t : AVLNode K V) (h : 0 < height t) :
    ∃ k v d w l r, t = .node k v d w l r := by
  cases t with
  | nil => simp [height] at h
  | node k v d w l r => exact ⟨k, v, d, w, l, r, rfl⟩

omit [LT K] [DecidableRel (fun a b : K => a < b)] [DecidableEq K] in
theorem getDepth_node (k : K) (v : V) (d w : Nat) (l r : AVLNode K V) :
    getDepth (.node k v d w l r) = d := rfl

omit [LT K] [DecidableRel (fun a b : K => a < b)] [DecidableEq K] in
theorem getWeight_node (k : K) (v : V) (d w : Nat) (l r : AVLNode K V) :
    getWeight (.node k v d w l r) = w := rfl

omit [LT K] [DecidableRel (fun a b : K => a < b)] [DecidableEq K] in
/-- About `fix` on a node whose subtrees are balanced and differ in height by at
most 2: the result is balanced, and its height is the larger height or one
more. -/
theorem fix_spec (k : K) (v : V) (d w : Nat) (l r : AVLNode K V)
    (hl : Balanced l) (hr : Balanced r) (h1 : height l ≤ height r + 2)
    (h2 : height r ≤ height l + 2) :
    Balanced (fix (.node k v d w l r))
      ∧ height (fix (.node k v d w l r)) ≤ 1 + max (height l) (height r)
      ∧ max (height l) (height r) ≤ height (fix (.node k v d w l r))
      ∧ (height l ≤ height r + 1 → height r ≤ height l + 1 →
          height (fix (.node k v d w l r)) = 1 + max (height l) (height r)) := by
  have hdl := getDepth_eq_height l hl
  have hdr := getDepth_eq_height r hr
  have hwl := getWeight_eq_count l hl
  have hwr := getWeight_eq_count r hr
  by_cases c1 : height l > height r + 1
  · obtain ⟨lk, lv, ld, lw, ll, lr, rfl⟩ := height_pos_node l (by omega)
    obtain ⟨hld, hlw, hb1, hb2, hll, hlr⟩ := hl
    subst hld hlw
    have hdll := getDepth_eq_height ll hll
    have hwll := getWeight_eq_count ll hll
    simp only [height] at h1 h2 c1
    by_cases c2 : height lr > height ll
    · obtain ⟨lrk, lrv, lrd, lrw, lrl, lrr, rfl⟩ := height_pos_node lr (by omega)
      obtain ⟨hlrd, hlrw, hc1, hc2, hlrl, hlrr⟩ := hlr
      subst hlrd hlrw
      have hdlrl := getDepth_eq_height lrl hlrl
      have hdlrr := getDepth_eq_height lrr hlrr
      have hwlrl := getWeight_eq_count lrl hlrl
      have hwlrr := getWeight_eq_count lrr hlrr
      simp only [height, count] at h1 h2 c1 c2 hb1 hb2 ⊢
      have e1 : 1 + max (height ll) (1 + max (height lrl) (height lrr)) > height r + 1 := by
        omega
      have e2 : 1 + max (height lrl) (height lrr) > height ll := by omega
      simp only [fix, updateNode, getDepth_node, getWeight_node, hdr, e1, if_true, fixLeft,
        hdll, e2, rotateLeft, rotateRight, hdlrl, hdlrr, hwll, hwlrl, hwlrr, hwr, Balanced,
        height, count]
      refine ⟨⟨?_, ?_, ?_, ?_, ⟨?_, ?_, ?_, ?_, hll, hlrl⟩, ⟨?_, ?_, ?_, ?_, hlrr, hr⟩⟩, ?_, ?_, ?_⟩
        <;> first | trivial | omega
    · have hdlr := getDepth_eq_height lr hlr
      have hwlr := getWeight_eq_count lr hlr
      simp only [height, count] at h1 h2 c1 c2 hb1 hb2 ⊢
      have e1 : 1 + max (height ll) (height lr) > height r + 1 := by omega
      simp only [fix, updateNode, getDepth_node, getWeight_node, hdr, e1, if_true, fixLeft,
        hdll, hdlr, c2, if_false, rotateRight, hwll, hwlr, hwr, Balanced, height, count]
      refine ⟨⟨?_, ?_, ?_, ?_, hll, ⟨?_, ?_, ?_, ?_, hlr, hr⟩⟩, ?_, ?_, ?_⟩
        <;> first | trivial | omega
  · by_cases c3 : height r > height l + 1
    · obtain ⟨rk, rv, rd, rw, rl, rr, rfl⟩ := height_pos_node r (by omega)
      obtain ⟨hrd, hrw, hb1, hb2, hrl, hrr⟩ := hr
      subst hrd hrw
      have hdrr := getDepth_eq_height rr hrr
      have hwrr := getWeight_eq_count rr hrr
      simp only [height] at h1 h2 c1 c3
      by_cases c2 : height rl > height rr
      · obtain ⟨rlk, rlv, rld, rlw, rll, rlr, rfl⟩ := height_pos_node rl (by omega)
        obtain ⟨hrld, hrlw, hc1, hc2, hrll, hrlr⟩ := hrl
        subst hrld hrlw
        have hdrll := getDepth_eq_height rll hrll
        have hdrlr := getDepth_eq_height rlr hrlr
        have hwrll := getWeight_eq_count rll hrll
        have hwrlr := getWeight_eq_count rlr hrlr
        simp only [height, count] at h1 h2 c1 c2 c3 hb1 hb2 ⊢
        have e0 : ¬ height l > 1 + max (1 + max (height rll) (height rlr)) (height rr) + 1 := by
          omega
        have e1 : 1 + max (1 + max (height rll) (height rlr)) (height rr) > height l + 1 := by
          omega
        have e2 : 1 + max (height rll) (height rlr) > height rr := by omega
        simp only [fix, updateNode, getDepth_node, getWeight_node, hdl, e0, if_false, e1,
          if_true, fixRight, hdrr, e2, rotateLeft, rotateRight, hdrll, hdrlr, hwl, hwrll,
          hwrlr, hwrr, Balanced, height, count]
        refine ⟨⟨?_, ?_, ?_, ?_, ⟨?_, ?_, ?_, ?_, hl, hrll⟩, ⟨?_, ?_, ?_, ?_, hrlr, hrr⟩⟩,
          ?_, ?_, ?_⟩ <;> first | trivial | omega
      · have hdrl := getDepth_eq_height rl hrl
        have hwrl := getWeight_eq_count rl hrl
        simp only [height, count] at h1 h2 c1 c2 c3 hb1 hb2 ⊢
        have e0 : ¬ height l > 1 + max (height rl) (height rr) + 1 := by omega
        have e1 : 1 + max (height rl) (height rr) > height l + 1 := by omega
        simp only [fix, updateNode, getDepth_node, getWeight_node, hdl, e0, if_false, e1,
          if_true, fixRight, hdrl, hdrr, c2, rotateLeft, hwl, hwrl, hwrr, Balanced, height,
          count]
        refine ⟨⟨?_, ?_, ?_, ?_, ⟨?_, ?_, ?_, ?_, hl, hrl⟩, hrr⟩, ?_, ?_, ?_⟩
          <;> first | trivial | omega
    · have e0 : ¬ height l > height r + 1 := c1
      simp only [fix, updateNode, getDepth_node, hdl, hdr, e0, c3, if_false, hwl, hwr,
        Balanced, height, count]
      refine ⟨⟨?_, ?_, ?_, ?_, hl, hr⟩, ?_, ?_, ?_⟩
        <;> first | trivial | omega | (intro _ _; trivial)

omit [DecidableEq K] in
/-- About `insert` on a balanced tree: the result is balanced and its height is the
height before or one more. -/
theorem Balanced_insert (t : AVLNode K V) (key : K) (value : V) (h : Balanced t) :
    Balanced (insert t key value) ∧ height t ≤ height (insert t key value)
      ∧ height (insert t key value) ≤ height t + 1 := by
  induction t with
  | nil =>
    simp only [insert, Balanced, height, count]
    refine ⟨⟨?_, ?_, ?_, ?_, trivial, trivial⟩, ?_, ?_⟩ <;> trivial
  | node k v d w l r ihl ihr =>
    obtain ⟨hd, hw, hb1, hb2, hl, hr⟩ := h
    by_cases hlt : key < k
    · obtain ⟨il, il1, il2⟩ := ihl hl
      obtain ⟨f1, f2, f3, f4⟩ := fix_spec k v d w (insert l key value) r il hr (by omega)
        (by omega)
      simp only [insert, hlt, if_true, height]
      exact ⟨f1, by omega, by omega⟩
    · by_cases hgt : k < key
      · obtain ⟨ir, ir1, ir2⟩ := ihr hr
        obtain ⟨f1, f2, f3, f4⟩ := fix_spec k v d w l (insert r key value) hl ir (by omega)
          (by omega)
        simp only [insert, hlt, if_false, hgt, if_true, height]
        exact ⟨f1, by omega, by omega⟩
      · simp only [insert, hlt, if_false, hgt, height]
        exact ⟨⟨hd, hw, hb1, hb2, hl, hr⟩, by omega, by omega⟩

omit [DecidableEq K] in
/-- About `remove` on a balanced tree: the result is balanced and its height is the
height before or one less. -/
theorem Balanced_remove (t : AVLNode K V) :
    ∀ (key : K), Balanced t →
      Balanced (remove t key) ∧ height (remove t key) ≤ height t
        ∧ height t ≤ height (remove t key) + 1 := by
  induction t with
  | nil => intro key _; simp [remove, Balanced, height]
  | node k v d w l r ihl ihr =>
    intro key h
    obtain ⟨hd, hw, hb1, hb2, hl, hr⟩ := h
    by_cases hlt : key < k
    · obtain ⟨il, il1, il2⟩ := ihl key hl
      obtain ⟨f1, f2, f3, f4⟩ := fix_spec k v d w (remove l key) r il hr (by omega) (by omega)
      simp only [remove, hlt, if_true, height]
      exact ⟨f1, by omega, by omega⟩
    · by_cases hgt : k < key
      · obtain ⟨ir, ir1, ir2⟩ := ihr key hr
        obtain ⟨f1, f2, f3, f4⟩ := fix_spec k v d w l (remove r key) hl ir (by omega)
          (by omega)
        simp only [remove, hlt, if_false, hgt, if_true, height]
        exact ⟨f1, by omega, by omega⟩
      · cases l with
        | nil =>
          simp only [remove, hlt, if_false, hgt, height] at hb1 hb2 ⊢
          exact ⟨hr, by omega, by omega⟩
        | node lk lv ld lw ll lr =>
          cases r with
          | nil =>
            simp only [remove, hlt, if_false, hgt, height] at hb1 hb2 ⊢
            exact ⟨hl, by omega, by omega⟩
          | node rk rv rd rw rl rr =>
            rw [remove_two _ _ _ _ _ _ _ _ _ _ _ _ _ _ _ _ _ hlt hgt]
            cases hh : leftmost (.node rk rv rd rw rl rr) with
            | none =>
              obtain ⟨f1, f2, f3, f4⟩ := fix_spec k v d w (.node lk lv ld lw ll lr)
                (.node rk rv rd rw rl rr) hl hr (by omega) (by omega)
              simp only [height] at f2 f3 f4 hb1 hb2 ⊢
              exact ⟨f1, by omega, by omega⟩
            | some s =>
              obtain ⟨sk, sv⟩ := s
              obtain ⟨ir, ir1, ir2⟩ := ihr sk hr
              obtain ⟨f1, f2, f3, f4⟩ := fix_spec sk sv d w (.node lk lv ld lw ll lr)
                (remove (.node rk rv rd rw rl rr) sk) hl ir (by omega) (by omega)
              simp only [height] at f2 f3 f4 hb1 hb2 ir1 ir2 ⊢
              exact ⟨f1, by omega, by omega⟩

omit [DecidableRel (fun a b : K => a < b)] [DecidableEq K] in
theorem BST_iff_keys (t : AVLNode K V) :
    BST t ↔ ((toList t).map (fun p => p.1)).Pairwise (fun a b => a < b) := by
  rw [BST, List.pairwise_map]

/-- The store of `set` on a key the tree holds changes no key and no shape: the
in-order keys, the height and the number of nodes stay. -/
theorem assign_shape (t : AVLNode K V) (key : K) (value : V) :
    (toList (assign t key value)).map (fun p => p.1) = (toList t).map (fun p => p.1)
      ∧ height (assign t key value) = height t ∧ count (assign t key value) = count t
      ∧ (Balanced t → Balanced (assign t key value)) := by
  induction t with
  | nil => simp [assign]
  | node k v d w l r ihl ihr =>
    obtain ⟨l1, l2, l3, l4⟩ := ihl
    obtain ⟨r1, r2, r3, r4⟩ := ihr
    by_cases h1 : key = k
    · simp only [assign, h1, if_true, toList, height, count, Balanced]
      exact ⟨by simp, trivial, trivial, fun h => h⟩
    · by_cases h2 : key < k
      · simp only [assign, h1, if_false, h2, if_true, toList, height, count, Balanced, l2, l3,
          List.map_append, List.map_cons, l1]
        exact ⟨trivial, trivial, trivial, fun h => ⟨h.1, h.2.1, h.2.2.1, h.2.2.2.1,
          l4 h.2.2.2.2.1, h.2.2.2.2.2⟩⟩
      · simp only [assign, h1, if_false, h2, toList, height, count, Balanced, r2, r3,
          List.map_append, List.map_cons, r1]
        exact ⟨trivial, trivial, trivial, fun h => ⟨h.1, h.2.1, h.2.2.1, h.2.2.2.1,
          h.2.2.2.2.1, r4 h.2.2.2.2.2⟩⟩

/-- Reading the tree after the store of `set` on a key the tree holds. -/
theorem search_assign (t : AVLNode K V) (key : K) (value : V) (x : K) :
    search (assign t key value) x
      = if x = key then (search t key).map (fun _ => (key, value)) else search t x := by
  induction t with
  | nil => simp [assign, search]
  | node k v d w l r ihl ihr =>
    by_cases h1 : key = k
    · subst h1
      by_cases hx : x = key
      · subst hx
        simp [assign, search]
      · simp [assign, search, hx]
    · by_cases h2 : key < k
      · simp only [assign, h1, if_false, h2, if_true, search, ihl]
        by_cases hx : x = key
        · subst hx
          simp [h1, h2]
        · by_cases hxk : x = k
          · have hk : ¬ k = key := fun e => h1 e.symm
            simp [hxk, hk]
          · by_cases hxl : x < k <;> simp [hx, hxk, hxl]
      · simp only [assign, h1, if_false, h2, search, ihr]
        by_cases hx : x = key
        · subst hx
          simp [h1, h2]
        · by_cases hxk : x = k
          · have hk : ¬ k = key := fun e => h1 e.symm
            simp [hxk, hk]
          · by_cases hxl : x < k <;> simp [hx, hxk, hxl]

omit [LT K] [DecidableRel (fun a b : K => a < b)] [DecidableEq K] in
theorem fix_Balanced (t : AVLNode K V) (h : Balanced t) : fix t = t := by
  cases t with
  | nil => rfl
  | node k v d w l r =>
    obtain ⟨hd, hw, hb1, hb2, hl, hr⟩ := h
    have hdl := getDepth_eq_height l hl
    have hdr := getDepth_eq_height r hr
    have hwl := getWeight_eq_count l hl
    have hwr := getWeight_eq_count r hr
    have e1 : ¬ height l > height r + 1 := by omega
    have e2 : ¬ height r > height l + 1 := by omega
    simp only [fix, updateNode, hdl, hdr, hwl, hwr, e1, e2, if_false, ← hd, ← hw]

/-- About `remove` of a key that a balanced tree does not hold: the tree stays as
it is. -/
theorem remove_absent (ord : StrictTotalOrder K) (t : AVLNode K V) (key : K)
    (hb : Balanced t) (hs : search t key = none) : remove t key = t := by
  induction t with
  | nil => rfl
  | node k v d w l r ihl ihr =>
    have hfix := fix_Balanced _ hb
    obtain ⟨hd, hw, hb1, hb2, hl, hr⟩ := hb
    by_cases h1 : key = k
    · simp [search, h1] at hs
    · by_cases h2 : key < k
      · simp only [search, h1, if_false, h2, if_true] at hs
        simp only [remove, h2, if_true, ihl hl hs]
        exact hfix
      · simp only [search, h1, if_false, h2] at hs
        have h3 : k < key := by
          rcases ord.total key k with h | h | h
          · exact absurd h h2
          · exact absurd h h1
          · exact h
        simp only [remove, h2, if_false, h3, if_true, ihr hr hs]
        exact hfix

/-- Every tree built by `set` and `del` from the empty one is a search tree with
correct bookkeeping and balance. -/
theorem Reachable_inv (ord : StrictTotalOrder K) (t : AVLNode K V) (h : Reachable t) :
    BST t ∧ Balanced t := by
  induction h with
  | empty => exact ⟨BST_nil, trivial⟩
  | @set t key value _ ih =>
    obtain ⟨hbst, hbal⟩ := ih
    cases hs : search t key with
    | some p =>
      have e : set t key value = assign t key value := by simp [set, hs]
      rw [e]
      obtain ⟨a1, _, _, a4⟩ := assign_shape t key value
      exact ⟨(BST_iff_keys _).mpr (a1 ▸ (BST_iff_keys t).mp hbst), a4 hbal⟩
    | none =>
      have e : set t key value = insert t key value := by simp [set, hs]
      rw [e]
      exact ⟨(insert_spec ord t key value hbst hs).1, (Balanced_insert t key value hbal).1⟩
  | @del t key _ ih =>
    obtain ⟨hbst, hbal⟩ := ih
    have e : del t key = remove t key := by cases t <;> rfl
    rw [e]
    exact ⟨(remove_spec ord t key hbst).1, (Balanced_remove t key hbal).1⟩

end AVLTree

/-! ## The parser reads inside its input -/

theorem be_bytes32_bswap32 (b0 b1 b2 b3 : Byte) :
    be_bytes32 (bswap32 (load_u32 b0 b1 b2 b3)) = [b0, b1, b2, b3] := by
  have h0 := b0.isLt
  have h1 := b1.isLt
  have h2 := b2.isLt
  have h3 := b3.isLt
  rw [bswap32_load_u32]
  simp only [be_bytes32, declared_length, byte, Nat.reducePow, List.cons.injEq, and_true]
  refine ⟨?_, ?_, ?_, ?_⟩ <;> (apply Fin.ext; simp only []; omega)

theorem bswap32_lt (b0 b1 b2 b3 : Byte) : bswap32 (load_u32 b0 b1 b2 b3) < 2 ^ 32 := by
  have h0 := b0.isLt
  have h1 := b1.isLt
  have h2 := b2.isLt
  have h3 := b3.isLt
  rw [bswap32_load_u32]
  simp only [declared_length, Nat.reducePow]
  omega

theorem encode_payload_append (v w : List Bytes) :
    encode_payload (v ++ w) = encode_payload v ++ encode_payload w := by
  induction v with
  | nil => rfl
  | cons s v ih => simp [encode_payload, ih]

theorem encode_payload_length (v : List Bytes) :
    (encode_payload v).length = (v.map (fun s => 4 + s.length)).sum := by
  induction v with
  | nil => rfl
  | cons s v ih => simp [encode_payload, encode_string, be_bytes32, ih]; omega

/-- A successful run of the loop of `parse` has consumed its whole byte range: the
strings it returns encode to the strings it started with followed by the
range. -/
theorem parse_loop_ok :
    ∀ (fuel : Nat) (rest : Bytes) (cmd cmd1 : List Bytes), rest.length ≤ fuel →
      rest.length < 2 ^ 32 → RequestParser.parse_loop fuel rest cmd = .ok cmd1 →
      encode_payload cmd1 = encode_payload cmd ++ rest := by
  intro fuel
  induction fuel with
  | zero =>
    intro rest cmd cmd1 h _ hp
    have : rest = [] := List.length_eq_zero.mp (Nat.le_zero.mp h)
    subst this
    simp only [RequestParser.parse_loop, Result.ok.injEq] at hp
    simp [hp]
  | succ fuel ih =>
    intro rest cmd cmd1 h hlt hp
    match rest, h, hlt, hp with
    | [], _, _, hp =>
      simp only [RequestParser.parse_loop, List.length_nil, if_true, Result.ok.injEq] at hp
      simp [hp]
    | [_], _, _, hp => simp [RequestParser.parse_loop] at hp
    | [_, _], _, _, hp => simp [RequestParser.parse_loop] at hp
    | [_, _, _], _, _, hp => simp [RequestParser.parse_loop] at hp
    | b0 :: b1 :: b2 :: b3 :: tail, h, hlt, hp =>
      simp only [RequestParser.parse_loop, List.length_cons, Nat.add_one_ne_zero,
        if_false] at hp
      simp only [List.length_cons] at h hlt
      have hmod : tail.length % 2 ^ 32 = tail.length := Nat.mod_eq_of_lt (by omega)
      rw [hmod] at hp
      by_cases hc : bswap32 (load_u32 b0 b1 b2 b3) > tail.length
      · simp [hc] at hp
      · simp only [hc, if_false] at hp
        have hrec := ih (tail.drop (bswap32 (load_u32 b0 b1 b2 b3)))
          (cmd ++ [tail.take (bswap32 (load_u32 b0 b1 b2 b3))]) cmd1
          (by simp only [List.length_drop]; omega)
          (by simp only [List.length_drop]; omega) hp
        rw [hrec, encode_payload_append]
        have htake : (tail.take (bswap32 (load_u32 b0 b1 b2 b3))).length
            = bswap32 (load_u32 b0 b1 b2 b3) := by
          rw [List.length_take]; omega
        simp only [encode_payload, encode_string, htake, be_bytes32_bswap32, List.append_nil,
          List.append_assoc, List.cons_append, List.nil_append, List.take_append_drop]

theorem read_range_inside (pre rest post : Bytes) (n : Nat) (h : n ≤ rest.length) :
    read_range (pre ++ rest ++ post) (pre.length + rest.length) pre.length n
      = some (rest.take n) := by
  have hb : pre.length + n ≤ (pre ++ rest ++ post).length
      ∧ pre.length + n ≤ pre.length + rest.length := by
    simp only [List.length_append]; omega
  rw [read_range, if_pos hb]
  simp only [List.append_assoc, List.drop_left, List.take_append_of_le_length h]

/-- The checked loop never reads out of bounds and never runs out of fuel: on the
byte range `rest` of the input it returns what `parse_loop` returns. -/
theorem parse_checked_loop_eq (data post : Bytes) (end_ : Nat) :
    ∀ (fuel : Nat) (pre rest : Bytes) (cmd : List Bytes),
      data = pre ++ rest ++ post → end_ = pre.length + rest.length → rest.length ≤ fuel →
      RequestParser.parse_checked_loop data end_ fuel pre.length cmd
        = some (RequestParser.parse_loop fuel rest cmd) := by
  intro fuel
  induction fuel with
  | zero =>
    intro pre rest cmd _ hend h
    have : rest = [] := List.length_eq_zero.mp (Nat.le_zero.mp h)
    subst this
    have : ¬ pre.length < end_ := by rw [hend]; simp
    simp only [RequestParser.parse_checked_loop, this, if_false, RequestParser.parse_loop]
  | succ fuel ih =>
    intro pre rest cmd hdata hend h
    match rest, hdata, hend, h with
    | [], _, hend, _ =>
      have : ¬ pre.length < end_ := by rw [hend]; simp
      simp only [RequestParser.parse_checked_loop, this, if_false, RequestParser.parse_loop,
        List.length_nil, if_true]
    | [_], _, hend, _ =>
      have h1 : pre.length < end_ := by rw [hend]; simp
      have h2 : end_ - pre.length < 4 := by rw [hend]; simp
      simp [RequestParser.parse_checked_loop, h1, h2, RequestParser.parse_loop]
    | [_, _], _, hend, _ =>
      have h1 : pre.length < end_ := by rw [hend]; simp
      have h2 : end_ - pre.length < 4 := by rw [hend]; simp
      simp [RequestParser.parse_checked_loop, h1, h2, RequestParser.parse_loop]
    | [_, _, _], _, hend, _ =>
      have h1 : pre.length < end_ := by rw [hend]; simp
      have h2 : end_ - pre.length < 4 := by rw [hend]; simp
      simp [RequestParser.parse_checked_loop, h1, h2, RequestParser.parse_loop]
    | b0 :: b1 :: b2 :: b3 :: tail, hdata, hend, h =>
      have h1 : pre.length < end_ := by rw [hend]; simp
      have h2 : ¬ end_ - pre.length < 4 := by rw [hend]; simp
      have hread : read_range data end_ pre.length 4 = some [b0, b1, b2, b3] := by
        rw [hdata, hend, read_range_inside pre _ post 4 (by simp)]
        rfl
      have hsub : end_ - (pre.length + 4) = tail.length := by
        rw [hend]; simp only [List.length_cons]; omega
      simp only [RequestParser.parse_checked_loop, h1, if_true, h2, if_false, hread, hsub,
        RequestParser.parse_loop, List.length_cons, Nat.add_one_ne_zero]
      by_cases hc : bswap32 (load_u32 b0 b1 b2 b3) > tail.length % 2 ^ 32
      · simp only [hc, if_true]
      · simp only [hc, if_false]
        have hle : bswap32 (load_u32 b0 b1 b2 b3) ≤ tail.length := by
          have := Nat.mod_le tail.length (2 ^ 32)
          have hlt := bswap32_lt b0 b1 b2 b3
          by_cases hbig : tail.length < 2 ^ 32
          · rw [Nat.mod_eq_of_lt hbig] at hc; omega
          · omega
        have hdata2 : data = (pre ++ [b0, b1, b2, b3]) ++ tail ++ post := by
          rw [hdata]; simp
        have hread2 : read_range data end_ (pre.length + 4) (bswap32 (load_u32 b0 b1 b2 b3))
            = some (tail.take (bswap32 (load_u32 b0 b1 b2 b3))) := by
          have := read_range_inside (pre ++ [b0, b1, b2, b3]) tail post _ hle
          simp only [List.length_append, List.length_cons, List.length_nil] at this
          rw [hdata2, hend]
          simp only [List.length_cons]
          rw [← this]
          congr 1
          omega
        simp only [hread2]
        have hdata3 : data = (pre ++ [b0, b1, b2, b3]
            ++ tail.take (bswap32 (load_u32 b0 b1 b2 b3)))
            ++ tail.drop (bswap32 (load_u32 b0 b1 b2 b3)) ++ post := by
          rw [hdata]; simp
        have := ih (pre ++ [b0, b1, b2, b3] ++ tail.take (bswap32 (load_u32 b0 b1 b2 b3)))
          (tail.drop (bswap32 (load_u32 b0 b1 b2 b3)))
          (cmd ++ [tail.take (bswap32 (load_u32 b0 b1 b2 b3))]) hdata3
          (by rw [hend]; simp only [List.length_append, List.length_cons, List.length_nil,
              List.length_take, List.length_drop]; omega)
          (by simp only [List.length_cons, List.length_drop] at h ⊢; omega)
        simp only [List.length_append, List.length_cons, List.length_nil,
          List.length_take, Nat.min_eq_left hle] at this
        exact this

/-- The checked `parse` has a result on every input, and it is the result of
`parse`. -/
theorem parse_checked_eq (data : Bytes) :
    RequestParser.parse_checked data = some (RequestParser.parse data) := by
  match data with
  | [] => rfl
  | [_] => rfl
  | [_, _] => rfl
  | [_, _, _] => rfl
  | b0 :: b1 :: b2 :: b3 :: body =>
    have hlen : ¬ (b0 :: b1 :: b2 :: b3 :: body).length < 4 := by simp
    have hread : read_range (b0 :: b1 :: b2 :: b3 :: body)
        (b0 :: b1 :: b2 :: b3 :: body).length 0 4 = some [b0, b1, b2, b3] := by
      have := read_range_inside [] (b0 :: b1 :: b2 :: b3 :: body) [] 4 (by simp)
      simpa using this
    simp only [RequestParser.parse_checked, hlen, if_false, hread, RequestParser.parse]
    by_cases hc : 4 + bswap32 (load_u32 b0 b1 b2 b3) > (b0 :: b1 :: b2 :: b3 :: body).length
    · simp only [hc, if_true]
    · simp only [hc, if_false]
      have hle : bswap32 (load_u32 b0 b1 b2 b3) ≤ body.length := by
        simp only [List.length_cons] at hc; omega
      have htake : (body.take (bswap32 (load_u32 b0 b1 b2 b3))).length
          = bswap32 (load_u32 b0 b1 b2 b3) := by rw [List.length_take]; omega
      have := parse_checked_loop_eq (b0 :: b1 :: b2 :: b3 :: body)
        (body.drop (bswap32 (load_u32 b0 b1 b2 b3))) (4 + bswap32 (load_u32 b0 b1 b2 b3))
        (bswap32 (load_u32 b0 b1 b2 b3)) [b0, b1, b2, b3]
        (body.take (bswap32 (load_u32 b0 b1 b2 b3))) [] (by simp) (by simp [htake])
        (by rw [htake])
      simpa using this

/-- A successful `parse` returns strings that encode to the declared payload. -/
theorem parse_ok_payload (data : Bytes) (cmd : List Bytes)
    (h : RequestParser.parse data = .ok cmd) :
    4 + declared_length data ≤ data.length
      ∧ encode_payload cmd = (data.drop 4).take (declared_length data) := by
  match data, h with
  | [], h => simp [RequestParser.parse] at h
  | [_], h => simp [RequestParser.parse] at h
  | [_, _], h => simp [RequestParser.parse] at h
  | [_, _, _], h => simp [RequestParser.parse] at h
  | b0 :: b1 :: b2 :: b3 :: body, h =>
    have hd : declared_length (b0 :: b1 :: b2 :: b3 :: body)
        = bswap32 (load_u32 b0 b1 b2 b3) := by
      rw [bswap32_load_u32]; rfl
    simp only [RequestParser.parse] at h
    by_cases hc : 4 + bswap32 (load_u32 b0 b1 b2 b3) > (b0 :: b1 :: b2 :: b3 :: body).length
    · rw [if_pos hc] at h
      cases h
    · rw [if_neg hc] at h
      have hlt := bswap32_lt b0 b1 b2 b3
      have hle : bswap32 (load_u32 b0 b1 b2 b3) ≤ body.length := by
        simp only [List.length_cons] at hc; omega
      have htake : (body.take (bswap32 (load_u32 b0 b1 b2 b3))).length
          = bswap32 (load_u32 b0 b1 b2 b3) := by rw [List.length_take]; omega
      have := parse_loop_ok _ _ [] cmd (by rw [htake]) (by rw [htake]; exact hlt) h
      rw [hd]
      refine ⟨by omega, ?_⟩
      rw [this]
      simp [encode_payload]

/-! ## The binary heap: order and position references -/

namespace BinaryHeap

variable {T : Type}

theorem parent_eq (i : Nat) (h0 : 0 < i) (h : i < 2 ^ 64) : parent i = (i - 1) / 2 := by
  simp only [parent, Nat.reducePow] at *
  omega

variable [LinearOrder T]

theorem boole_le_count (l : List (HeapItem T)) (i : Nat) (h : i < l.length) (x : HeapItem T) :
    (if l[i] == x then 1 else 0) ≤ l.count x := by
  by_cases hx : l[i] = x
  · have hm : x ∈ l := hx ▸ List.getElem_mem h
    have := List.count_pos_iff.mpr hm
    simp only [hx, beq_self_eq_true, if_true]
    omega
  · simp [hx]

/-- Moving the item at `j` to `i` and putting `a` at `j` gives a permutation of the
array with `a` at `i`. -/
theorem perm_set_swap (l : List (HeapItem T)) (i j : Nat) (a : HeapItem T)
    (hi : i < l.length) (hj : j < l.length) (hne : i ≠ j) :
    List.Perm ((l.set i l[j]).set j a) (l.set i a) := by
  rw [List.perm_iff_count]
  intro x
  have h1 : j < (l.set i l[j]).length := by simpa using hj
  have h2 : (l.set i l[j])[j] = l[j] := by
    rw [List.getElem_set_ne hne]
  have hb := boole_le_count l i hi x
  rw [List.count_set _ _ _ _ h1, List.count_set _ _ _ _ hi, List.count_set _ _ _ _ hi, h2]
  omega

omit [LinearOrder T] in
theorem getElem?_set_lt (l : List (HeapItem T)) (i k : Nat) (a : HeapItem T)
    (h : i < l.length) : (l.set i a)[k]? = if i = k then some a else l[k]? := by
  rw [List.getElem?_set]
  by_cases hk : i = k
  · subst hk; simp [h]
  · simp [hk]

theorem HoleUp_step (items : List (HeapItem T)) (pos : Nat) (temp : HeapItem T)
    (hpos : pos < items.length) (hpp : (pos - 1) / 2 < items.length) (h0 : 0 < pos)
    (hc : temp.value_ < (items[(pos - 1) / 2]).value_)
    (h : HoleUp (items.set pos temp) pos) :
    HoleUp ((items.set pos (items[(pos - 1) / 2])).set ((pos - 1) / 2) temp)
      ((pos - 1) / 2) := by
  have hne : pos ≠ (pos - 1) / 2 := by omega
  have hV : ∀ k, (items.set pos temp)[k]? = if pos = k then some temp else items[k]? :=
    fun k => getElem?_set_lt items pos k temp hpos
  have hV1 : ∀ k, ((items.set pos (items[(pos - 1) / 2])).set ((pos - 1) / 2) temp)[k]?
      = if (pos - 1) / 2 = k then some temp
        else if pos = k then some (items[(pos - 1) / 2]) else items[k]? := by
    intro k
    rw [getElem?_set_lt _ _ _ _ (by simpa using hpp), getElem?_set_lt _ _ _ _ hpos]
  have hVpp : (items.set pos temp)[(pos - 1) / 2]? = some (items[(pos - 1) / 2]) := by
    rw [hV, if_neg hne]
    exact List.getElem?_eq_getElem hpp
  obtain ⟨ha, hb⟩ := h
  constructor
  · intro i c q hi hipp hci hqi
    rw [hV1] at hci hqi
    rw [if_neg (fun e => hipp e.symm)] at hci
    by_cases hip : pos = i
    · subst hip
      rw [if_pos rfl] at hci
      rw [if_pos rfl] at hqi
      simp only [Option.some.injEq] at hci hqi
      rw [← hci, ← hqi]
      exact le_of_lt hc
    · rw [if_neg hip] at hci
      have hVi : (items.set pos temp)[i]? = some c := by rw [hV, if_neg hip]; exact hci
      by_cases hm1 : (pos - 1) / 2 = (i - 1) / 2
      · rw [if_pos hm1] at hqi
        simp only [Option.some.injEq] at hqi
        have := ha i c _ hi (fun e => hip e.symm) hVi (by rw [← hm1]; exact hVpp)
        rw [← hqi]
        exact le_trans (le_of_lt hc) this
      · rw [if_neg hm1] at hqi
        by_cases hm2 : pos = (i - 1) / 2
        · rw [if_pos hm2] at hqi
          simp only [Option.some.injEq] at hqi
          rw [← hqi]
          exact hb i c _ h0 hi hm2.symm hVi hVpp
        · rw [if_neg hm2] at hqi
          exact ha i c q hi (fun e => hip e.symm) hVi (by rw [hV, if_neg hm2]; exact hqi)
  · intro i c g hpp0 hi hpar hci hgi
    rw [hV1] at hci hgi
    have hg1 : ¬ (pos - 1) / 2 = ((pos - 1) / 2 - 1) / 2 := by omega
    have hg2 : ¬ pos = ((pos - 1) / 2 - 1) / 2 := by omega
    rw [if_neg hg1, if_neg hg2] at hgi
    have hgp : g.value_ ≤ (items[(pos - 1) / 2]).value_ :=
      ha ((pos - 1) / 2) _ g hpp0 (fun e => hne e.symm) hVpp
        (by rw [hV, if_neg hg2]; exact hgi)
    have hi1 : ¬ (pos - 1) / 2 = i := by omega
    rw [if_neg hi1] at hci
    by_cases hip : pos = i
    · rw [if_pos hip] at hci
      simp only [Option.some.injEq] at hci
      rw [← hci]; exact hgp
    · rw [if_neg hip] at hci
      have hVi : (items.set pos temp)[i]? = some c := by rw [hV, if_neg hip]; exact hci
      have := ha i c _ hi (fun e => hip e.symm) hVi (by rw [hpar]; exact hVpp)
      exact le_trans hgp this

theorem sift_up_loop_spec (temp : HeapItem T) :
    ∀ (fuel : Nat) (items : List (HeapItem T)) (pos : Nat) (log : List SlotWrite),
      pos < items.length → pos ≤ fuel → items.length ≤ 2 ^ 64 →
      (sift_up_loop (fun a b => decide (a < b)) temp fuel items pos log).2.1 < items.length
      ∧ List.Perm ((sift_up_loop (fun a b => decide (a < b)) temp fuel items pos log).1.set
          (sift_up_loop (fun a b => decide (a < b)) temp fuel items pos log).2.1 temp)
          (items.set pos temp)
      ∧ (HoleUp (items.set pos temp) pos →
          Ordered ((sift_up_loop (fun a b => decide (a < b)) temp fuel items pos log).1.set
            (sift_up_loop (fun a b => decide (a < b)) temp fuel items pos log).2.1 temp)) := by
  intro fuel
  induction fuel with
  | zero =>
    intro items pos log hpos hfuel hlen
    have h0 : pos = 0 := by omega
    subst h0
    refine ⟨hpos, List.Perm.refl _, fun h => ?_⟩
    intro i c p hi hc hp
    exact h.1 i c p hi (by omega) hc hp
  | succ fuel ih =>
    intro items pos log hpos hfuel hlen
    by_cases h0 : pos > 0
    · have hpar : parent pos = (pos - 1) / 2 := parent_eq pos h0 (by omega)
      have hpp : (pos - 1) / 2 < items.length := by omega
      have hget : items.get? ((pos - 1) / 2) = some (items[(pos - 1) / 2]) := by
        simp [List.getElem?_eq_getElem hpp]
      simp only [sift_up_loop, h0, if_true, hpar, hget]
      by_cases hc : temp.value_ < (items[(pos - 1) / 2]).value_
      · simp only [hc, decide_True, Bool.not_true, Bool.false_eq_true, if_false]
        have hlen1 : (items.set pos (items[(pos - 1) / 2])).length = items.length := by simp
        obtain ⟨i1, i2, i3⟩ := ih (items.set pos (items[(pos - 1) / 2])) ((pos - 1) / 2)
          (note_position (items.set pos (items[(pos - 1) / 2])) pos log)
          (by rw [hlen1]; exact hpp) (by omega) (by rw [hlen1]; exact hlen)
        rw [hlen1] at i1
        refine ⟨i1, i2.trans (perm_set_swap items pos _ temp hpos hpp (by omega)), fun h => ?_⟩
        exact i3 (HoleUp_step items pos temp hpos hpp h0 hc h)
      · simp only [hc, decide_False, Bool.not_false, if_true]
        refine ⟨hpos, List.Perm.refl _, fun h => ?_⟩
        intro i c p hi hci hpi
        by_cases hip : i = pos
        · subst hip
          have h1 : (items.set i temp)[i]? = some temp := by
            simp [List.getElem?_set, hpos]
          have h2 : (items.set i temp)[(i - 1) / 2]? = some (items[(i - 1) / 2]) := by
            rw [List.getElem?_set_ne (by omega)]
            exact List.getElem?_eq_getElem hpp
          rw [h1] at hci
          rw [h2] at hpi
          simp only [Option.some.injEq] at hci hpi
          rw [← hci, ← hpi]
          exact not_lt.mp hc
        · exact h.1 i c p hi hip hci hpi
    · have h0' : pos = 0 := by omega
      subst h0'
      simp only [sift_up_loop, gt_iff_lt, lt_self_iff_false, if_false]
      refine ⟨hpos, List.Perm.refl _, fun h => ?_⟩
      intro i c p hi hc hp
      exact h.1 i c p hi (by omega) hc hp

/-! ### The stores through the position references -/

omit [LinearOrder T] in
theorem apply_slot_writes_append (log s : List SlotWrite) (mem : Nat → Nat) :
    apply_slot_writes (log ++ s) mem = apply_slot_writes s (apply_slot_writes log mem) := by
  simp [apply_slot_writes, List.foldl_append]

omit [LinearOrder T] in
/-- One move of the hole from `pos` to `q`: the item at `q` goes to `pos` and its
slot is written. -/
theorem refs_step (items : List (HeapItem T)) (pos q : Nat) (temp : HeapItem T)
    (log : List SlotWrite) (mem : Nat → Nat) (E : Nat → Prop)
    (hpos : pos < items.length) (hq : q < items.length) (hne : pos ≠ q)
    (hd : RefsDistinct (items.set pos temp))
    (he : RefsExcept (items.set pos temp) pos (apply_slot_writes log mem) E) :
    RefsDistinct ((items.set pos items[q]).set q temp)
      ∧ RefsExcept ((items.set pos items[q]).set q temp) q
          (apply_slot_writes (note_position (items.set pos items[q]) pos log) mem) E := by
  have hV : ∀ k, (items.set pos temp)[k]? = if pos = k then some temp else items[k]? :=
    fun k => getElem?_set_lt items pos k temp hpos
  have hV1 : ∀ k, ((items.set pos items[q]).set q temp)[k]?
      = if q = k then some temp else if pos = k then some items[q] else items[k]? := by
    intro k
    rw [getElem?_set_lt _ _ _ _ (by simpa using hq), getElem?_set_lt _ _ _ _ hpos]
  have hVq : (items.set pos temp)[q]? = some items[q] := by
    rw [hV, if_neg hne]; exact List.getElem?_eq_getElem hq
  have hVpos : (items.set pos temp)[pos]? = some temp := by rw [hV, if_pos rfl]
  -- the array after the move is the array before it with `pos` and `q` exchanged
  have hperm : ∀ k x, ((items.set pos items[q]).set q temp)[k]? = some x →
      (items.set pos temp)[if k = q then pos else if k = pos then q else k]? = some x := by
    intro k x hk
    rw [hV1] at hk
    by_cases h1 : q = k
    · rw [if_pos h1] at hk
      rw [if_pos h1.symm, hVpos]; exact hk
    · rw [if_neg h1] at hk
      rw [if_neg (fun e => h1 e.symm)]
      by_cases h2 : pos = k
      · rw [if_pos h2] at hk
        rw [if_pos h2.symm, hVq]; exact hk
      · rw [if_neg h2] at hk
        rw [if_neg (fun e => h2 e.symm), hV, if_neg h2]; exact hk
  constructor
  · intro i j x y a hi hj hx hy
    have := hd _ _ x y a (hperm i x hi) (hperm j y hj) hx hy
    split_ifs at this <;> omega
  · intro k x a hE hkq hk hx
    rw [hV1, if_neg (fun e => hkq e.symm)] at hk
    have hnote : (items.set pos items[q]).get? pos = some items[q] := by
      rw [List.get?_eq_getElem?, getElem?_set_lt _ _ _ _ hpos, if_pos rfl]
    by_cases h2 : pos = k
    · rw [if_pos h2] at hk
      simp only [Option.some.injEq] at hk
      subst hk
      simp only [note_position, hnote, hx, apply_slot_writes_append]
      simp [apply_slot_writes, h2]
    · rw [if_neg h2] at hk
      have hVk : (items.set pos temp)[k]? = some x := by rw [hV, if_neg h2]; exact hk
      have hold := he k x a hE (fun e => h2 e.symm) hVk hx
      cases hr : (items[q]).position_ref_ with
      | none => simp only [note_position, hnote, hr]; exact hold
      | some b =>
        have hba : b ≠ a := by
          intro e
          have := hd q k _ x a hVq hVk (e ▸ hr) hx
          exact hkq this.symm
        simp only [note_position, hnote, hr, apply_slot_writes_append]
        simp only [apply_slot_writes, List.foldl_cons, List.foldl_nil]
        rw [Function.update_noteq (fun e => hba e.symm)]
        exact hold

omit [LinearOrder T] in
/-- The last store of a sift: the item `temp` is placed in the hole and its slot
is written. -/
theorem refs_final (items : List (HeapItem T)) (pos : Nat) (temp : HeapItem T)
    (log : List SlotWrite) (mem : Nat → Nat) (E : Nat → Prop) (hpos : pos < items.length)
    (hd : RefsDistinct (items.set pos temp))
    (he : RefsExcept (items.set pos temp) pos (apply_slot_writes log mem) E) :
    RefsOutside (items.set pos temp)
      (apply_slot_writes (note_position (items.set pos temp) pos log) mem) E := by
  have hVpos : (items.set pos temp)[pos]? = some temp := by
    rw [getElem?_set_lt _ _ _ _ hpos, if_pos rfl]
  have hnote : (items.set pos temp).get? pos = some temp := by
    rw [List.get?_eq_getElem?]; exact hVpos
  intro k x a hE hk hx
  by_cases hkp : k = pos
  · subst hkp
    rw [hVpos] at hk
    simp only [Option.some.injEq] at hk
    subst hk
    simp only [note_position, hnote, hx, apply_slot_writes_append]
    simp [apply_slot_writes]
  · have hold := he k x a hE hkp hk hx
    cases hr : temp.position_ref_ with
    | none => simp only [note_position, hnote, hr]; exact hold
    | some b =>
      have hba : b ≠ a := by
        intro e
        exact hkp (hd pos k _ x a hVpos hk (e ▸ hr) hx).symm
      simp only [note_position, hnote, hr, apply_slot_writes_append]
      simp only [apply_slot_writes, List.foldl_cons, List.foldl_nil]
      rw [Function.update_noteq (fun e => hba e.symm)]
      exact hold

omit [LinearOrder T] in
theorem sift_up_loop_refs (compare_ : T → T → Bool) (temp : HeapItem T) (mem : Nat → Nat)
    (E : Nat → Prop) :
    ∀ (fuel : Nat) (items : List (HeapItem T)) (pos : Nat) (log : List SlotWrite),
      pos < items.length → items.length ≤ 2 ^ 64 →
      RefsDistinct (items.set pos temp) →
      RefsExcept (items.set pos temp) pos (apply_slot_writes log mem) E →
      (sift_up_loop compare_ temp fuel items pos log).2.1 < items.length
      ∧ RefsDistinct ((sift_up_loop compare_ temp fuel items pos log).1.set
          (sift_up_loop compare_ temp fuel items pos log).2.1 temp)
      ∧ RefsExcept ((sift_up_loop compare_ temp fuel items pos log).1.set
          (sift_up_loop compare_ temp fuel items pos log).2.1 temp)
          (sift_up_loop compare_ temp fuel items pos log).2.1
          (apply_slot_writes (sift_up_loop compare_ temp fuel items pos log).2.2 mem) E := by
  intro fuel
  induction fuel with
  | zero => intro items pos log hpos _ hd he; exact ⟨hpos, hd, he⟩
  | succ fuel ih =>
    intro items pos log hpos hlen hd he
    by_cases h0 : pos > 0
    · have hpar : parent pos = (pos - 1) / 2 := parent_eq pos h0 (by omega)
      have hpp : (pos - 1) / 2 < items.length := by omega
      have hget : items.get? ((pos - 1) / 2) = some (items[(pos - 1) / 2]) := by
        simp [List.getElem?_eq_getElem hpp]
      simp only [sift_up_loop, h0, if_true, hpar, hget]
      by_cases hc : compare_ temp.value_ (items[(pos - 1) / 2]).value_ = true
      · simp only [hc, Bool.not_true, Bool.false_eq_true, if_false]
        have hlen1 : (items.set pos (items[(pos - 1) / 2])).length = items.length := by simp
        obtain ⟨s1, s2⟩ := refs_step items pos ((pos - 1) / 2) temp log mem E hpos hpp
          (by omega) hd he
        obtain ⟨i1, i2, i3⟩ := ih (items.set pos (items[(pos - 1) / 2])) ((pos - 1) / 2)
          (note_position (items.set pos (items[(pos - 1) / 2])) pos log)
          (by rw [hlen1]; exact hpp) (by rw [hlen1]; exact hlen) s1 s2
        rw [hlen1] at i1
        exact ⟨i1, i2, i3⟩
      · simp only [hc, Bool.not_false, if_true]
        exact ⟨hpos, hd, he⟩
    · simp only [sift_up_loop, h0, if_false]
      exact ⟨hpos, hd, he⟩

omit [LinearOrder T] in
theorem set_self (items : List (HeapItem T)) (pos : Nat) (temp : HeapItem T)
    (h : items.get? pos = some temp) : items.set pos temp = items := by
  rw [List.get?_eq_getElem?] at h
  apply List.ext_getElem?
  intro k
  rw [List.getElem?_set]
  by_cases hk : pos = k
  · subst hk
    rw [if_pos rfl, h]
    have := (List.getElem?_eq_some.mp h).1
    simp [this]
  · rw [if_neg hk]

omit [LinearOrder T] in
theorem get?_lt (items : List (HeapItem T)) (pos : Nat) (temp : HeapItem T)
    (h : items.get? pos = some temp) : pos < items.length := by
  rw [List.get?_eq_getElem?, List.getElem?_eq_some] at h
  exact h.1

/-- About `sift_up(pos)`: the result is a permutation of the array, and it is in
heap order when only the edge above `pos` was out of order. -/
theorem sift_up_spec (items : List (HeapItem T)) (pos : Nat) (hpos : pos < items.length)
    (hlen : items.length ≤ 2 ^ 64) :
    List.Perm (sift_up (fun a b => decide (a < b)) items pos).1 items
      ∧ (HoleUp items pos → Ordered (sift_up (fun a b => decide (a < b)) items pos).1) := by
  have hget : items.get? pos = some items[pos] := by
    simp [List.getElem?_eq_getElem hpos]
  have hself := set_self items pos _ hget
  obtain ⟨_, h2, h3⟩ := sift_up_loop_spec items[pos] pos items pos [] hpos (le_refl _) hlen
  rw [hself] at h2 h3
  simp only [sift_up, hget]
  exact ⟨h2, h3⟩

omit [LinearOrder T] in
/-- About the stores of `sift_up(pos)`: when the references are distinct and the
slots agree with the array outside `E` and `pos`, they agree outside `E`
afterwards. -/
theorem sift_up_refs (compare_ : T → T → Bool) (items : List (HeapItem T)) (pos : Nat)
    (mem : Nat → Nat) (E : Nat → Prop) (hpos : pos < items.length)
    (hlen : items.length ≤ 2 ^ 64) (hd : RefsDistinct items)
    (he : RefsExcept items pos mem E) :
    RefsDistinct (sift_up compare_ items pos).1
      ∧ RefsOutside (sift_up compare_ items pos).1
          (apply_slot_writes (sift_up compare_ items pos).2 mem) E := by
  have hget : items.get? pos = some items[pos] := by
    simp [List.getElem?_eq_getElem hpos]
  have hself := set_self items pos _ hget
  obtain ⟨h1, h2, h3⟩ := sift_up_loop_refs compare_ items[pos] mem E pos items pos [] hpos hlen
    (by rw [hself]; exact hd) (by rw [hself]; exact he)
  simp only [sift_up, hget]
  refine ⟨h2, ?_⟩
  have hl : (sift_up_loop compare_ items[pos] pos items pos []).2.1
      < (sift_up_loop compare_ items[pos] pos items pos []).1.length := by
    rw [length_sift_up_loop]; exact h1
  exact refs_final _ _ _ _ mem E hl h2 h3

/-! ### Sifting down -/

omit [LinearOrder T] in
theorem left_child_eq (i : Nat) : left_child i = 2 * i + 1 := by simp [left_child]; omega

omit [LinearOrder T] in
theorem right_child_eq (i : Nat) : right_child i = 2 * i + 2 := by simp [right_child]; omega

omit [LinearOrder T] in
theorem sift_down_loop_succ (compare_ : T → T → Bool) (temp : HeapItem T) (len fuel : Nat)
    (items : List (HeapItem T)) (pos : Nat) (log : List SlotWrite) :
    sift_down_loop compare_ temp len (fuel + 1) items pos log
      = if min_child compare_ temp len items pos = pos then (items, pos, log)
        else
          match items.get? (min_child compare_ temp len items pos) with
          | none => (items, pos, log)
          | some c =>
            sift_down_loop compare_ temp len fuel (items.set pos c)
              (min_child compare_ temp len items pos)
              (note_position (items.set pos c) pos log) := rfl

omit [LinearOrder T] in
/-- The position chosen is the hole itself or one of its two children. -/
theorem min_child_cases (compare_ : T → T → Bool) (temp : HeapItem T) (len : Nat)
    (items : List (HeapItem T)) (pos : Nat) :
    min_child compare_ temp len items pos = pos
      ∨ min_child compare_ temp len items pos = 2 * pos + 1
      ∨ min_child compare_ temp len items pos = 2 * pos + 2 := by
  simp only [min_child, left_child_eq, right_child_eq]
  cases items.get? (2 * pos + 1) <;> cases items.get? (2 * pos + 2) <;> simp only []
    <;> (try split_ifs) <;> simp

omit [LinearOrder T] in
/-- A child that is chosen is an index of the array. -/
theorem min_child_some (compare_ : T → T → Bool) (temp : HeapItem T) (len : Nat)
    (items : List (HeapItem T)) (pos : Nat)
    (h : min_child compare_ temp len items pos ≠ pos) :
    ∃ c, items.get? (min_child compare_ temp len items pos) = some c := by
  revert h
  simp only [min_child, left_child_eq, right_child_eq]
  cases hl : items.get? (2 * pos + 1) with
  | none =>
    cases hr : items.get? (2 * pos + 2) with
    | none => intro h; exact absurd rfl h
    | some r =>
      simp only []
      split_ifs <;> intro h
        <;> first | exact ⟨r, hr⟩ | exact absurd rfl h
  | some l =>
    cases hr : items.get? (2 * pos + 2) with
    | none =>
      simp only []
      split_ifs <;> intro h
        <;> first | exact ⟨l, hl⟩ | exact absurd rfl h
    | some r =>
      simp only []
      split_ifs <;> intro h
        <;> first | exact ⟨r, hr⟩ | exact ⟨l, hl⟩ | exact absurd rfl h

/-- The order facts of the position chosen: when it is the hole, no child is
smaller than `temp`; when it is a child, that child is smaller than `temp` and
not larger than the other child. -/
theorem min_child_spec (temp : HeapItem T) (items : List (HeapItem T)) (pos : Nat) :
    (min_child (fun a b => decide (a < b)) temp items.length items pos = pos →
        ∀ k x, (k = 2 * pos + 1 ∨ k = 2 * pos + 2) → items[k]? = some x →
          temp.value_ ≤ x.value_)
      ∧ (min_child (fun a b => decide (a < b)) temp items.length items pos ≠ pos →
        ∀ c, items[min_child (fun a b => decide (a < b)) temp items.length items pos]? = some c →
          c.value_ < temp.value_
            ∧ ∀ k x, (k = 2 * pos + 1 ∨ k = 2 * pos + 2) → items[k]? = some x →
              c.value_ ≤ x.value_) := by
  simp only [min_child, left_child_eq, right_child_eq, List.get?_eq_getElem?]
  have hne1 : ¬ 2 * pos + 1 = pos := by omega
  have hne2 : ¬ 2 * pos + 2 = pos := by omega
  cases hl : items[2 * pos + 1]? with
  | none =>
    have hr : items[2 * pos + 2]? = none := by
      rw [List.getElem?_eq_none_iff] at hl ⊢; omega
    simp only [hr]
    refine ⟨fun _ k x hk hx => ?_, fun h => absurd rfl h⟩
    rcases hk with hk | hk <;> subst hk
    · rw [hl] at hx; cases hx
    · rw [hr] at hx; cases hx
  | some l =>
    have hll : 2 * pos + 1 < items.length := (List.getElem?_eq_some.mp hl).1
    cases hr : items[2 * pos + 2]? with
    | none =>
      simp only [hll, true_and, decide_eq_true_eq]
      by_cases h1 : l.value_ < temp.value_
      · simp only [h1, if_true, hne1, false_implies, true_and, ne_eq, not_false_eq_true,
          true_implies]
        intro c hc
        rw [hl] at hc
        simp only [Option.some.injEq] at hc
        subst hc
        refine ⟨h1, fun k x hk hx => ?_⟩
        rcases hk with hk | hk <;> subst hk
        · rw [hl] at hx; simp only [Option.some.injEq] at hx; rw [hx]
        · rw [hr] at hx; cases hx
      · simp only [h1, if_false, true_implies, ne_eq, not_true_eq_false, false_implies,
          and_true]
        intro k x hk hx
        rcases hk with hk | hk <;> subst hk
        · rw [hl] at hx; simp only [Option.some.injEq] at hx; rw [← hx]; exact not_lt.mp h1
        · rw [hr] at hx; cases hx
    | some r =>
      have hrr : 2 * pos + 2 < items.length := (List.getElem?_eq_some.mp hr).1
      simp only [hll, hrr, true_and, decide_eq_true_eq]
      by_cases h1 : l.value_ < temp.value_
      · simp only [h1, if_true, hne1, if_false, hl]
        by_cases h2 : r.value_ < l.value_
        · simp only [h2, if_true, hne2, false_implies, true_and, ne_eq, not_false_eq_true,
            true_implies, hr, Option.some.injEq]
          intro c hc
          subst hc
          refine ⟨lt_trans h2 h1, fun k x hk hx => ?_⟩
          rcases hk with hk | hk <;> subst hk
          · rw [hl] at hx; simp only [Option.some.injEq] at hx; rw [← hx]; exact le_of_lt h2
          · rw [hr] at hx; simp only [Option.some.injEq] at hx; rw [hx]
        · simp only [h2, if_false, hne1, false_implies, true_and, ne_eq, not_false_eq_true,
            true_implies, hl, Option.some.injEq]
          intro c hc
          subst hc
          refine ⟨h1, fun k x hk hx => ?_⟩
          rcases hk with hk | hk <;> subst hk
          · rw [hl] at hx; simp only [Option.some.injEq] at hx; rw [hx]
          · rw [hr] at hx; simp only [Option.some.injEq] at hx; rw [← hx]; exact not_lt.mp h2
      · simp only [h1, if_false, if_true]
        by_cases h2 : r.value_ < temp.value_
        · simp only [h2, if_true, hne2, false_implies, true_and, ne_eq, not_false_eq_true,
            true_implies, hr, Option.some.injEq]
          intro c hc
          subst hc
          refine ⟨h2, fun k x hk hx => ?_⟩
          rcases hk with hk | hk <;> subst hk
          · rw [hl] at hx; simp only [Option.some.injEq] at hx; rw [← hx]
            exact le_trans (le_of_lt h2) (not_lt.mp h1)
          · rw [hr] at hx; simp only [Option.some.injEq] at hx; rw [hx]
        · simp only [h2, if_false, true_implies, ne_eq, not_true_eq_false, false_implies,
            and_true]
          intro k x hk hx
          rcases hk with hk | hk <;> subst hk
          · rw [hl] at hx; simp only [Option.some.injEq] at hx; rw [← hx]; exact not_lt.mp h1
          · rw [hr] at hx; simp only [Option.some.injEq] at hx; rw [← hx]; exact not_lt.mp h2

theorem HoleDown_step (items : List (HeapItem T)) (pos m : Nat) (temp c : HeapItem T)
    (hpos : pos < items.length) (hm : m = 2 * pos + 1 ∨ m = 2 * pos + 2)
    (hc : items[m]? = some c) (hlt : c.value_ < temp.value_)
    (hmin : ∀ k x, (k = 2 * pos + 1 ∨ k = 2 * pos + 2) → items[k]? = some x →
      c.value_ ≤ x.value_)
    (h : HoleDown (items.set pos temp) pos) :
    HoleDown ((items.set pos c).set m temp) m := by
  have hml : m < items.length := (List.getElem?_eq_some.mp hc).1
  have hne : pos ≠ m := by omega
  have hV : ∀ k, (items.set pos temp)[k]? = if pos = k then some temp else items[k]? :=
    fun k => getElem?_set_lt items pos k temp hpos
  have hV1 : ∀ k, ((items.set pos c).set m temp)[k]?
      = if m = k then some temp else if pos = k then some c else items[k]? := by
    intro k
    rw [getElem?_set_lt _ _ _ _ (by simpa using hml), getElem?_set_lt _ _ _ _ hpos]
  have hVm : (items.set pos temp)[m]? = some c := by rw [hV, if_neg hne]; exact hc
  obtain ⟨ha, hb⟩ := h
  constructor
  · intro i x q hi hpar hxi hqi
    rw [hV1] at hxi hqi
    rw [if_neg (fun e => hpar e.symm)] at hqi
    by_cases him : m = i
    · -- the edge from `pos` to the new hole
      have hp : pos = (i - 1) / 2 := by omega
      rw [if_pos him] at hxi
      rw [if_pos hp] at hqi
      simp only [Option.some.injEq] at hxi hqi
      rw [← hxi, ← hqi]; exact le_of_lt hlt
    · rw [if_neg him] at hxi
      by_cases hip : pos = i
      · -- the edge into `pos`
        have hp2 : ¬ pos = (i - 1) / 2 := by omega
        rw [if_pos hip] at hxi
        rw [if_neg hp2] at hqi
        simp only [Option.some.injEq] at hxi
        rw [← hxi]
        have h0 : 0 < pos := by omega
        have : (items.set pos temp)[(pos - 1) / 2]? = some q := by
          rw [hV, if_neg (by omega)]; rw [hip]; exact hqi
        exact hb m c q h0 (by omega) (by omega) hVm this
      · rw [if_neg hip] at hxi
        by_cases hp : pos = (i - 1) / 2
        · -- the edge from `pos` to its other child
          rw [if_pos hp] at hqi
          simp only [Option.some.injEq] at hqi
          rw [← hqi]
          exact hmin i x (by omega) hxi
        · rw [if_neg hp] at hqi
          exact ha i x q hi (fun e => hp e.symm) (by rw [hV, if_neg hip]; exact hxi)
            (by rw [hV, if_neg hp]; exact hqi)
  · intro i x g hm0 hi hpar hxi hgi
    rw [hV1] at hxi hgi
    have hg1 : ¬ m = (m - 1) / 2 := by omega
    have hg2 : pos = (m - 1) / 2 := by omega
    rw [if_neg hg1, if_pos hg2] at hgi
    simp only [Option.some.injEq] at hgi
    have hi1 : ¬ m = i := by omega
    have hi2 : ¬ pos = i := by omega
    rw [if_neg hi1, if_neg hi2] at hxi
    rw [← hgi]
    exact ha i x c hi (by omega) (by rw [hV, if_neg hi2]; exact hxi) (by rw [hpar]; exact hVm)

theorem sift_down_loop_spec (temp : HeapItem T) :
    ∀ (fuel : Nat) (items : List (HeapItem T)) (pos : Nat) (log : List SlotWrite),
      pos < items.length → items.length ≤ pos + fuel →
      (sift_down_loop (fun a b => decide (a < b)) temp items.length fuel items pos log).2.1
          < items.length
      ∧ (sift_down_loop (fun a b => decide (a < b)) temp items.length fuel items pos log).1.length
          = items.length
      ∧ List.Perm
          ((sift_down_loop (fun a b => decide (a < b)) temp items.length fuel items pos log).1.set
            (sift_down_loop (fun a b => decide (a < b)) temp items.length fuel items pos log).2.1
            temp)
          (items.set pos temp)
      ∧ (HoleDown (items.set pos temp) pos →
          Ordered
            ((sift_down_loop (fun a b => decide (a < b)) temp items.length fuel items pos
                log).1.set
              (sift_down_loop (fun a b => decide (a < b)) temp items.length fuel items pos
                log).2.1 temp)) := by
  intro fuel
  induction fuel with
  | zero => intro items pos log hpos hfuel; omega
  | succ fuel ih =>
    intro items pos log hpos hfuel
    rw [sift_down_loop_succ]
    obtain ⟨sp1, sp2⟩ := min_child_spec temp items pos
    by_cases hm : min_child (fun a b => decide (a < b)) temp items.length items pos = pos
    · rw [if_pos hm]
      refine ⟨hpos, rfl, List.Perm.refl _, fun h => ?_⟩
      have hmin := sp1 hm
      have hV : ∀ k, (items.set pos temp)[k]? = if pos = k then some temp else items[k]? :=
        fun k => getElem?_set_lt items pos k temp hpos
      intro i c p hi hci hpi
      by_cases hp : (i - 1) / 2 = pos
      · rw [hp, hV, if_pos rfl] at hpi
        simp only [Option.some.injEq] at hpi
        rw [hV, if_neg (by omega)] at hci
        rw [← hpi]
        exact hmin i c (by omega) hci
      · exact h.1 i c p hi hp hci hpi
    · rw [if_neg hm]
      have hcases := min_child_cases (fun a b => decide (a < b)) temp items.length items pos
      have hmc : min_child (fun a b => decide (a < b)) temp items.length items pos
            = 2 * pos + 1
          ∨ min_child (fun a b => decide (a < b)) temp items.length items pos
            = 2 * pos + 2 := by
        rcases hcases with h | h | h
        · exact absurd h hm
        · exact Or.inl h
        · exact Or.inr h
      cases hg : items.get? (min_child (fun a b => decide (a < b)) temp items.length items pos)
        with
      | none =>
        obtain ⟨c, hc⟩ := min_child_some (fun a b => decide (a < b)) temp items.length items
          pos hm
        rw [hc] at hg
        cases hg
      | some c =>
        simp only []
        have hgc : items[min_child (fun a b => decide (a < b)) temp items.length items pos]?
            = some c := by rw [← List.get?_eq_getElem?]; exact hg
        have hml := (List.getElem?_eq_some.mp hgc).1
        obtain ⟨hlt, hmin⟩ := sp2 hm c hgc
        have hlen1 : (items.set pos c).length = items.length := by simp
        have hih := ih (items.set pos c)
          (min_child (fun a b => decide (a < b)) temp items.length items pos)
          (note_position (items.set pos c) pos log) (by rw [hlen1]; exact hml)
          (by rw [hlen1]; omega)
        rw [hlen1] at hih
        obtain ⟨i1, i2, i3, i4⟩ := hih
        have hcm : c = items[min_child (fun a b => decide (a < b)) temp items.length items pos] :=
          ((List.getElem?_eq_some.mp hgc).2).symm
        refine ⟨i1, i2, ?_, fun h => ?_⟩
        · refine i3.trans ?_
          have := perm_set_swap items pos _ temp hpos hml (by omega)
          rw [← hcm] at this
          exact this
        · exact i4 (HoleDown_step items pos _ temp c hpos hmc hgc hlt hmin h)

omit [LinearOrder T] in
theorem sift_down_loop_refs (compare_ : T → T → Bool) (temp : HeapItem T) (len : Nat)
    (mem : Nat → Nat) (E : Nat → Prop) :
    ∀ (fuel : Nat) (items : List (HeapItem T)) (pos : Nat) (log : List SlotWrite),
      pos < items.length →
      RefsDistinct (items.set pos temp) →
      RefsExcept (items.set pos temp) pos (apply_slot_writes log mem) E →
      (sift_down_loop compare_ temp len fuel items pos log).2.1 < items.length
      ∧ (sift_down_loop compare_ temp len fuel items pos log).1.length = items.length
      ∧ RefsDistinct ((sift_down_loop compare_ temp len fuel items pos log).1.set
          (sift_down_loop compare_ temp len fuel items pos log).2.1 temp)
      ∧ RefsExcept ((sift_down_loop compare_ temp len fuel items pos log).1.set
          (sift_down_loop compare_ temp len fuel items pos log).2.1 temp)
          (sift_down_loop compare_ temp len fuel items pos log).2.1
          (apply_slot_writes (sift_down_loop compare_ temp len fuel items pos log).2.2 mem) E := by
  intro fuel
  induction fuel with
  | zero => intro items pos log hpos hd he; exact ⟨hpos, rfl, hd, he⟩
  | succ fuel ih =>
    intro items pos log hpos hd he
    rw [sift_down_loop_succ]
    by_cases hm : min_child compare_ temp len items pos = pos
    · rw [if_pos hm]
      exact ⟨hpos, rfl, hd, he⟩
    · rw [if_neg hm]
      obtain ⟨c, hc⟩ := min_child_some compare_ temp len items pos hm
      rw [hc]
      simp only []
      have hgc : items[min_child compare_ temp len items pos]? = some c := by
        rw [← List.get?_eq_getElem?]; exact hc
      have hml := (List.getElem?_eq_some.mp hgc).1
      have hcm : c = items[min_child compare_ temp len items pos] :=
        ((List.getElem?_eq_some.mp hgc).2).symm
      have hlen1 : (items.set pos c).length = items.length := by simp
      obtain ⟨s1, s2⟩ := refs_step items pos (min_child compare_ temp len items pos) temp log
        mem E hpos hml (fun e => hm e.symm) hd he
      rw [← hcm] at s1 s2
      have hih := ih (items.set pos c) (min_child compare_ temp len items pos)
        (note_position (items.set pos c) pos log) (by rw [hlen1]; exact hml) s1 s2
      rw [hlen1] at hih
      exact hih

/-- About `sift_down(pos)`: the result is a permutation of the array, and it is in
heap order when only the edges below `pos` were out of order. -/
theorem sift_down_spec (items : List (HeapItem T)) (pos : Nat) (hpos : pos < items.length) :
    List.Perm (sift_down (fun a b => decide (a < b)) items pos).1 items
      ∧ (HoleDown items pos → Ordered (sift_down (fun a b => decide (a < b)) items pos).1) := by
  have hget : items.get? pos = some items[pos] := by
    simp [List.getElem?_eq_getElem hpos]
  have hself := set_self items pos _ hget
  obtain ⟨_, _, h2, h3⟩ := sift_down_loop_spec items[pos] items.length items pos [] hpos
    (by omega)
  rw [hself] at h2 h3
  simp only [sift_down, hget]
  exact ⟨h2, h3⟩

omit [LinearOrder T] in
/-- About the stores of `sift_down(pos)`: when the references are distinct and the
slots agree with the array outside `E` and `pos`, they agree outside `E`
afterwards. -/
theorem sift_down_refs (compare_ : T → T → Bool) (items : List (HeapItem T)) (pos : Nat)
    (mem : Nat → Nat) (E : Nat → Prop) (hpos : pos < items.length)
    (hd : RefsDistinct items) (he : RefsExcept items pos mem E) :
    RefsDistinct (sift_down compare_ items pos).1
      ∧ RefsOutside (sift_down compare_ items pos).1
          (apply_slot_writes (sift_down compare_ items pos).2 mem) E := by
  have hget : items.get? pos = some items[pos] := by
    simp [List.getElem?_eq_getElem hpos]
  have hself := set_self items pos _ hget
  obtain ⟨h1, hl, h2, h3⟩ := sift_down_loop_refs compare_ items[pos] items.length mem E
    items.length items pos [] hpos (by rw [hself]; exact hd) (by rw [hself]; exact he)
  simp only [sift_down, hget]
  refine ⟨h2, ?_⟩
  exact refs_final _ _ _ _ mem E (by rw [hl]; exact h1) h2 h3

/-! ### The operations of the heap -/

omit [LinearOrder T] in
theorem HeapOrdered_iff [LE T] (items : List (HeapItem T)) (hlen : items.length ≤ 2 ^ 64) :
    HeapOrdered items ↔ Ordered items := by
  constructor
  · intro h i c p hi hc hp
    have hil := (List.getElem?_eq_some.mp hc).1
    exact h i c p hi (by rw [List.get?_eq_getElem?]; exact hc)
      (by rw [List.get?_eq_getElem?, parent_eq i hi (by omega)]; exact hp)
  · intro h i c p hi hc hp
    rw [List.get?_eq_getElem?] at hc hp
    have hil := (List.getElem?_eq_some.mp hc).1
    rw [parent_eq i hi (by omega)] at hp
    exact h i c p hi hc hp

/-- In a heap in order the root is not larger than any item. -/
theorem root_min (v : List (HeapItem T)) (h : Ordered v) :
    ∀ (i : Nat) (x r : HeapItem T), v[i]? = some x → v[0]? = some r → r.value_ ≤ x.value_ := by
  intro i
  induction i using Nat.strong_induction_on with
  | _ i ih =>
    intro x r hx hr
    by_cases h0 : i = 0
    · subst h0
      rw [hx] at hr
      simp only [Option.some.injEq] at hr
      rw [hr]
    · have hil := (List.getElem?_eq_some.mp hx).1
      have hpl : (i - 1) / 2 < v.length := by omega
      have hp : v[(i - 1) / 2]? = some v[(i - 1) / 2] := List.getElem?_eq_getElem hpl
      exact le_trans (ih ((i - 1) / 2) (by omega) _ r hp hr) (h i x _ (by omega) hx hp)

/-- About `push`: the new array holds the old items and the new one, and it is in
heap order when the old array was. -/
theorem push_spec (items : List (HeapItem T)) (x : HeapItem T)
    (hlen : items.length < 2 ^ 64) :
    List.Perm (push (fun a b => decide (a < b)) items x).1 (items ++ [x])
      ∧ (Ordered items → Ordered (push (fun a b => decide (a < b)) items x).1) := by
  have hl : (items ++ [x]).length = items.length + 1 := by simp
  obtain ⟨h1, h2⟩ := sift_up_spec (items ++ [x]) ((items ++ [x]).length - 1)
    (by rw [hl]; omega) (by rw [hl]; omega)
  simp only [push]
  refine ⟨h1, fun ho => h2 ⟨?_, ?_⟩⟩
  · intro i c p hi hne hc hp
    rw [hl] at hne
    have hil := (List.getElem?_eq_some.mp hc).1
    rw [hl] at hil
    have hi2 : i < items.length := by omega
    rw [List.getElem?_append_left hi2] at hc
    rw [List.getElem?_append_left (by omega)] at hp
    exact ho i c p hi hc hp
  · intro i c g _ hi hpar hc _
    have hil := (List.getElem?_eq_some.mp hc).1
    rw [hl] at hil hpar
    omega

omit [LinearOrder T] in
theorem pop_array (result : HeapItem T) (tl : List (HeapItem T)) (back : HeapItem T)
    (hb : (result :: tl).getLast? = some back) (htl : tl ≠ []) :
    ((result :: tl).set 0 back).dropLast = back :: tl.dropLast
      ∧ tl = tl.dropLast ++ [back] := by
  have h1 : ((result :: tl).set 0 back).dropLast = back :: tl.dropLast := by
    cases tl with
    | nil => exact absurd rfl htl
    | cons y ys => simp [List.dropLast]
  refine ⟨h1, ?_⟩
  have h2 : tl.getLast? = some back := by
    cases tl with
    | nil => exact absurd rfl htl
    | cons y ys => simpa [List.getLast?_cons_cons] using hb
  have h3 := List.dropLast_append_getLast? back h2
  exact h3.symm

/-- About `pop_unlocked` on a heap in order: it returns the root, which is not larger
than any item; the new array holds the other items and is in heap order. -/
theorem pop_spec (items : List (HeapItem T)) (ho : Ordered items) (hne : items ≠ []) :
    ∃ root rest log, pop_unlocked (fun a b => decide (a < b)) items = some (root, rest, log)
      ∧ items.head? = some root
      ∧ List.Perm (root :: rest) items
      ∧ Ordered rest
      ∧ ∀ x ∈ items, root.value_ ≤ x.value_ := by
  cases items with
  | nil => exact absurd rfl hne
  | cons result tl =>
    have hmin : ∀ x ∈ result :: tl, result.value_ ≤ x.value_ := by
      intro x hx
      obtain ⟨i, hi, he⟩ := List.getElem_of_mem hx
      exact root_min _ ho i x result (by rw [List.getElem?_eq_getElem hi, he]) (by simp)
    by_cases hl : (result :: tl).length > 1
    · have htl : tl ≠ [] := by
        intro e; subst e; simp at hl
      cases hb : (result :: tl).getLast? with
      | none => simp at hb
      | some back =>
        obtain ⟨hA, htl2⟩ := pop_array result tl back hb htl
        have hApos : 0 < (back :: tl.dropLast).length := by simp
        obtain ⟨s1, s2⟩ := sift_down_spec (back :: tl.dropLast) 0 hApos
        refine ⟨result, (sift_down (fun a b => decide (a < b)) (back :: tl.dropLast) 0).1,
          (sift_down (fun a b => decide (a < b)) (back :: tl.dropLast) 0).2, ?_, rfl, ?_, ?_,
          hmin⟩
        · simp only [pop_unlocked, hl, if_true, hb, hA]
        · refine List.Perm.cons _ (s1.trans ?_)
          conv_rhs => rw [htl2]
          exact (List.perm_append_singleton back tl.dropLast).symm
        · apply s2
          refine ⟨?_, fun i c g h0 => absurd h0 (by omega)⟩
          intro i c p hi hpar hc hp
          have hil := (List.getElem?_eq_some.mp hc).1
          simp only [List.length_cons, List.length_dropLast] at hil
          have hi1 : ∀ k, 0 < k → k < tl.length → (back :: tl.dropLast)[k]? = (result :: tl)[k]?
              := by
            intro k hk0 hk
            obtain ⟨k1, rfl⟩ : ∃ k1, k = k1 + 1 := ⟨k - 1, by omega⟩
            simp only [List.getElem?_cons_succ]
            rw [List.dropLast_eq_take, List.getElem?_take_of_lt (by omega)]
          rw [hi1 i hi (by omega)] at hc
          rw [hi1 ((i - 1) / 2) (by omega) (by omega)] at hp
          exact ho i c p hi hc hp
    · have htl : tl = [] := by
        cases tl with
        | nil => rfl
        | cons y ys => simp at hl
      subst htl
      refine ⟨result, [], [], ?_, rfl, List.Perm.refl _, ?_, hmin⟩
      · simp [pop_unlocked]
      · intro i c p _ hc _
        simp at hc

end BinaryHeap

namespace BinaryHeap

variable {T : Type} [LinearOrder T]

/-- About `update(pos)` on an array that was in heap order before the value at `pos`
was changed: it returns, the new array holds the same items, and it is in
heap order. -/
theorem update_spec (items : List (HeapItem T)) (pos : Nat) (hpos : pos < items.length)
    (hlen : items.length ≤ 2 ^ 64) :
    ∃ r, update (fun a b => decide (a < b)) items pos = some r
      ∧ List.Perm r.1 items
      ∧ ((∃ old, Ordered (items.set pos old)) → Ordered r.1) := by
  have hget : items.get? pos = some items[pos] := by
    simp [List.getElem?_eq_getElem hpos]
  have hV : ∀ (old : HeapItem T) (k : Nat),
      (items.set pos old)[k]? = if pos = k then some old else items[k]? :=
    fun old k => getElem?_set_lt items pos k old hpos
  have hcur : items[pos]? = some items[pos] := List.getElem?_eq_getElem hpos
  -- the children of `pos` are not smaller than the parent of `pos`
  have hgrand : ∀ old, Ordered (items.set pos old) →
      ∀ (i : Nat) (c g : HeapItem T), 0 < pos → 0 < i → (i - 1) / 2 = pos → items[i]? = some c →
        items[(pos - 1) / 2]? = some g → g.value_ ≤ c.value_ := by
    intro old ho i c g h0 hi hpar hc hg
    have h1 : g.value_ ≤ old.value_ :=
      ho pos old g h0 (by rw [hV, if_pos rfl])
        (by rw [hV, if_neg (by omega)]; exact hg)
    have h2 : old.value_ ≤ c.value_ :=
      ho i c old hi (by rw [hV, if_neg (by omega)]; exact hc)
        (by rw [hpar, hV, if_pos rfl])
    exact le_trans h1 h2
  -- the edges that do not touch `pos` are in order
  have hfar : ∀ old, Ordered (items.set pos old) →
      ∀ (i : Nat) (c p : HeapItem T), 0 < i → i ≠ pos → (i - 1) / 2 ≠ pos → items[i]? = some c →
        items[(i - 1) / 2]? = some p → p.value_ ≤ c.value_ := by
    intro old ho i c p hi h1 h2 hc hp
    exact ho i c p hi (by rw [hV, if_neg (fun e => h1 e.symm)]; exact hc)
      (by rw [hV, if_neg (fun e => h2 e.symm)]; exact hp)
  by_cases h0 : pos > 0
  · have hpar : parent pos = (pos - 1) / 2 := parent_eq pos h0 (by omega)
    have hpp : (pos - 1) / 2 < items.length := by omega
    have hgetp : items.get? ((pos - 1) / 2) = some (items[(pos - 1) / 2]) := by
      simp [List.getElem?_eq_getElem hpp]
    have hp : items[(pos - 1) / 2]? = some items[(pos - 1) / 2] :=
      List.getElem?_eq_getElem hpp
    by_cases hc : items[pos].value_ < (items[(pos - 1) / 2]).value_
    · obtain ⟨s1, s2⟩ := sift_up_spec items pos hpos hlen
      refine ⟨_, ?_, s1, ?_⟩
      · simp only [update, hget, hpar, hgetp, h0, hc, decide_True, Bool.and_self, if_true]
      · rintro ⟨old, ho⟩
        apply s2
        refine ⟨?_, hgrand old ho⟩
        intro i c p hi hip hci hpi
        by_cases hm : (i - 1) / 2 = pos
        · rw [hm, hcur] at hpi
          simp only [Option.some.injEq] at hpi
          rw [← hpi]
          exact le_trans (le_of_lt hc) (hgrand old ho i c _ h0 hi hm hci hp)
        · exact hfar old ho i c p hi hip hm hci hpi
    · obtain ⟨s1, s2⟩ := sift_down_spec items pos hpos
      refine ⟨_, ?_, s1, ?_⟩
      · simp only [update, hget, hpar, hgetp, h0, hc, decide_True, decide_False,
          Bool.and_false, Bool.false_eq_true, if_false]
      · rintro ⟨old, ho⟩
        apply s2
        refine ⟨?_, hgrand old ho⟩
        intro i c p hi hm hci hpi
        by_cases hip : i = pos
        · subst hip
          rw [hcur] at hci
          rw [hp] at hpi
          simp only [Option.some.injEq] at hci hpi
          rw [← hci, ← hpi]
          exact not_lt.mp hc
        · exact hfar old ho i c p hi hip hm hci hpi
  · have hz : pos = 0 := by omega
    subst hz
    obtain ⟨s1, s2⟩ := sift_down_spec items 0 hpos
    refine ⟨_, ?_, s1, ?_⟩
    · simp only [update, hget, gt_iff_lt, lt_self_iff_false, decide_False, Bool.false_and]
      cases items.get? (parent 0) <;> simp
    · rintro ⟨old, ho⟩
      apply s2
      refine ⟨?_, fun i c g h => absurd h (by omega)⟩
      intro i c p hi hm hci hpi
      exact hfar old ho i c p hi (by omega) hm hci hpi

omit [LinearOrder T] in
/-- Out of range, `update` throws. -/
theorem update_out_of_range (compare_ : T → T → Bool) (items : List (HeapItem T)) (pos : Nat)
    (h : items.length ≤ pos) : update compare_ items pos = none := by
  have : items.get? pos = none := by
    rw [List.get?_eq_getElem?]; exact List.getElem?_eq_none h
  simp only [update, this]

theorem push_all_loop (xs : List (HeapItem T)) :
    ∀ (acc : List (HeapItem T)), Ordered acc → acc.length + xs.length ≤ 2 ^ 64 →
      List.Perm (xs.foldl (fun items x => (push (fun a b => decide (a < b)) items x).1) acc)
          (acc ++ xs)
        ∧ Ordered (xs.foldl (fun items x => (push (fun a b => decide (a < b)) items x).1) acc)
    := by
  induction xs with
  | nil => intro acc ho _; simpa using ho
  | cons x xs ih =>
    intro acc ho hlen
    simp only [List.length_cons] at hlen
    obtain ⟨p1, p2⟩ := push_spec acc x (by omega)
    have hl : (push (fun a b => decide (a < b)) acc x).1.length = acc.length + 1 := by
      rw [p1.length_eq]; simp
    obtain ⟨q1, q2⟩ := ih (push (fun a b => decide (a < b)) acc x).1 (p2 ho)
      (by rw [hl]; omega)
    simp only [List.foldl_cons]
    refine ⟨q1.trans ?_, q2⟩
    have : acc ++ x :: xs = (acc ++ [x]) ++ xs := by simp
    rw [this]
    exact List.Perm.append_right xs p1

/-- The heap built by pushing a list of items holds these items and is in heap
order. -/
theorem push_all_spec (xs : List (HeapItem T)) (hlen : xs.length ≤ 2 ^ 64) :
    List.Perm (push_all (fun a b => decide (a < b)) xs) xs
      ∧ Ordered (push_all (fun a b => decide (a < b)) xs) := by
  have h := push_all_loop xs [] (by intro i c p _ hc _; simp at hc) (by simpa using hlen)
  simpa [push_all] using h

/-- Applying `pop_unlocked` to a heap in order until it is empty gives its items in
non-decreasing order. -/
theorem pop_all_spec :
    ∀ (fuel : Nat) (items : List (HeapItem T)), Ordered items → items.length ≤ fuel →
      List.Perm (pop_all (fun a b => decide (a < b)) fuel items) items
        ∧ List.Pairwise (fun a b : HeapItem T => a.value_ ≤ b.value_)
            (pop_all (fun a b => decide (a < b)) fuel items) := by
  intro fuel
  induction fuel with
  | zero =>
    intro items _ hl
    have : items = [] := List.length_eq_zero.mp (by omega)
    subst this
    simp [pop_all]
  | succ fuel ih =>
    intro items ho hl
    by_cases hne : items = []
    · subst hne
      simp [pop_all, pop_unlocked]
    · obtain ⟨root, rest, log, h1, _, h3, h4, h5⟩ := pop_spec items ho hne
      have hlr : rest.length ≤ fuel := by
        have := h3.length_eq
        simp only [List.length_cons] at this
        omega
      obtain ⟨q1, q2⟩ := ih rest h4 hlr
      simp only [pop_all, h1]
      refine ⟨(List.Perm.cons root q1).trans h3, List.Pairwise.cons ?_ q2⟩
      intro y hy
      exact h5 y (h3.subset (List.mem_cons_of_mem _ (q1.subset hy)))

end BinaryHeap

namespace BinaryHeap

variable {T : Type}

/-! ### The position references under the operations -/

theorem length_sift_down_loop (compare_ : T → T → Bool) (temp : HeapItem T) (len : Nat) :
    ∀ (fuel : Nat) (items : List (HeapItem T)) (pos : Nat) (log : List SlotWrite),
      (sift_down_loop compare_ temp len fuel items pos log).1.length = items.length := by
  intro fuel
  induction fuel with
  | zero => intro items pos log; rfl
  | succ fuel ih =>
    intro items pos log
    rw [sift_down_loop_succ]
    by_cases hm : min_child compare_ temp len items pos = pos
    · rw [if_pos hm]
    · rw [if_neg hm]
      cases hc : items.get? (min_child compare_ temp len items pos) with
      | none => rfl
      | some c =>
        simp only []
        rw [ih]; simp

theorem length_sift_down (compare_ : T → T → Bool) (items : List (HeapItem T)) (pos : Nat) :
    (sift_down compare_ items pos).1.length = items.length := by
  unfold sift_down
  cases hg : items.get? pos with
  | none => rfl
  | some temp => simp [length_sift_down_loop]

theorem RefsConsistent_iff (items : List (HeapItem T)) (mem : Nat → Nat) :
    RefsConsistent items mem ↔ RefsOutside items mem (fun _ => False) := by
  constructor
  · intro h k x a _ hk hx
    exact h k x a (by rw [List.get?_eq_getElem?]; exact hk) hx
  · intro h k x a hk hx
    rw [List.get?_eq_getElem?] at hk
    exact h k x a (fun e => e) hk hx

theorem RefsDistinct_of_outside (items : List (HeapItem T)) (mem : Nat → Nat)
    (h : RefsOutside items mem (fun _ => False)) : RefsDistinct items := by
  intro i j x y a hi hj hx hy
  rw [← h i x a (fun e => e) hi hx, ← h j y a (fun e => e) hj hy]

/-- About the stores of `update(pos)`: when the references are distinct and the
slots agree with the array outside `E` and `pos`, they agree outside `E`
afterwards. -/
theorem update_refs (compare_ : T → T → Bool) (items : List (HeapItem T)) (pos : Nat)
    (mem : Nat → Nat) (E : Nat → Prop) (hlen : items.length ≤ 2 ^ 64)
    (hd : RefsDistinct items) (he : RefsExcept items pos mem E)
    (r : List (HeapItem T) × List SlotWrite) (hr : update compare_ items pos = some r) :
    r.1.length = items.length ∧ RefsDistinct r.1
      ∧ RefsOutside r.1 (apply_slot_writes r.2 mem) E := by
  unfold update at hr
  cases hg : items.get? pos with
  | none => rw [hg] at hr; cases hr
  | some cur =>
    have hpos : pos < items.length := by
      rw [List.get?_eq_getElem?] at hg
      exact (List.getElem?_eq_some.mp hg).1
    rw [hg] at hr
    simp only [] at hr
    split at hr
    · cases hr
      exact ⟨length_sift_up _ _ _, sift_up_refs compare_ items pos mem E hpos hlen hd he⟩
    · cases hr
      exact ⟨length_sift_down _ _ _, sift_down_refs compare_ items pos mem E hpos hd he⟩

/-- The slots stay right under `update`. -/
theorem update_consistent (compare_ : T → T → Bool) (items : List (HeapItem T)) (pos : Nat)
    (mem : Nat → Nat) (hlen : items.length ≤ 2 ^ 64) (h : RefsConsistent items mem)
    (r : List (HeapItem T) × List SlotWrite) (hr : update compare_ items pos = some r) :
    RefsConsistent r.1 (apply_slot_writes r.2 mem) := by
  rw [RefsConsistent_iff] at h ⊢
  exact (update_refs compare_ items pos mem _ hlen (RefsDistinct_of_outside _ _ h)
    (fun k x a hE _ hk hx => h k x a hE hk hx) r hr).2.2

/-- The slots stay right under `push` of an item whose reference is null or is not
the reference of an item of the heap. -/
theorem push_consistent (compare_ : T → T → Bool) (items : List (HeapItem T))
    (x : HeapItem T) (mem : Nat → Nat) (hlen : items.length < 2 ^ 64)
    (h : RefsConsistent items mem)
    (hx : ∀ a, x.position_ref_ = some a → ∀ y ∈ items, y.position_ref_ ≠ some a) :
    RefsConsistent (push compare_ items x).1
      (apply_slot_writes (push compare_ items x).2 mem) := by
  rw [RefsConsistent_iff] at h ⊢
  have hl : (items ++ [x]).length = items.length + 1 := by simp
  have hin : ∀ (k : Nat) (y : HeapItem T), (items ++ [x])[k]? = some y →
      (k < items.length ∧ items[k]? = some y) ∨ (k = items.length ∧ y = x) := by
    intro k y hk
    have hkl := (List.getElem?_eq_some.mp hk).1
    rw [hl] at hkl
    by_cases hlt : k < items.length
    · rw [List.getElem?_append_left hlt] at hk
      exact Or.inl ⟨hlt, hk⟩
    · have hke : k = items.length := by omega
      subst hke
      simp at hk
      exact Or.inr ⟨rfl, hk.symm⟩
  have hmem : ∀ (k : Nat) (y : HeapItem T), items[k]? = some y → y ∈ items := by
    intro k y hk
    exact List.getElem?_mem hk
  obtain ⟨_, h2⟩ := sift_up_refs compare_ (items ++ [x]) ((items ++ [x]).length - 1) mem
    (fun _ => False) (by rw [hl]; omega) (by rw [hl]; omega)
    (by
      intro i j y z a hi hj hy hz
      rcases hin i y hi with ⟨_, hi1⟩ | ⟨hi1, hi2⟩
      · rcases hin j z hj with ⟨_, hj1⟩ | ⟨hj1, hj2⟩
        · exact RefsDistinct_of_outside _ _ h i j y z a hi1 hj1 hy hz
        · subst hj2
          exact absurd hy (hx a hz y (hmem i y hi1))
      · rcases hin j z hj with ⟨_, hj1⟩ | ⟨hj1, hj2⟩
        · subst hi2
          exact absurd hz (hx a hy z (hmem j z hj1))
        · omega)
    (by
      intro k y a hE hk hky hy
      rw [hl] at hk
      rcases hin k y hky with ⟨_, hk1⟩ | ⟨hk1, _⟩
      · exact h k y a hE hk1 hy
      · omega)
  exact h2

/-- The slots stay right under `pop_unlocked`. -/
theorem pop_consistent (compare_ : T → T → Bool) (items : List (HeapItem T))
    (mem : Nat → Nat) (h : RefsConsistent items mem)
    (root : HeapItem T) (rest : List (HeapItem T)) (log : List SlotWrite)
    (hr : pop_unlocked compare_ items = some (root, rest, log)) :
    RefsConsistent rest (apply_slot_writes log mem) := by
  rw [RefsConsistent_iff] at h ⊢
  cases items with
  | nil => simp [pop_unlocked] at hr
  | cons result tl =>
    by_cases hl : (result :: tl).length > 1
    · have htl : tl ≠ [] := by
        intro e; subst e; simp at hl
      cases hb : (result :: tl).getLast? with
      | none => simp at hb
      | some back =>
        obtain ⟨hA, htl2⟩ := pop_array result tl back hb htl
        simp only [pop_unlocked, hl, if_true, hb, hA, Option.some.injEq, Prod.mk.injEq] at hr
        obtain ⟨_, hr2, hr3⟩ := hr
        subst hr2 hr3
        have hlen : tl.length = tl.dropLast.length + 1 := by
          conv_lhs => rw [htl2]
          simp
        -- the array that is sifted, read through the old array
        have hA0 : (back :: tl.dropLast)[0]? = (result :: tl)[tl.length]? := by
          have : (result :: tl)[tl.length]? = tl[tl.dropLast.length]? := by
            rw [hlen]; simp
          rw [this]
          conv_rhs => rw [htl2]
          simp
        have hAk : ∀ k, 0 < k → ∀ y, (back :: tl.dropLast)[k]? = some y →
            k < tl.length ∧ (result :: tl)[k]? = some y := by
          intro k hk0 y hy
          obtain ⟨k1, rfl⟩ : ∃ k1, k = k1 + 1 := ⟨k - 1, by omega⟩
          simp only [List.getElem?_cons_succ] at hy ⊢
          have hk1 := (List.getElem?_eq_some.mp hy).1
          rw [List.dropLast_eq_take, List.getElem?_take_of_lt (by
            simp only [List.length_dropLast] at hk1; omega)] at hy
          exact ⟨by omega, hy⟩
        have hd0 := RefsDistinct_of_outside _ _ h
        refine (sift_down_refs compare_ (back :: tl.dropLast) 0 mem (fun _ => False)
          (by simp) ?_ ?_).2
        · intro i j y z a hi hj hy hz
          by_cases hi0 : i = 0
          · by_cases hj0 : j = 0
            · omega
            · subst hi0
              rw [hA0] at hi
              obtain ⟨hjl, hj1⟩ := hAk j (by omega) z hj
              have := hd0 _ _ y z a hi hj1 hy hz
              omega
          · by_cases hj0 : j = 0
            · subst hj0
              rw [hA0] at hj
              obtain ⟨hil, hi1⟩ := hAk i (by omega) y hi
              have := hd0 _ _ y z a hi1 hj hy hz
              omega
            · obtain ⟨_, hi1⟩ := hAk i (by omega) y hi
              obtain ⟨_, hj1⟩ := hAk j (by omega) z hj
              exact hd0 _ _ y z a hi1 hj1 hy hz
        · intro k y a hE hk hky hy
          obtain ⟨_, hk1⟩ := hAk k (by omega) y hky
          exact h k y a hE hk1 hy
    · have htl : tl = [] := by
        cases tl with
        | nil => rfl
        | cons y ys => simp at hl
      subst htl
      simp [pop_unlocked] at hr
      obtain ⟨_, hr2, hr3⟩ := hr
      subst hr2 hr3
      intro k y a _ hk
      simp at hk

/-- About `swap_unlocked`: it returns for indices in range, and the slots stay right
under it. -/
theorem swap_consistent (compare_ : T → T → Bool) (items : List (HeapItem T))
    (mem : Nat → Nat) (i j : Nat) (hlen : items.length ≤ 2 ^ 64)
    (h : RefsConsistent items mem) (hi : i < items.length) (hj : j < items.length) :
    ∃ r, swap_unlocked compare_ items i j = some r
      ∧ RefsConsistent r.1 (apply_slot_writes r.2 mem) := by
  rw [RefsConsistent_iff] at h
  have hd0 := RefsDistinct_of_outside _ _ h
  have hgi : items.get? i = some items[i] := by simp [List.getElem?_eq_getElem hi]
  have hgj : items.get? j = some items[j] := by simp [List.getElem?_eq_getElem hj]
  have hl1 : ((items.set i items[j]).set j items[i]).length = items.length := by simp
  have hV : ∀ k, ((items.set i items[j]).set j items[i])[k]?
      = items[if k = j then i else if k = i then j else k]? := by
    intro k
    rw [getElem?_set_lt _ _ _ _ (by simpa using hj), getElem?_set_lt _ _ _ _ hi]
    by_cases hjk : j = k
    · subst hjk
      simp [List.getElem?_eq_getElem hi]
    · have hkj : ¬ k = j := fun e => hjk e.symm
      by_cases hik : i = k
      · subst hik
        simp [hjk, hkj, List.getElem?_eq_getElem hj]
      · have hki : ¬ k = i := fun e => hik e.symm
        simp [hjk, hkj, hik, hki]
  obtain ⟨r1, hr1⟩ := update_isSome compare_ ((items.set i items[j]).set j items[i]) i
    (by rw [hl1]; exact hi)
  obtain ⟨l1, d1, o1⟩ := update_refs compare_ _ i mem (fun k => k = j)
    (by rw [hl1]; exact hlen)
    (by
      intro k1 k2 y z a hk1 hk2 hy hz
      rw [hV] at hk1 hk2
      have := hd0 _ _ y z a hk1 hk2 hy hz
      split_ifs at this <;> omega)
    (by
      intro k y a hE hk hky hy
      rw [hV, if_neg hE, if_neg hk] at hky
      exact h k y a (fun e => e) hky hy)
    r1 hr1
  obtain ⟨r2, hr2⟩ := update_isSome compare_ r1.1 j (by rw [l1, hl1]; exact hj)
  obtain ⟨_, _, o2⟩ := update_refs compare_ r1.1 j (apply_slot_writes r1.2 mem)
    (fun _ => False) (by rw [l1, hl1]; exact hlen) d1
    (fun k y a _ hk hky hy => o1 k y a hk hky hy) r2 hr2
  refine ⟨(r2.1, r1.2 ++ r2.2), ?_, ?_⟩
  · simp only [swap_unlocked, hgi, hgj, hr1, hr2]
  · rw [RefsConsistent_iff, apply_slot_writes_append]
    exact o2

end BinaryHeap

namespace BinaryHeap

variable {T : Type}

/-- An array whose only edges out of order touch index 1, and that is a heap for no
value at index 1 (the value would be at least 10 and at most 5): `update(1)`
sifts 20 down below 5 and leaves 5 under the root 10. -/
theorem update_of_array_that_was_no_heap :
    update (fun a b : Int => decide (a < b))
        [HeapItem.mk 10 none, HeapItem.mk 20 none, HeapItem.mk 30 none, HeapItem.mk 5 none] 1
      = some ([HeapItem.mk 10 none, HeapItem.mk 5 none, HeapItem.mk 30 none,
          HeapItem.mk 20 none], []) := by
  decide

end BinaryHeap

/-! ## What the second locks cut off -/

/-- The call `top()` has no result: `empty()` locks the mutex that `top()` holds. -/
theorem BinaryHeap.top_eq_none {T : Type} (items : List (HeapItem T)) :
    BinaryHeap.top items = none := rfl

/-- The call `swap(i, j)` has no result: out of range it throws, and in range
`update(i)` locks the mutex that `swap` holds. -/
theorem BinaryHeap.swap_eq_none {T : Type} (compare_ : T → T → Bool)
    (items : List (HeapItem T)) (i j : Nat) : BinaryHeap.swap compare_ items i j = none := by
  unfold BinaryHeap.swap
  split <;> rfl

theorem demo_zset_WF : demo_zset.WF := by
  intro name p h
  by_cases hn : ascii "alice" = name
  · subst hn
    have hp : p = 1 := by
      simp [demo_zset, HMap.find] at h
      exact h.symm
    subst hp
    exact ⟨{ key := ascii "alice", value := 10 }, rfl, rfl⟩
  · simp [demo_zset, HMap.find, hn] at h

theorem demo_keyspace_WF : KeyspaceWF demo_keyspace := by
  intro k e z he hz
  by_cases hk : ascii "lb" = k
  · subst hk
    have he1 : e = Entry.mk 1 SIZE_MAX (ascii "lb") (.zset demo_zset) := by
      simp [demo_keyspace, EntryManager.find_entry, HMap.find] at he
      exact he.symm
    subst he1
    simp only [Value.zset.injEq] at hz
    subst hz
    exact demo_zset_WF
  · simp [demo_keyspace, EntryManager.find_entry, HMap.find, hk] at he

/-- The sorted set `demo_zset` is what `add_internal_unlocked` builds from the empty
set for the member "alice" with score 10. -/
theorem demo_zset_built :
    ZSet.add_internal_unlocked (ZSet.empty : ZSet Int) (ascii "alice") 10
      = some (demo_zset, true) := by
  decide

/-- About `DEL k` on a key whose entry, if there is one, has no slot in the expiry
heap: the reply is Integer 1 if `k` was present and Integer 0 otherwise;
afterwards `GET k` replies Nil, `EXISTS k` replies Integer 0 and a second
`DEL k` replies Integer 0, and every other key holds the value it held
before. -/
theorem del_reply_without_slot {Score : Type} (lib : StdLib Score) (now now' : Nat)
    (m : EntryManager Score) (k : Bytes)
    (hslot : ∀ e, m.find_entry k = some e →
      e.heap_idx = SIZE_MAX ∨ e.heap_idx ≥ BinaryHeap.size m.heap_) :
    ∃ m', run lib now m [ascii "DEL", k]
        = some (ResponseSerializer.serialize_integer []
            (if (m.find_entry k).isSome then 1 else 0), m')
      ∧ run lib now' m' [ascii "GET", k] = some (ResponseSerializer.serialize_nil [], m')
      ∧ run lib now' m' [ascii "EXISTS", k]
          = some (ResponseSerializer.serialize_integer [] 0, m')
      ∧ run lib now' m' [ascii "DEL", k]
          = some (ResponseSerializer.serialize_integer [] 0, m')
      ∧ ∀ k', k' ≠ k →
          (m'.find_entry k').map (fun e => e.value) = (m.find_entry k').map (fun e => e.value)
          ∧ run lib now' m' [ascii "GET", k'] = (run lib now' m [ascii "GET", k']).map
              (fun r => (r.1, m')) := by
  have key : ∃ m', run lib now m [ascii "DEL", k]
        = some (ResponseSerializer.serialize_integer []
            (if (m.find_entry k).isSome then 1 else 0), m')
      ∧ ∀ k', (m'.find_entry k').map EntryManager.core
          = if k' = k then none else (m.find_entry k').map EntryManager.core := by
    cases h : m.find_entry k with
    | none =>
      refine ⟨m, ?_, fun k' => ?_⟩
      · rw [run_del, EntryManager.delete_entry_absent m k h]; rfl
      · by_cases hk : k' = k
        · simp [hk, h]
        · simp [hk]
    | some e =>
      obtain ⟨m1, hdel, _, hcore⟩ := EntryManager.delete_entry_present m k e h (hslot e h)
      refine ⟨m1, ?_, hcore⟩
      rw [run_del, hdel]; rfl
  obtain ⟨m', hrun, hcore⟩ := key
  have habs : m'.find_entry k = none := by
    have := hcore k
    simpa using this
  refine ⟨m', hrun, ?_, ?_, ?_, fun k' hk' => ?_⟩
  · rw [run_get, habs]
  · rw [run_exists, habs]; rfl
  · rw [run_del, EntryManager.delete_entry_absent m' k habs]; rfl
  · have hc := hcore k'
    simp only [hk', if_false] at hc
    have hv := core_value_eq hc
    refine ⟨hv, ?_⟩
    rw [run_get, run_get]
    simp only [Option.map_some']
    cases h1 : m'.find_entry k' <;> cases h2 : m.find_entry k' <;>
      simp [h1, h2] at hv ⊢
    rw [hv]

/-- About `DEL k` on a key whose entry has a slot in the expiry heap: the command
has no result. -/
theorem del_with_slot {Score : Type} (lib : StdLib Score) (now : Nat)
    (m : EntryManager Score) (k : Bytes) (e : Entry Score) (h : m.find_entry k = some e)
    (hidx : e.heap_idx ≠ SIZE_MAX) (hsize : e.heap_idx < BinaryHeap.size m.heap_) :
    run lib now m [ascii "DEL", k] = none := by
  rw [run_del, EntryManager.delete_entry_with_slot m k e h hidx hsize]
  rfl

/-- What the heap would do without the second lock in `pop()`: for every list of at
most 2^64 items pushed into an empty heap with `std::less`, the heap holds the
pushed items in min-heap order and its root is a pushed item that no pushed
item is smaller than; on every heap in min-heap order `pop_unlocked` returns
the root, which no item held is smaller than, and leaves the other items in
min-heap order; applied until the heap is empty it gives all pushed items in
non-decreasing order. -/
theorem heap_sorts_without_second_lock {T : Type} [LinearOrder T] (xs : List (HeapItem T))
    (hlen : xs.length ≤ 2 ^ 64) :
    List.Perm (BinaryHeap.push_all (fun a b => decide (a < b)) xs) xs
      ∧ BinaryHeap.HeapOrdered (BinaryHeap.push_all (fun a b => decide (a < b)) xs)
      ∧ (xs ≠ [] → ∃ t,
          (BinaryHeap.push_all (fun a b => decide (a < b)) xs).head? = some t
            ∧ t ∈ xs ∧ ∀ x ∈ xs, t.value_ ≤ x.value_)
      ∧ (∀ items : List (HeapItem T), items.length ≤ 2 ^ 64 →
          BinaryHeap.HeapOrdered items → items ≠ [] →
          ∃ root rest log,
            BinaryHeap.pop_unlocked (fun a b => decide (a < b)) items
                = some (root, rest, log)
              ∧ items.head? = some root
              ∧ List.Perm (root :: rest) items
              ∧ BinaryHeap.HeapOrdered rest
              ∧ ∀ x ∈ items, root.value_ ≤ x.value_)
      ∧ List.Perm (BinaryHeap.pop_all (fun a b => decide (a < b)) xs.length
          (BinaryHeap.push_all (fun a b => decide (a < b)) xs)) xs
      ∧ List.Pairwise (fun a b : HeapItem T => a.value_ ≤ b.value_)
          (BinaryHeap.pop_all (fun a b => decide (a < b)) xs.length
            (BinaryHeap.push_all (fun a b => decide (a < b)) xs)) := by
  obtain ⟨p1, p2⟩ := BinaryHeap.push_all_spec xs hlen
  have hl : (BinaryHeap.push_all (fun a b => decide (a < b)) xs).length = xs.length :=
    p1.length_eq
  obtain ⟨q1, q2⟩ := BinaryHeap.pop_all_spec xs.length _ p2 (by rw [hl])
  refine ⟨p1, (BinaryHeap.HeapOrdered_iff _ (by rw [hl]; exact hlen)).mpr p2, ?_, ?_,
    q1.trans p1, q2⟩
  · intro hne
    have hne2 : BinaryHeap.push_all (fun a b => decide (a < b)) xs ≠ [] := by
      intro e
      rw [e] at p1
      exact hne p1.nil_eq.symm
    obtain ⟨root, rest, log, _, h2, h3, _, h5⟩ := BinaryHeap.pop_spec _ p2 hne2
    exact ⟨root, h2, p1.subset (h3.subset (List.mem_cons_self _ _)),
      fun x hx => h5 x (p1.symm.subset hx)⟩
  · intro items hl2 ho hne
    obtain ⟨root, rest, log, h1, h2, h3, h4, h5⟩ :=
      BinaryHeap.pop_spec items ((BinaryHeap.HeapOrdered_iff _ hl2).mp ho) hne
    have hlr : rest.length ≤ 2 ^ 64 := by
      have := h3.length_eq
      simp only [List.length_cons] at this
      omega
    exact ⟨root, rest, log, h1, h2, h3, (BinaryHeap.HeapOrdered_iff _ hlr).mpr h4, h5⟩

/-- What the sorted set would do without the second lock in `add_internal`, when
`update_score` is called with null or with the address of a node: in every set
that a sequence of the four operations builds from the empty one, a name is in
the member index exactly when it is in the order index, the member index
points at a live node of that name whose score is the score the tree stores
for the name, and `nodes_` holds exactly one node per member. -/
theorem dual_index_without_second_lock {Score : Type} (z : ZSet Score)
    (h : ZSet.Reachable z) :
    (∀ name, (z.lookup name).isSome = AVLTree.«exists» z.tree name)
      ∧ (∀ name p, z.lookup name = some p →
          ∃ n, z.deref p = some n ∧ n.key = name ∧ AVLTree.get z.tree name = some n.value)
      ∧ (z.nodes_.map (fun q => q.2.key)).Nodup
      ∧ (∀ name, name ∈ z.nodes_.map (fun q => q.2.key) ↔ (z.lookup name).isSome = true) := by
  have hz := ZSet.Inv_of_Reachable z h
  refine ⟨ZSet.Inv_exists z hz, ?_, (ZSet.Inv_keys z hz).1, (ZSet.Inv_keys z hz).2⟩
  intro name p hl
  obtain ⟨n, hd, hk⟩ := hz.wf name p ((ZSet.lookup_eq_some z name p).mp hl)
  refine ⟨n, hd, hk, ?_⟩
  rw [hz.scores name]
  simp [ZSet.score_of, hl, hd]

/-- A `push` outside the use the heap is made for: the heap holds the item 5, whose
position reference is the slot 0, and the slot holds 0. `push` of the item 7
with the same position reference leaves 5 at index 0 and stores 1 into the slot
0, so the slot of the item at index 0 is 1. -/
theorem BinaryHeap.push_with_the_reference_of_another_item :
    BinaryHeap.RefsConsistent [HeapItem.mk (5 : Nat) (some 0)] (fun _ => 0)
      ∧ BinaryHeap.push less [HeapItem.mk 5 (some 0)] (HeapItem.mk 7 (some 0))
        = ([HeapItem.mk 5 (some 0), HeapItem.mk 7 (some 0)], [(0, 1)])
      ∧ apply_slot_writes [(0, 1)] (fun _ => 0) 0 = 1
      ∧ ¬ BinaryHeap.RefsConsistent
          (BinaryHeap.push less [HeapItem.mk 5 (some 0)] (HeapItem.mk 7 (some 0))).1
          (apply_slot_writes
            (BinaryHeap.push less [HeapItem.mk 5 (some 0)] (HeapItem.mk 7 (some 0))).2
            (fun _ => 0)) := by
  refine ⟨?_, by decide, by decide, ?_⟩
  · intro i item a hi _
    rcases i with _ | i
    · rfl
    · simp at hi
  · intro h
    have h0 := h 0 (HeapItem.mk 5 (some 0)) 0 (by decide) rfl
    revert h0
    decide

/-! ## The claims -/

/-- C1: on every keyspace, for every key `k` and value `v`, `SET k v` replies
String "OK" and a `GET k` issued right after it replies String `v`, whatever
`k` held before (nothing, a string or a sorted set). -/
theorem C1_set_then_get {Score : Type} (lib : StdLib Score) (now now' : Nat)
    (m : EntryManager Score) (k v : Bytes) :
    ∃ m', run lib now m [ascii "SET", k, v]
        = some (ResponseSerializer.serialize_string [] (ascii "OK"), m')
      ∧ run lib now' m' [ascii "GET", k]
        = some (ResponseSerializer.serialize_string [] v, m') := by
  refine ⟨(m.create_entry k (.string v)).1, run_set lib now m k v, ?_⟩
  rw [run_get]
  simp [EntryManager.create_entry, EntryManager.find_entry, HMap.find_insert]

/-- C2, the code at the failing input: on a fresh server `SET a x` and
`PEXPIRE a 5` are answered, and `DEL a` then has no reply. The entry of `a`
has `heap_idx = 0`, so `delete_entry` calls `remove_from_heap`, which calls
`heap_.pop()`; `pop()` holds `heap_mutex_` and calls `empty()`, which locks it
again. On the key `k` of `demo_string_keyspace`, which has no TTL, `DEL k`
replies Integer 1 and removes the key. -/
theorem C2_del_of_key_with_ttl :
    run_all intLib
        [(0, [ascii "SET", ascii "a", ascii "x"]),
         (0, [ascii "PEXPIRE", ascii "a", ascii "5"])] EntryManager.init
      = some ([ResponseSerializer.serialize_string [] (ascii "OK"),
               ResponseSerializer.serialize_integer [] 1],
              { db_ := [(ascii "a", { addr := 1, heap_idx := 0, key := ascii "a",
                                      value := .string (ascii "x") })],
                heap_ := [{ value_ := 5000, position_ref_ := some 1 }] })
      ∧ (run_all intLib
        [(0, [ascii "SET", ascii "a", ascii "x"]),
         (0, [ascii "PEXPIRE", ascii "a", ascii "5"])] EntryManager.init).map
          (fun r => run intLib 0 r.2 [ascii "DEL", ascii "a"]) = some none
      ∧ run_all intLib
        [(0, [ascii "SET", ascii "a", ascii "x"]),
         (0, [ascii "PEXPIRE", ascii "a", ascii "5"]),
         (0, [ascii "DEL", ascii "a"]),
         (0, [ascii "DEL", ascii "a"])] EntryManager.init = none
      ∧ run intLib 0 demo_string_keyspace [ascii "DEL", ascii "k"]
        = some (ResponseSerializer.serialize_integer [] 1, EntryManager.init) := by
  decide

/-- C3: request round trip. For every command vector whose encoded payload is
shorter than `2 ^ 32` bytes, `RequestParser::parse` applied to its frame (the
big-endian payload length, then per string its big-endian length and its
bytes) returns exactly that vector; the frame with payload length 0 parses to
the empty vector. -/
theorem C3_parse_serialize_request (v : List Bytes)
    (hfit : (encode_payload v).length < 2 ^ 32) :
    RequestParser.parse (serialize_request v) = .ok v
      ∧ RequestParser.parse (be_bytes32 0) = .ok [] := by
  constructor
  · have h := parse_frame (encode_payload v) [] hfit
    rw [List.append_nil] at h
    rw [serialize_request, h]
    have h2 := parse_loop_payload v [] (encode_payload v).length []
      (by simp) (by simpa using hfit)
    rw [List.append_nil] at h2
    rw [h2, parse_loop_nil]
    simp
  · decide

theorem C3_parse_serialize_request_witness :
    (encode_payload [ascii "SET", ascii "k", []]).length < 2 ^ 32
      ∧ RequestParser.parse (serialize_request [ascii "SET", ascii "k", []])
          = .ok [ascii "SET", ascii "k", []]
      ∧ RequestParser.parse (be_bytes32 0) = .ok [] :=
  ⟨by decide, C3_parse_serialize_request [ascii "SET", ascii "k", []] (by decide)⟩

/-- C4: `RequestParser::parse` returns the error `message_size`, and so no
command vector, for every input of fewer than 4 bytes and for every input
whose declared payload length `L` has `4 + L` larger than the input size. -/
theorem C4_parse_incomplete (data : Bytes)
    (h : data.length < 4 ∨ 4 + declared_length data > data.length) :
    RequestParser.parse data = .error .message_size := by
  match data, h with
  | [], _ => rfl
  | [_], _ => rfl
  | [_, _], _ => rfl
  | [_, _, _], _ => rfl
  | b0 :: b1 :: b2 :: b3 :: body, h =>
    rcases h with h | h
    · simp at h; omega
    · rw [declared_length_cons4] at h
      simp only [RequestParser.parse, h, if_true]

theorem C4_parse_incomplete_witness :
    ((([0, 0, 0, 16, 0, 0, 0, 3, 65, 66] : Bytes).length < 4
        ∨ 4 + declared_length [0, 0, 0, 16, 0, 0, 0, 3, 65, 66]
            > ([0, 0, 0, 16, 0, 0, 0, 3, 65, 66] : Bytes).length)
      ∧ RequestParser.parse [0, 0, 0, 16, 0, 0, 0, 3, 65, 66] = .error .message_size)
    ∧ RequestParser.parse [0, 0] = .error .message_size :=
  ⟨⟨by decide, C4_parse_incomplete [0, 0, 0, 16, 0, 0, 0, 3, 65, 66] (by decide)⟩,
    C4_parse_incomplete [0, 0] (by decide)⟩

/-- C5: when the payload of a frame is fully present and, after any number of
well-formed string tuples, a tuple starts that has fewer than 4 bytes left for
its header or declares a length larger than the payload bytes remaining after
its header, `RequestParser::parse` returns `bad_message`, an error different
from the `message_size` of incomplete input. -/
theorem C5_parse_bad_tuple (v : List Bytes) (bad trailing : Bytes)
    (hbad : bad ≠ [])
    (hfit : (encode_payload v ++ bad).length < 2 ^ 32)
    (h : bad.length < 4 ∨ declared_length bad > bad.length - 4) :
    RequestParser.parse
        (be_bytes32 (encode_payload v ++ bad).length ++ (encode_payload v ++ bad) ++ trailing)
      = .error .bad_message
      ∧ (Result.error Errc.bad_message : Result (List Bytes)) ≠ .error .message_size := by
  refine ⟨?_, by decide⟩
  rw [parse_frame _ _ hfit, parse_loop_payload v bad _ [] (le_refl _) hfit]
  have hge := encode_payload_length_ge v
  have hpos : 0 < bad.length := List.length_pos.mpr hbad
  obtain ⟨fuel, hf⟩ : ∃ f, (encode_payload v ++ bad).length - v.length = f + 1 :=
    ⟨(encode_payload v ++ bad).length - v.length - 1, by
      simp only [List.length_append]; omega⟩
  rw [hf]
  match bad, hbad, h with
  | [_], _, _ => simp [RequestParser.parse_loop]
  | [_, _], _, _ => simp [RequestParser.parse_loop]
  | [_, _, _], _, _ => simp [RequestParser.parse_loop]
  | b0 :: b1 :: b2 :: b3 :: tail, _, h =>
    rcases h with h | h
    · simp at h; omega
    · rw [declared_length_cons4] at h
      simp only [List.length_cons, Nat.add_sub_cancel] at h
      have hlt : tail.length < 2 ^ 32 := by
        simp only [List.length_append, List.length_cons] at hfit; omega
      simp only [RequestParser.parse_loop, List.length_cons, Nat.add_one_ne_zero, if_false,
        Nat.mod_eq_of_lt hlt]
      have h' : bswap32 (load_u32 b0 b1 b2 b3) > tail.length := by omega
      simp only [h', if_true]

theorem C5_parse_bad_tuple_witness :
    RequestParser.parse
        (be_bytes32 (encode_payload [ascii "GET"] ++ [0, 0, 0, 6, 84, 101, 115, 116]).length
          ++ (encode_payload [ascii "GET"] ++ [0, 0, 0, 6, 84, 101, 115, 116]) ++ [7])
      = .error .bad_message
      ∧ (Result.error Errc.bad_message : Result (List Bytes)) ≠ .error .message_size :=
  C5_parse_bad_tuple [ascii "GET"] [0, 0, 0, 6, 84, 101, 115, 116] [7]
    (by decide) (by decide) (by decide)

/-- C6, the code at the failing inputs: `ZADD lb 10 alice` on a fresh server, and
`ZADD lb 20 alice` on a keyspace whose key `lb` holds a sorted set, have no
reply, and no call of `add_internal` has a result: `add_internal` holds
`zset_mutex_` and calls `lookup`, which locks it again. -/
theorem C6_zadd_has_no_reply :
    run intLib 0 EntryManager.init [ascii "ZADD", ascii "lb", ascii "10", ascii "alice"]
        = none
      ∧ run intLib 0 demo_keyspace [ascii "ZADD", ascii "lb", ascii "20", ascii "alice"]
        = none
      ∧ ∀ (z : ZSet Int) (name : Bytes) (s : Int), z.add_internal name s = none := by
  refine ⟨by decide, by decide, fun z name s => ZSet.add_internal_eq_none z name s⟩

/-- C7: on every keyspace whose sorted sets are well formed (every keyspace the
commands build), `ZREM k m` replies Integer 0 when `k` is absent; when `k` holds
a sorted set it replies Integer 1 if `m` was a member and Integer 0 otherwise;
afterwards `m` is not a member, every other member has the score it had, and
a second `ZREM k m` replies Integer 0. -/
theorem C7_zrem {Score : Type} (lib : StdLib Score) (now now' : Nat)
    (m : EntryManager Score) (k name : Bytes)
    (hm : KeyspaceWF m)
    (hk : m.find_entry k = none ∨ ∃ e z, m.find_entry k = some e ∧ e.value = .zset z) :
    (m.find_entry k = none →
        run lib now m [ascii "ZREM", k, name]
          = some (ResponseSerializer.serialize_integer [] 0, m))
      ∧ ∃ m', run lib now m [ascii "ZREM", k, name]
          = some (ResponseSerializer.serialize_integer []
              (if is_member m k name then 1 else 0), m')
        ∧ is_member m' k name = false
        ∧ (∀ name', name' ≠ name → member_score m' k name' = member_score m k name')
        ∧ ∃ m'', run lib now' m' [ascii "ZREM", k, name]
            = some (ResponseSerializer.serialize_integer [] 0, m'') := by
  refine ⟨fun h => run_zrem_absent lib now m k name h, ?_⟩
  have hk' : m.find_entry k = none
      ∨ ∃ e z, m.find_entry k = some e ∧ e.value = .zset z ∧ z.WF := by
    rcases hk with h | ⟨e, z, h, hv⟩
    · exact Or.inl h
    · exact Or.inr ⟨e, z, h, hv, hm k e z h hv⟩
  rcases hk' with h | ⟨e, z, h, hv, hz⟩
  · refine ⟨m, ?_, ?_, fun _ _ => rfl, m, run_zrem_absent lib now' m k name h⟩
    · rw [run_zrem_absent lib now m k name h]; simp [is_member, h]
    · simp [is_member, h]
  · obtain ⟨z', hrem, hlk, hscore, hz'⟩ := ZSet.remove_internal_spec z hz name
    have hfind' := find_entry_store_value m k e (.zset z') h
    have hv' : ({ e with value := Value.zset z' } : Entry Score).value = .zset z' := rfl
    refine ⟨{ m with db_ := EntryManager.store_value m.db_ e.addr (.zset z') }, ?_, ?_, ?_, ?_⟩
    · rw [run_zrem_zset lib now m k name e z h hv, hrem,
        is_member_of_find m k name e z h hv]
      rfl
    · rw [is_member_of_find _ k name _ z' hfind' hv', hlk]; rfl
    · intro name' hne
      rw [member_score_of_find _ k name' _ z' hfind' hv',
        member_score_of_find m k name' e z h hv]
      exact hscore name' hne
    · obtain ⟨z'', hrem2, _⟩ := ZSet.remove_internal_spec z' hz' name
      rw [run_zrem_zset lib now' _ k name _ z' hfind' hv', hrem2, hlk]
      exact ⟨_, rfl⟩

theorem C7_zrem_witness :
    run intLib 5 EntryManager.init [ascii "ZREM", ascii "lb", ascii "alice"]
        = some (ResponseSerializer.serialize_integer [] 0, EntryManager.init)
      ∧ ∃ m', run intLib 5 demo_keyspace [ascii "ZREM", ascii "lb", ascii "alice"]
          = some (ResponseSerializer.serialize_integer []
              (if is_member demo_keyspace (ascii "lb") (ascii "alice") then 1 else 0), m')
        ∧ is_member m' (ascii "lb") (ascii "alice") = false
        ∧ (∀ name', name' ≠ ascii "alice" →
            member_score m' (ascii "lb") name' = member_score demo_keyspace (ascii "lb") name')
        ∧ ∃ m'', run intLib 6 m' [ascii "ZREM", ascii "lb", ascii "alice"]
            = some (ResponseSerializer.serialize_integer [] 0, m'') :=
  ⟨(C7_zrem intLib 5 6 EntryManager.init (ascii "lb") (ascii "alice")
      KeyspaceWF_init (Or.inl rfl)).1 rfl,
    (C7_zrem intLib 5 6 demo_keyspace (ascii "lb") (ascii "alice")
      demo_keyspace_WF
      (Or.inr ⟨_, demo_zset, rfl, rfl⟩)).2⟩

/-- C8, the code at the failing input: with key `a` expiring in 5 ms, `PEXPIRE b 1`
followed at the same clock reading by `PTTL b` replies Integer 5, the time left
of `a`, where the deadline of `b` gives 1. -/
theorem C8_pttl_reads_other_deadline :
    (run_all intLib
        [(0, [ascii "SET", ascii "a", ascii "x"]),
         (0, [ascii "PEXPIRE", ascii "a", ascii "5"]),
         (0, [ascii "SET", ascii "b", ascii "y"]),
         (0, [ascii "PEXPIRE", ascii "b", ascii "1"]),
         (0, [ascii "PTTL", ascii "b"])] EntryManager.init).map (fun r => r.1)
      = some [ResponseSerializer.serialize_string [] (ascii "OK"),
              ResponseSerializer.serialize_integer [] 1,
              ResponseSerializer.serialize_string [] (ascii "OK"),
              ResponseSerializer.serialize_integer [] 1,
              ResponseSerializer.serialize_integer [] 5]
      ∧ ResponseSerializer.serialize_integer [] 5
          ≠ ResponseSerializer.serialize_integer [] ((0 + 1000 * 1 - 0) / 1000) := by
  decide

/-- C9, the claim as stated fails: one second after the deadline of `PEXPIRE k 1`
the key is still there, `GET k` replies its value and not Nil, `EXISTS k`
replies Integer 1 and `PTTL k` does not reply Integer -2. -/
theorem C9_expired_key_still_served :
    (run_all intLib
        [(0, [ascii "SET", ascii "k", ascii "v"]),
         (0, [ascii "PEXPIRE", ascii "k", ascii "1"]),
         (1001000, [ascii "GET", ascii "k"]),
         (1001000, [ascii "EXISTS", ascii "k"]),
         (1001000, [ascii "PTTL", ascii "k"])] EntryManager.init).map (fun r => r.1)
      = some [ResponseSerializer.serialize_string [] (ascii "OK"),
              ResponseSerializer.serialize_integer [] 1,
              ResponseSerializer.serialize_string [] (ascii "v"),
              ResponseSerializer.serialize_integer [] 1,
              ResponseSerializer.serialize_integer [] 18446744073708551]
      ∧ ResponseSerializer.serialize_string [] (ascii "v") ≠ ResponseSerializer.serialize_nil []
      ∧ ResponseSerializer.serialize_integer [] 1 ≠ ResponseSerializer.serialize_integer [] 0
      ∧ ResponseSerializer.serialize_integer [] 18446744073708551
          ≠ ResponseSerializer.serialize_integer [] (-2) := by
  decide

/-- C9, as amended: a deadline set by `PEXPIRE k t` with `t > 0` on a present key
removes nothing. `PEXPIRE` replies Integer 1, and at every later clock reading,
as long as no other command has run, `GET k` replies what it replied before,
`EXISTS k` replies Integer 1, and `PTTL k` replies an Integer other than -2: the
key is never reported missing. -/
theorem C9_deadline_removes_nothing {Score : Type} (lib : StdLib Score) (now now' : Nat)
    (m : EntryManager Score) (k x : Bytes) (t : Int) (e : Entry Score)
    (hpresent : m.find_entry k = some e)
    (hx : CommandProcessor.parse_int x = some t) (ht : 0 < t) :
    ∃ m', run lib now m [ascii "PEXPIRE", k, x]
        = some (ResponseSerializer.serialize_integer [] 1, m')
      ∧ run lib now' m' [ascii "GET", k]
          = (run lib now' m [ascii "GET", k]).map (fun r => (r.1, m'))
      ∧ run lib now' m' [ascii "EXISTS", k]
          = some (ResponseSerializer.serialize_integer [] 1, m')
      ∧ ∃ ttl, run lib now' m' [ascii "PTTL", k]
          = some (ResponseSerializer.serialize_integer [] ttl, m') ∧ ttl ≠ -2 := by
  obtain ⟨m1, hset, hcore⟩ := EntryManager.set_entry_ttl_spec m now e t ht
  have hc : (m1.find_entry k).map EntryManager.core = (m.find_entry k).map EntryManager.core :=
    hcore k
  obtain ⟨e1, he1⟩ : ∃ e1, m1.find_entry k = some e1 := by
    have := core_isSome_eq hc
    rw [hpresent] at this
    exact Option.isSome_iff_exists.mp this
  have hv := core_value_eq hc
  rw [he1, hpresent] at hv
  simp only [Option.map_some', Option.some.injEq] at hv
  refine ⟨m1, ?_, ?_, ?_, ?_⟩
  · rw [run_pexpire_present lib now m k x t e hx (le_of_lt ht) hpresent, hset]; rfl
  · rw [run_get, run_get, he1, hpresent]
    simp only [Option.map_some', hv]
  · rw [run_exists, he1]; rfl
  · obtain ⟨ttl, httl, hrange⟩ := EntryManager.get_expiry_time_spec m1 now' e1
    refine ⟨ttl, ?_, by omega⟩
    rw [run_pttl_present lib now' m1 k e1 he1, httl]; rfl

theorem C9_deadline_removes_nothing_witness :
    ∃ m', run intLib 0 demo_string_keyspace [ascii "PEXPIRE", ascii "k", ascii "50"]
        = some (ResponseSerializer.serialize_integer [] 1, m')
      ∧ run intLib 70000 m' [ascii "GET", ascii "k"]
          = (run intLib 70000 demo_string_keyspace [ascii "GET", ascii "k"]).map
              (fun r => (r.1, m'))
      ∧ run intLib 70000 m' [ascii "EXISTS", ascii "k"]
          = some (ResponseSerializer.serialize_integer [] 1, m')
      ∧ ∃ ttl, run intLib 70000 m' [ascii "PTTL", ascii "k"]
          = some (ResponseSerializer.serialize_integer [] ttl, m') ∧ ttl ≠ -2 :=
  C9_deadline_removes_nothing intLib 0 70000 demo_string_keyspace (ascii "k") (ascii "50") 50 _
    rfl (by decide) (by decide)

/-- C10, the code at the failing input: the deadline of `PEXPIRE k 1` set at clock
reading 0 is 1000; `PTTL k` at clock reading 1001, after the deadline, replies
the positive Integer 18446744073709551 (the unsigned difference wrapped around)
and neither -1 nor -2. -/
theorem C10_pttl_positive_after_deadline :
    (run_all intLib
        [(0, [ascii "SET", ascii "k", ascii "v"]),
         (0, [ascii "PEXPIRE", ascii "k", ascii "1"]),
         (1001, [ascii "PTTL", ascii "k"])] EntryManager.init).map (fun r => r.1)
      = some [ResponseSerializer.serialize_string [] (ascii "OK"),
              ResponseSerializer.serialize_integer [] 1,
              ResponseSerializer.serialize_integer [] 18446744073709551]
      ∧ ((run_all intLib
        [(0, [ascii "SET", ascii "k", ascii "v"]),
         (0, [ascii "PEXPIRE", ascii "k", ascii "1"])] EntryManager.init).bind
          (fun r => (r.2.find_entry (ascii "k")).bind (fun e => r.2.get_expiry_time 1001 e)))
        = some 18446744073709551 := by
  decide

/-- C11: `PTTL k` replies Integer -2 when `k` is absent and Integer -1 when `k` is
present without a TTL (its `heap_idx` is `size_t(-1)`); in both cases the
keyspace, table and heap, is left as it was. -/
theorem C11_pttl_missing_or_no_ttl {Score : Type} (lib : StdLib Score) (now : Nat)
    (m : EntryManager Score) (k : Bytes) :
    (m.find_entry k = none →
        run lib now m [ascii "PTTL", k]
          = some (ResponseSerializer.serialize_integer [] (-2), m))
      ∧ (∀ e, m.find_entry k = some e → e.heap_idx = SIZE_MAX →
        run lib now m [ascii "PTTL", k]
          = some (ResponseSerializer.serialize_integer [] (-1), m)) := by
  constructor
  · intro h
    rw [run, dispatch_pttl]
    simp [CommandProcessor.handle_pttl, h]
  · intro e h hidx
    rw [run_pttl_present lib now m k e h]
    simp [EntryManager.get_expiry_time, hidx]

theorem C11_pttl_missing_or_no_ttl_witness :
    run intLib 9 (EntryManager.init : EntryManager Int) [ascii "PTTL", ascii "k"]
        = some (ResponseSerializer.serialize_integer [] (-2), EntryManager.init)
      ∧ run intLib 9 demo_string_keyspace [ascii "PTTL", ascii "k"]
        = some (ResponseSerializer.serialize_integer [] (-1), demo_string_keyspace) :=
  ⟨(C11_pttl_missing_or_no_ttl intLib 9 EntryManager.init (ascii "k")).1 rfl,
    (C11_pttl_missing_or_no_ttl intLib 9 demo_string_keyspace (ascii "k")).2 _ rfl rfl⟩

/-- C17: wrong-type access is rejected without side effects. When `k` holds a
String, `ZADD k s m` (with a score that parses) and `ZREM k m` reply an Error
with code -3; when `k` holds a sorted set, `GET k` replies an Error with code
-3; the keyspace (table, stored values, heap) is the same afterwards. -/
theorem C17_wrong_type {Score : Type} (lib : StdLib Score) (now : Nat)
    (m : EntryManager Score) (k x name : Bytes) (s : Score) :
    (∀ e v, m.find_entry k = some e → e.value = .string v →
        (CommandProcessor.parse_double lib x = some s →
          run lib now m [ascii "ZADD", k, x, name]
            = some (ResponseSerializer.serialize_error [] (-3)
                (ascii "Key holds wrong type\n"), m))
        ∧ run lib now m [ascii "ZREM", k, name]
            = some (ResponseSerializer.serialize_error [] (-3)
                (ascii "Key holds wrong type\n"), m))
      ∧ (∀ e z, m.find_entry k = some e → e.value = .zset z →
        run lib now m [ascii "GET", k]
          = some (ResponseSerializer.serialize_error [] (-3)
              (ascii "Key holds wrong type\n"), m)) := by
  refine ⟨fun e v he hv => ⟨fun hs => ?_, ?_⟩, fun e z he hv => ?_⟩
  · rw [run, dispatch_zadd]
    simp only [CommandProcessor.handle_zadd, hs, he, hv]
    rfl
  · rw [run, dispatch_zrem]
    simp only [CommandProcessor.handle_zrem, he, hv]
    rfl
  · rw [run_get, he]
    simp only [hv]
    rfl

theorem C17_wrong_type_witness :
    (run intLib 2 demo_string_keyspace [ascii "ZADD", ascii "k", ascii "1", ascii "m"]
          = some (ResponseSerializer.serialize_error [] (-3)
              (ascii "Key holds wrong type\n"), demo_string_keyspace)
        ∧ run intLib 2 demo_string_keyspace [ascii "ZREM", ascii "k", ascii "m"]
            = some (ResponseSerializer.serialize_error [] (-3)
                (ascii "Key holds wrong type\n"), demo_string_keyspace))
      ∧ run intLib 2 demo_keyspace [ascii "GET", ascii "lb"]
          = some (ResponseSerializer.serialize_error [] (-3)
              (ascii "Key holds wrong type\n"), demo_keyspace) :=
  ⟨⟨((C17_wrong_type intLib 2 demo_string_keyspace (ascii "k") (ascii "1") (ascii "m") 1).1
        _ _ rfl rfl).1 (by decide),
      ((C17_wrong_type intLib 2 demo_string_keyspace (ascii "k") (ascii "1") (ascii "m") 1).1
        _ _ rfl rfl).2⟩,
    (C17_wrong_type intLib 2 demo_keyspace (ascii "lb") (ascii "1") (ascii "m") 1).2
      _ _ rfl rfl⟩

/-- C20: command names are case-insensitive. On every keyspace and for every
argument vector, replacing `args[0]` by a string that differs from it only in
the case of ASCII letters gives the same reply bytes and the same keyspace
afterwards. -/
theorem C20_command_name_case {Score : Type} (lib : StdLib Score) (now : Nat)
    (m : EntryManager Score) (name name' : Bytes) (rest : List Bytes)
    (h : differs_only_in_case name name') :
    run lib now m (name :: rest) = run lib now m (name' :: rest) := by
  rw [run_eq_outcome, run_eq_outcome]
  exact process_command_head lib now name name' rest [] m (map_tolower_of_differs _ _ h)

theorem C20_command_name_case_witness :
    run intLib 0 demo_string_keyspace [ascii "gEt", ascii "k"]
      = run intLib 0 demo_string_keyspace [ascii "GET", ascii "k"] :=
  C20_command_name_case intLib 0 demo_string_keyspace (ascii "gEt") (ascii "GET") [ascii "k"]
    (by
      refine List.Forall₂.cons ?_ (List.Forall₂.cons ?_ (List.Forall₂.cons ?_ List.Forall₂.nil))
      · exact Or.inr (Or.inr (by decide))
      · exact Or.inl rfl
      · exact Or.inr (Or.inr (by decide)))

/-- C12, the code at the failing input: on a fresh server `SET a x`,
`PEXPIRE a 1`, `SET b y` and `PEXPIRE b 5` are answered, and `PEXPIRE b 0`
then has no reply: `set_entry_ttl` calls `delete_entry`, the entry of `b` has
`heap_idx = 1`, and `remove_from_heap` calls `heap_.pop()`, which holds
`heap_mutex_` and calls `empty()`, which locks it again. The statements of
`pop()` do not look at `heap_idx` either: without the second lock they would
remove the root, the item of `a` (deadline 1000, back-reference to address 1),
and keep the item of `b`. -/
theorem C12_pexpire_zero_on_key_with_ttl :
    run_all intLib
        [(0, [ascii "SET", ascii "a", ascii "x"]),
         (0, [ascii "PEXPIRE", ascii "a", ascii "1"]),
         (0, [ascii "SET", ascii "b", ascii "y"]),
         (0, [ascii "PEXPIRE", ascii "b", ascii "5"])] EntryManager.init
      = some ([ResponseSerializer.serialize_string [] (ascii "OK"),
               ResponseSerializer.serialize_integer [] 1,
               ResponseSerializer.serialize_string [] (ascii "OK"),
               ResponseSerializer.serialize_integer [] 1],
              { db_ := [(ascii "b", { addr := 2, heap_idx := 1, key := ascii "b",
                                      value := .string (ascii "y") }),
                        (ascii "a", { addr := 1, heap_idx := 0, key := ascii "a",
                                      value := .string (ascii "x") })],
                heap_ := [{ value_ := 1000, position_ref_ := some 1 },
                          { value_ := 5000, position_ref_ := some 2 }] })
      ∧ (run_all intLib
        [(0, [ascii "SET", ascii "a", ascii "x"]),
         (0, [ascii "PEXPIRE", ascii "a", ascii "1"]),
         (0, [ascii "SET", ascii "b", ascii "y"]),
         (0, [ascii "PEXPIRE", ascii "b", ascii "5"])] EntryManager.init).map
          (fun r => run intLib 0 r.2 [ascii "PEXPIRE", ascii "b", ascii "0"]) = some none
      ∧ BinaryHeap.pop_unlocked less
          [{ value_ := 1000, position_ref_ := some 1 },
           { value_ := 5000, position_ref_ := some 2 }]
        = some ({ value_ := 1000, position_ref_ := some 1 },
            [{ value_ := 5000, position_ref_ := some 2 }], [(2, 0)]) := by
  decide

/-- C13, the code at the failing input: after `create_entry a`, `set_entry_ttl a 5`,
`create_entry b`, `set_entry_ttl b 1` the keyspace is not heap-slot consistent.
The entry of `b` (address 2) has `heap_idx = 1`, while the item at index 1
refers to the entry of `a` (address 1) and the item of `b` is at index 0. -/
theorem C13_heap_slots_inconsistent :
    (EntryManager.init : EntryManager Int).apply_ops
        [.create_entry (ascii "a") (ascii "x"), .set_entry_ttl (ascii "a") 5 0,
         .create_entry (ascii "b") (ascii "y"), .set_entry_ttl (ascii "b") 1 0]
      = some { db_ := [(ascii "b", { addr := 2, heap_idx := 1, key := ascii "b",
                                     value := .string (ascii "y") }),
                       (ascii "a", { addr := 1, heap_idx := 1, key := ascii "a",
                                     value := .string (ascii "x") })],
               heap_ := [{ value_ := 1000, position_ref_ := some 2 },
                         { value_ := 5000, position_ref_ := some 1 }] }
      ∧ ¬ heap_slot_consistent
          ({ db_ := [(ascii "b", { addr := 2, heap_idx := 1, key := ascii "b",
                                   value := .string (ascii "y") }),
                     (ascii "a", { addr := 1, heap_idx := 1, key := ascii "a",
                                   value := .string (ascii "x") })],
             heap_ := [{ value_ := 1000, position_ref_ := some 2 },
                       { value_ := 5000, position_ref_ := some 1 }] } : EntryManager Int) := by
  decide

/-- C14, the code at the failing input: with `a` expiring in 1 ms and `b` in 5 ms,
the heap holds the item of `a` (deadline 1000, address 1) at the root and the
item of `b` (deadline 5000, address 2) at index 1. `delete_entry b` has no
result: `remove_from_heap` calls `heap_.pop()`, which holds `heap_mutex_` and
calls `empty()`, which locks it again. The statements of `pop()` do not look
at the slot of `b` either: without the second lock they would remove the item
of `a`, the root, and keep the item of `b`. -/
theorem C14_delete_entry_pops_root :
    ((EntryManager.init : EntryManager Int).apply_ops
        [.create_entry (ascii "a") (ascii "x"), .set_entry_ttl (ascii "a") 1 0,
         .create_entry (ascii "b") (ascii "y"), .set_entry_ttl (ascii "b") 5 0]).map
          (fun m => (m.heap_, (m.find_entry (ascii "a")).bind (m.get_expiry_time 0),
            (m.find_entry (ascii "b")).map (fun e => (e.addr, e.heap_idx))))
      = some ([{ value_ := 1000, position_ref_ := some 1 },
               { value_ := 5000, position_ref_ := some 2 }], some 1, some (2, 1))
      ∧ ((EntryManager.init : EntryManager Int).apply_ops
        [.create_entry (ascii "a") (ascii "x"), .set_entry_ttl (ascii "a") 1 0,
         .create_entry (ascii "b") (ascii "y"), .set_entry_ttl (ascii "b") 5 0]).map
          (fun m => m.delete_entry (ascii "b")) = some none
      ∧ ((EntryManager.init : EntryManager Int).apply_ops
        [.create_entry (ascii "a") (ascii "x"), .set_entry_ttl (ascii "a") 1 0,
         .create_entry (ascii "b") (ascii "y"), .set_entry_ttl (ascii "b") 5 0]).map
          (fun m => BinaryHeap.pop_unlocked less m.heap_)
        = some (some ({ value_ := 1000, position_ref_ := some 1 },
            [{ value_ := 5000, position_ref_ := some 2 }], [(2, 0)])) := by
  refine ⟨by decide, by decide, by decide⟩

/-- C15, the code at the failing input: `create_entry k w` on a key that carries a
TTL leaves the heap as it was, one item that refers to the replaced entry
(address 1); the new entry (address 2) has no TTL and `PTTL k` replies -1. -/
theorem C15_create_entry_leaves_heap_item :
    ((EntryManager.init : EntryManager Int).apply_ops
        [.create_entry (ascii "k") (ascii "v"), .set_entry_ttl (ascii "k") 5 0]).map
          (fun m => (m.heap_, (m.find_entry (ascii "k")).map (fun e => e.addr)))
      = some ([{ value_ := 5000, position_ref_ := some 1 }], some 1)
      ∧ ((EntryManager.init : EntryManager Int).apply_ops
        [.create_entry (ascii "k") (ascii "v"), .set_entry_ttl (ascii "k") 5 0,
         .create_entry (ascii "k") (ascii "w")]).map
          (fun m => (m.heap_, (m.find_entry (ascii "k")).map (fun e => (e.addr, e.heap_idx))))
      = some ([{ value_ := 5000, position_ref_ := some 1 }], some (2, SIZE_MAX))
      ∧ (run_all intLib
        [(0, [ascii "SET", ascii "k", ascii "v"]),
         (0, [ascii "PEXPIRE", ascii "k", ascii "5"]),
         (0, [ascii "SET", ascii "k", ascii "w"]),
         (0, [ascii "PTTL", ascii "k"])] EntryManager.init).map (fun r => r.1)
      = some [ResponseSerializer.serialize_string [] (ascii "OK"),
              ResponseSerializer.serialize_integer [] 1,
              ResponseSerializer.serialize_string [] (ascii "OK"),
              ResponseSerializer.serialize_integer [] (-1)] := by
  decide

/-- C18, the code at the failing input: `FLUSHALL x`, two arguments where the
arity is one, is answered with Integer 1 (type tag 3, not the Error tag 1) and
empties the keyspace. -/
theorem C18_flushall_ignores_arity :
    run intLib 0 demo_string_keyspace [ascii "FLUSHALL", ascii "x"]
      = some (ResponseSerializer.serialize_integer [] 1, EntryManager.init)
      ∧ (ResponseSerializer.serialize_integer [] 1).head? = some 3
      ∧ demo_string_keyspace ≠ EntryManager.init := by
  decide

/-- C19, the code at the failing input: `NOPE foo` is answered with an Error of
code -2 and the keyspace stays as it was, but the message that
`deserialize_error` returns is the 16 bytes "unknown command\n", not the 15
characters "unknown command". -/
theorem C19_unknown_command_message :
    run intLib 0 demo_string_keyspace [ascii "NOPE", ascii "foo"]
      = some (ResponseSerializer.serialize_error [] (-2) (ascii "unknown command\n"),
          demo_string_keyspace)
      ∧ ResponseSerializer.deserialize_error
          (ResponseSerializer.serialize_error [] (-2) (ascii "unknown command\n"))
        = some (ascii "unknown command\n")
      ∧ (ascii "unknown command\n").length = 16
      ∧ ascii "unknown command\n" ≠ ascii "unknown command" := by
  decide

/-- C21: `PEXPIRE k x` replies an Error with code -1 and leaves the keyspace (table
and heap) as it was whenever `std::stoll` throws on `x` (no integer at the
start, or a value outside the signed 64-bit range), reads a negative integer,
or leaves characters of `x` unread. -/
theorem C21_pexpire_invalid_ttl {Score : Type} (lib : StdLib Score) (now : Nat)
    (m : EntryManager Score) (k x : Bytes)
    (h : stoll x = none ∨ ∃ v pos, stoll x = some (v, pos) ∧ (v < 0 ∨ pos ≠ x.length)) :
    run lib now m [ascii "PEXPIRE", k, x]
      = some (ResponseSerializer.serialize_error [] (-1) (ascii "Invalid TTL value\n"), m) := by
  rw [run, dispatch_pexpire]
  rcases h with h | ⟨v, pos, h, hv | hpos⟩
  · simp only [CommandProcessor.handle_pexpire, CommandProcessor.parse_int, h]
    rfl
  · by_cases hp : pos = x.length
    · simp only [CommandProcessor.handle_pexpire, CommandProcessor.parse_int, h, hp, if_true,
        hv]
      rfl
    · simp only [CommandProcessor.handle_pexpire, CommandProcessor.parse_int, h, hp, if_false]
      rfl
  · simp only [CommandProcessor.handle_pexpire, CommandProcessor.parse_int, h, hpos, if_false]
    rfl

/-- The claim C21 on the TTL arguments "-5", "abc", "9223372036854775808", "10x"
and "1.5", sent for the key `k` of a keyspace that holds it. -/
theorem C21_pexpire_invalid_ttl_witness :
    run intLib 0 demo_string_keyspace [ascii "PEXPIRE", ascii "k", ascii "-5"]
        = some (ResponseSerializer.serialize_error [] (-1) (ascii "Invalid TTL value\n"),
            demo_string_keyspace)
      ∧ run intLib 0 demo_string_keyspace [ascii "PEXPIRE", ascii "k", ascii "abc"]
        = some (ResponseSerializer.serialize_error [] (-1) (ascii "Invalid TTL value\n"),
            demo_string_keyspace)
      ∧ run intLib 0 demo_string_keyspace
          [ascii "PEXPIRE", ascii "k", ascii "9223372036854775808"]
        = some (ResponseSerializer.serialize_error [] (-1) (ascii "Invalid TTL value\n"),
            demo_string_keyspace)
      ∧ run intLib 0 demo_string_keyspace [ascii "PEXPIRE", ascii "k", ascii "10x"]
        = some (ResponseSerializer.serialize_error [] (-1) (ascii "Invalid TTL value\n"),
            demo_string_keyspace)
      ∧ run intLib 0 demo_string_keyspace [ascii "PEXPIRE", ascii "k", ascii "1.5"]
        = some (ResponseSerializer.serialize_error [] (-1) (ascii "Invalid TTL value\n"),
            demo_string_keyspace) :=
  ⟨C21_pexpire_invalid_ttl intLib 0 demo_string_keyspace (ascii "k") (ascii "-5")
      (Or.inr ⟨-5, 2, by decide, Or.inl (by decide)⟩),
    C21_pexpire_invalid_ttl intLib 0 demo_string_keyspace (ascii "k") (ascii "abc")
      (Or.inl (by decide)),
    C21_pexpire_invalid_ttl intLib 0 demo_string_keyspace (ascii "k")
      (ascii "9223372036854775808") (Or.inl (by decide)),
    C21_pexpire_invalid_ttl intLib 0 demo_string_keyspace (ascii "k") (ascii "10x")
      (Or.inr ⟨10, 2, by decide, Or.inr (by decide)⟩),
    C21_pexpire_invalid_ttl intLib 0 demo_string_keyspace (ascii "k") (ascii "1.5")
      (Or.inr ⟨1, 1, by decide, Or.inr (by decide)⟩)⟩

/-- C23: `FLUSHALL` replies Integer 1 on every keyspace, the empty one included,
and leaves the table and the expiry heap empty; a second `FLUSHALL` replies
Integer 1 again, and afterwards every key is reported missing: `EXISTS k`
replies Integer 0 and `PTTL k` replies Integer -2. -/
theorem C23_flushall {Score : Type} (lib : StdLib Score) (now now1 : Nat)
    (m : EntryManager Score) (k : Bytes) :
    run lib now m [ascii "FLUSHALL"]
        = some (ResponseSerializer.serialize_integer [] 1, EntryManager.init)
      ∧ run lib now (EntryManager.init : EntryManager Score) [ascii "FLUSHALL"]
        = some (ResponseSerializer.serialize_integer [] 1, EntryManager.init)
      ∧ HMap.size (EntryManager.init : EntryManager Score).db_ = 0
      ∧ BinaryHeap.size (EntryManager.init : EntryManager Score).heap_ = 0
      ∧ run_all lib [(now, [ascii "FLUSHALL"]), (now1, [ascii "FLUSHALL"]),
            (now1, [ascii "EXISTS", k]), (now1, [ascii "PTTL", k])] m
        = some ([ResponseSerializer.serialize_integer [] 1,
                 ResponseSerializer.serialize_integer [] 1,
                 ResponseSerializer.serialize_integer [] 0,
                 ResponseSerializer.serialize_integer [] (-2)], EntryManager.init) := by
  have h1 : ∀ (t : Nat) (m1 : EntryManager Score), run lib t m1 [ascii "FLUSHALL"]
      = some (ResponseSerializer.serialize_integer [] 1, EntryManager.init) := fun _ _ => rfl
  have h2 : run lib now1 (EntryManager.init : EntryManager Score) [ascii "EXISTS", k]
      = some (ResponseSerializer.serialize_integer [] 0, EntryManager.init) := rfl
  have h3 : run lib now1 (EntryManager.init : EntryManager Score) [ascii "PTTL", k]
      = some (ResponseSerializer.serialize_integer [] (-2), EntryManager.init) := rfl
  refine ⟨h1 now m, h1 now _, rfl, rfl, ?_⟩
  simp only [run_all, h1, h2, h3]

/-- C24: for every integer `v` (so for every 64-bit signed one), `serialize_integer`
appends to the buffer the byte 3, the decimal text of `v` (a '-' first when `v`
is negative, no leading zeros) and the two bytes CR LF; the previous contents
of the buffer are a prefix of the result. -/
theorem C24_serialize_integer (buffer : Bytes) (v : Int) :
    ResponseSerializer.serialize_integer buffer v
        = buffer ++ [byte 3] ++ decimal_text v ++ [byte 13, byte 10]
      ∧ (ResponseSerializer.serialize_integer buffer v).take buffer.length = buffer
      ∧ decimal_text 0 = ascii "0"
      ∧ decimal_text 1207 = ascii "1207"
      ∧ decimal_text (-45) = ascii "-45"
      ∧ decimal_text (2 ^ 63 - 1) = ascii "9223372036854775807"
      ∧ decimal_text (-(2 ^ 63)) = ascii "-9223372036854775808" := by
  have h : ResponseSerializer.serialize_integer buffer v
      = buffer ++ [byte 3] ++ decimal_text v ++ [byte 13, byte 10] := by
    simp only [ResponseSerializer.serialize_integer, to_string_eq_decimal_text,
      List.append_assoc]
    rfl
  refine ⟨h, ?_, by decide, by decide, by decide, by decide, by decide⟩
  rw [h]
  simp

/-- C25, the code at the failing inputs 42 and 12345678: the buffer that
`serialize_integer` produces from the empty one has 5 and 11 bytes (the tag, the
decimal text, CR LF), not 1 + 8; `deserialize_integer` reads past the end of
the first buffer, and from the second it returns the eight characters
"12345678" read as a little-endian number. -/
theorem C25_integer_round_trip_fails :
    ResponseSerializer.serialize_integer [] 42 = [3, 52, 50, 13, 10]
      ∧ (ResponseSerializer.serialize_integer [] 42).length = 5
      ∧ ResponseSerializer.deserialize_integer (ResponseSerializer.serialize_integer [] 42)
        = none
      ∧ (ResponseSerializer.serialize_integer [] 12345678).length = 11
      ∧ ResponseSerializer.deserialize_integer
          (ResponseSerializer.serialize_integer [] 12345678)
        = some 4050765991979987505 := by
  decide

/-- C26, the claim at an error message of 2^32 bytes: the length word of the frame
is 0 and `deserialize_error` returns the empty string, not the message. -/
theorem C26_long_message_truncated :
    (List.replicate (2 ^ 32) (byte 0)).length = 2 ^ 32
      ∧ ResponseSerializer.deserialize_error
          (ResponseSerializer.serialize_error [] (-1) (List.replicate (2 ^ 32) (byte 0)))
        = some [] := by
  refine ⟨List.length_replicate _ _, ?_⟩
  rw [deserialize_serialize_error, List.length_replicate]
  rfl

/-- C26, amended: for every string `s` shorter than 2^32 bytes, `serialize_string`
on the empty buffer yields the byte 2, the four bytes of the length of `s` and
the bytes of `s`, and `deserialize_string` returns `s`; for every code `c` and
every message `m` shorter than 2^32 bytes, `serialize_error` yields the byte 1,
the four bytes of `c`, the four bytes of the length of `m` and the bytes of
`m`, and `deserialize_error` returns `m`. -/
theorem C26_string_error_round_trip (s m : Bytes) (c : Int)
    (hs : s.length < 2 ^ 32) (hm : m.length < 2 ^ 32) :
    ResponseSerializer.serialize_string [] s = [byte 2] ++ le_bytes32 s.length ++ s
      ∧ (ResponseSerializer.serialize_string [] s).length = 1 + 4 + s.length
      ∧ ResponseSerializer.deserialize_string (ResponseSerializer.serialize_string [] s)
        = some s
      ∧ ResponseSerializer.serialize_error [] c m
        = [byte 1] ++ le_bytes32 (c % 2 ^ 32).toNat ++ le_bytes32 m.length ++ m
      ∧ (ResponseSerializer.serialize_error [] c m).length = 1 + 4 + 4 + m.length
      ∧ ResponseSerializer.deserialize_error (ResponseSerializer.serialize_error [] c m)
        = some m := by
  have h1 : ResponseSerializer.serialize_string [] s = [byte 2] ++ le_bytes32 s.length ++ s := by
    simp only [ResponseSerializer.serialize_string, ResponseSerializer.append_data_u32,
      Nat.mod_eq_of_lt hs]
    rfl
  have h2 : ResponseSerializer.serialize_error [] c m
      = [byte 1] ++ le_bytes32 (c % 2 ^ 32).toNat ++ le_bytes32 m.length ++ m := by
    simp only [ResponseSerializer.serialize_error, ResponseSerializer.append_data_u32,
      ResponseSerializer.append_data_i32, Nat.mod_eq_of_lt hm]
    rfl
  refine ⟨h1, ?_, deserialize_serialize_string s hs, h2, ?_, ?_⟩
  · rw [h1]; simp [length_le_bytes32]; omega
  · rw [h2]; simp [length_le_bytes32]; omega
  · rw [deserialize_serialize_error, Nat.mod_eq_of_lt hm, List.take_length]

/-- The amended claim C26 on the string "Hello" and the error -1 "Not found". -/
theorem C26_string_error_round_trip_witness :
    ResponseSerializer.serialize_string [] (ascii "Hello")
        = [byte 2] ++ le_bytes32 5 ++ ascii "Hello"
      ∧ (ResponseSerializer.serialize_string [] (ascii "Hello")).length = 1 + 4 + 5
      ∧ ResponseSerializer.deserialize_string
          (ResponseSerializer.serialize_string [] (ascii "Hello"))
        = some (ascii "Hello")
      ∧ ResponseSerializer.serialize_error [] (-1) (ascii "Not found")
        = [byte 1] ++ le_bytes32 (2 ^ 32 - 1) ++ le_bytes32 9 ++ ascii "Not found"
      ∧ (ResponseSerializer.serialize_error [] (-1) (ascii "Not found")).length = 1 + 4 + 4 + 9
      ∧ ResponseSerializer.deserialize_error
          (ResponseSerializer.serialize_error [] (-1) (ascii "Not found"))
        = some (ascii "Not found") :=
  C26_string_error_round_trip (ascii "Hello") (ascii "Not found") (-1) (by decide) (by decide)

/-- C28, the code at the failing input: the read buffer holds the first 10 of the 21
bytes of the frame of `SET k v` (declared payload length 17). The parser
answers `message_size`, and `try_process_request` moves the connection to
state `End`; the buffered bytes stay and no reply is written. -/
theorem C28_incomplete_frame_ends :
    declared_length ((serialize_request [ascii "SET", ascii "k", ascii "v"]).take 10) = 17
      ∧ RequestParser.parse ((serialize_request [ascii "SET", ascii "k", ascii "v"]).take 10)
        = .error .message_size
      ∧ Connection.try_process_request intLib 0
          (Connection.with_rbuf ((serialize_request [ascii "SET", ascii "k", ascii "v"]).take 10))
          EntryManager.init
        = some (false,
            { state_ := .End
              rbuf_ := (serialize_request [ascii "SET", ascii "k", ascii "v"]).take 10
              wbuf_ := []
              wbuf_sent_ := 0 }, EntryManager.init) := by
  decide

/-- C29, the code at two failing inputs. From the frame of `SET k v` (21 bytes, 3
strings) followed by the frame of `GET k`, `try_process_request` removes the
first 7 bytes and leaves 30, where the 16 bytes of the second frame should be
left; from the frame of `SET k v` alone it leaves the last 14 bytes of the
frame, where the buffer should be empty. -/
theorem C29_consumes_string_count :
    declared_length demo_two_frames = 17
      ∧ demo_two_frames.drop (4 + 17) = serialize_request [ascii "GET", ascii "k"]
      ∧ (Connection.try_process_request intLib 0 (Connection.with_rbuf demo_two_frames)
          EntryManager.init).map (fun r => r.2.1.rbuf_)
        = some (demo_two_frames.drop 7)
      ∧ (demo_two_frames.drop 7).length = 30
      ∧ (Connection.try_process_request intLib 0
          (Connection.with_rbuf (serialize_request [ascii "SET", ascii "k", ascii "v"]))
          EntryManager.init).map (fun r => r.2.1.rbuf_)
        = some ((serialize_request [ascii "SET", ascii "k", ascii "v"]).drop 7)
      ∧ ((serialize_request [ascii "SET", ascii "k", ascii "v"]).drop 7).length = 14 := by
  decide

/-- C30, the code at the failing input: the frames of `SET k v` and `GET k` are in
the read buffer together. The first call of `try_process_request` executes
`SET k v`, writes its reply and returns true; the second call, on the 30 bytes
the first one left, finds no frame and moves the connection to state `End`.
`GET k` is never executed: the write buffer holds the reply to `SET` alone,
where the two commands run one after the other reply "OK" and "v". -/
theorem C30_second_frame_lost :
    Connection.try_process_request intLib 0 (Connection.with_rbuf demo_two_frames)
        EntryManager.init
      = some (true,
          { state_ := .Response
            rbuf_ := demo_two_frames.drop 7
            wbuf_ := le_bytes32 7 ++ ResponseSerializer.serialize_string [] (ascii "OK")
            wbuf_sent_ := 0 }, demo_string_keyspace)
      ∧ (Connection.try_process_request intLib 0 (Connection.with_rbuf demo_two_frames)
          EntryManager.init).bind
          (fun r => Connection.try_process_request intLib 0 r.2.1 r.2.2)
        = some (false,
            { state_ := .End
              rbuf_ := demo_two_frames.drop 7
              wbuf_ := le_bytes32 7 ++ ResponseSerializer.serialize_string [] (ascii "OK")
              wbuf_sent_ := 0 }, demo_string_keyspace)
      ∧ run_all intLib [(0, [ascii "SET", ascii "k", ascii "v"]), (0, [ascii "GET", ascii "k"])]
          EntryManager.init
        = some ([ResponseSerializer.serialize_string [] (ascii "OK"),
                 ResponseSerializer.serialize_string [] (ascii "v")], demo_string_keyspace) := by
  decide

/-- C32: for every tree reachable by `set` and `del`, every key `k` and value `v`:
after `set(k, v)`, `get(k)` returns `v` and `get` of every other key is as
before; when the tree held `k` already, the number of nodes and the in-order
keys are as before. -/
theorem C32_set_then_get {K V : Type} [LT K] [DecidableRel (fun a b : K => a < b)]
    [DecidableEq K] (ord : StrictTotalOrder K) (t : AVLNode K V)
    (h : AVLTree.Reachable t) (k : K) (v : V) :
    AVLTree.get (AVLTree.set t k v) k = some v
      ∧ (∀ x, x ≠ k → AVLTree.get (AVLTree.set t k v) x = AVLTree.get t x)
      ∧ (AVLTree.«exists» t k = true →
          AVLTree.count (AVLTree.set t k v) = AVLTree.count t
            ∧ (AVLTree.toList (AVLTree.set t k v)).map (fun p => p.1)
              = (AVLTree.toList t).map (fun p => p.1)) := by
  obtain ⟨hbst, _⟩ := AVLTree.Reachable_inv ord t h
  cases hs : AVLTree.search t k with
  | some p =>
    have e : AVLTree.set t k v = AVLTree.assign t k v := by simp [AVLTree.set, hs]
    obtain ⟨a1, _, a3, _⟩ := AVLTree.assign_shape t k v
    rw [e]
    refine ⟨?_, fun x hx => ?_, fun _ => ⟨a3, a1⟩⟩
    · simp [AVLTree.get, AVLTree.search_assign, hs]
    · simp [AVLTree.get, AVLTree.search_assign, hx]
  | none =>
    have hnone : AVLTree.get t k = none := by simp [AVLTree.get, hs]
    obtain ⟨_, hg⟩ := AVLTree.get_set_new ord t k v hbst hnone
    refine ⟨?_, fun x hx => ?_, fun hex => ?_⟩
    · rw [hg]; simp
    · rw [hg]; simp [hx]
    · simp [AVLTree.«exists», hs] at hex

/-- The claim C32 on the tree with the keys "a", "b", "c": `set a 7` overwrites the
value of "a" and adds no node. -/
theorem C32_set_then_get_witness :
    AVLTree.get (AVLTree.set demo_tree (ascii "a") 7) (ascii "a") = some 7
      ∧ (∀ x, x ≠ ascii "a" →
          AVLTree.get (AVLTree.set demo_tree (ascii "a") 7) x = AVLTree.get demo_tree x)
      ∧ AVLTree.count (AVLTree.set demo_tree (ascii "a") 7) = AVLTree.count demo_tree
      ∧ (AVLTree.toList (AVLTree.set demo_tree (ascii "a") 7)).map (fun p => p.1)
        = (AVLTree.toList demo_tree).map (fun p => p.1) :=
  have h := C32_set_then_get bytes_order demo_tree
    (AVLTree.Reachable.set _ _ (AVLTree.Reachable.set _ _
      (AVLTree.Reachable.set _ _ AVLTree.Reachable.empty))) (ascii "a") 7
  ⟨h.1, h.2.1, (h.2.2 (by decide)).1, (h.2.2 (by decide)).2⟩

/-- C33: for every tree reachable by `set` and `del` and every key `k`: after
`del(k)`, `exists(k)` is false and `get(k)` is `nullopt`, `get` of every other
key is as before, and `del` of a key the tree does not hold leaves the tree as
it is. -/
theorem C33_del {K V : Type} [LT K] [DecidableRel (fun a b : K => a < b)]
    [DecidableEq K] (ord : StrictTotalOrder K) (t : AVLNode K V)
    (h : AVLTree.Reachable t) (k : K) :
    AVLTree.«exists» (AVLTree.del t k) k = false
      ∧ AVLTree.get (AVLTree.del t k) k = none
      ∧ (∀ x, x ≠ k → AVLTree.get (AVLTree.del t k) x = AVLTree.get t x)
      ∧ (AVLTree.«exists» t k = false → AVLTree.del t k = t) := by
  obtain ⟨hbst, hbal⟩ := AVLTree.Reachable_inv ord t h
  obtain ⟨_, hg⟩ := AVLTree.get_del ord t k hbst
  have hk : AVLTree.get (AVLTree.del t k) k = none := by rw [hg]; simp
  refine ⟨?_, hk, fun x hx => ?_, fun hex => ?_⟩
  · simp only [AVLTree.get] at hk
    simp only [AVLTree.«exists»]
    cases hs : AVLTree.search (AVLTree.del t k) k with
    | none => rfl
    | some p => simp [hs] at hk
  · rw [hg]; simp [hx]
  · have hs : AVLTree.search t k = none := by
      simp only [AVLTree.«exists»] at hex
      cases hs : AVLTree.search t k with
      | none => rfl
      | some p => simp [hs] at hex
    have e : AVLTree.del t k = AVLTree.remove t k := by cases t <;> rfl
    rw [e]
    exact AVLTree.remove_absent ord t k hbal hs

/-- The claim C33 on the tree with the keys "a", "b", "c": `del b` removes the
root, a node with two children, and `del x` of the absent key "x" changes
nothing. -/
theorem C33_del_witness :
    (AVLTree.«exists» (AVLTree.del demo_tree (ascii "b")) (ascii "b") = false
      ∧ AVLTree.get (AVLTree.del demo_tree (ascii "b")) (ascii "b") = none
      ∧ (∀ x, x ≠ ascii "b" →
          AVLTree.get (AVLTree.del demo_tree (ascii "b")) x = AVLTree.get demo_tree x))
      ∧ AVLTree.del demo_tree (ascii "x") = demo_tree :=
  have hr : AVLTree.Reachable demo_tree :=
    AVLTree.Reachable.set _ _ (AVLTree.Reachable.set _ _
      (AVLTree.Reachable.set _ _ AVLTree.Reachable.empty))
  have h := C33_del bytes_order demo_tree hr (ascii "b")
  ⟨⟨h.1, h.2.1, h.2.2.1⟩, (C33_del bytes_order demo_tree hr (ascii "x")).2.2.2 (by decide)⟩

/-- C38: every tree reachable from the empty tree by `set` and `del` is a binary
search tree (the keys increase strictly in in-order), the `depth` field of
every node is the height of its subtree and the `weight` field the number of
its nodes, and the heights of the two subtrees of every node differ by at most
1. -/
theorem C38_avl_invariant {K V : Type} [LT K] [DecidableRel (fun a b : K => a < b)]
    [DecidableEq K] (ord : StrictTotalOrder K) (t : AVLNode K V)
    (h : AVLTree.Reachable t) :
    AVLTree.BST t ∧ AVLTree.Balanced t := by
  obtain ⟨hbst, hbal⟩ := AVLTree.Reachable_inv ord t h
  exact ⟨hbst, hbal⟩

/-- The claim C38 on the tree that `set a`, `set b`, `set c` build, where the third
`set` rotates, and on that tree after `del b`. -/
theorem C38_avl_invariant_witness :
    (AVLTree.BST demo_rotated_tree ∧ AVLTree.Balanced demo_rotated_tree)
      ∧ AVLTree.BST (AVLTree.del demo_rotated_tree (ascii "b"))
      ∧ AVLTree.Balanced (AVLTree.del demo_rotated_tree (ascii "b")) :=
  have hr : AVLTree.Reachable demo_rotated_tree :=
    AVLTree.Reachable.set _ _ (AVLTree.Reachable.set _ _
      (AVLTree.Reachable.set _ _ AVLTree.Reachable.empty))
  ⟨C38_avl_invariant bytes_order demo_rotated_tree hr,
    C38_avl_invariant bytes_order _ (AVLTree.Reachable.del (ascii "b") hr)⟩

/-- C39: on every byte sequence `parse` ends with a command vector or an error, and
every read it makes lies inside the input and inside the declared payload:
the bounds-checked `parse` has a result, the one of `parse`. When `parse`
succeeds, the declared payload lies inside the input, the returned strings
encode to exactly the declared payload, and their encoded sizes `4 + |s_i|`
add up to the declared payload length. -/
theorem C39_parse_total_and_safe (data : Bytes) :
    RequestParser.parse_checked data = some (RequestParser.parse data)
      ∧ ((∃ cmd, RequestParser.parse data = .ok cmd)
          ∨ (∃ e, RequestParser.parse data = .error e))
      ∧ (∀ cmd, RequestParser.parse data = .ok cmd →
          4 + declared_length data ≤ data.length
            ∧ encode_payload cmd = (data.drop 4).take (declared_length data)
            ∧ (cmd.map (fun s => 4 + s.length)).sum = declared_length data) := by
  refine ⟨parse_checked_eq data, ?_, fun cmd h => ?_⟩
  · cases h : RequestParser.parse data with
    | ok cmd => exact Or.inl ⟨cmd, rfl⟩
    | error e => exact Or.inr ⟨e, rfl⟩
  · obtain ⟨h1, h2⟩ := parse_ok_payload data cmd h
    refine ⟨h1, h2, ?_⟩
    rw [← encode_payload_length, h2, List.length_take, List.length_drop]
    omega

/-- The claim C39 on the frame of `GET k` followed by two more bytes. -/
theorem C39_parse_total_and_safe_witness :
    RequestParser.parse_checked (serialize_request [ascii "GET", ascii "k"] ++ [7, 7])
        = some (.ok [ascii "GET", ascii "k"])
      ∧ 4 + declared_length (serialize_request [ascii "GET", ascii "k"] ++ [7, 7])
          ≤ (serialize_request [ascii "GET", ascii "k"] ++ [7, 7]).length
      ∧ encode_payload [ascii "GET", ascii "k"]
        = ((serialize_request [ascii "GET", ascii "k"] ++ [7, 7]).drop 4).take
            (declared_length (serialize_request [ascii "GET", ascii "k"] ++ [7, 7]))
      ∧ ([ascii "GET", ascii "k"].map (fun s => 4 + s.length)).sum
        = declared_length (serialize_request [ascii "GET", ascii "k"] ++ [7, 7]) :=
  have h := C39_parse_total_and_safe (serialize_request [ascii "GET", ascii "k"] ++ [7, 7])
  have hp : RequestParser.parse (serialize_request [ascii "GET", ascii "k"] ++ [7, 7])
      = .ok [ascii "GET", ascii "k"] := by decide
  ⟨hp ▸ h.1, h.2.2 _ hp⟩

/-- C34, the code at the failing inputs "70000" and "-1": the port is cast to
`uint16_t` before it is tested, so 70000 becomes 4464 and -1 becomes 65535,
both pass the test, and `main` constructs the server on that port. The
arguments "80" and "65536" (which becomes 0) are refused with exit code 1. -/
theorem C34_port_wraps_before_test :
    main_config [ascii "server", ascii "70000"] = .serve 4464 4
      ∧ main_config [ascii "server", ascii "-1"] = .serve 65535 4
      ∧ main_config [ascii "server", ascii "80"] = .exit 1
      ∧ main_config [ascii "server", ascii "65536"] = .exit 1 := by
  decide

/-- C35, the code at the failing input: for the text "PING\n" `process_io` calls
`process_command` with the one argument "PING", which names no command, and
writes the 25 bytes of the Error reply with code -2 and the message "unknown
command\n", not the five bytes "PONG\n". -/
theorem C35_ping_gets_error :
    words_loop (ascii "PING\n") [] = [ascii "PING"]
      ∧ Connection.process_io intLib 0 (ascii "PING\n") EntryManager.init
        = some (ResponseSerializer.serialize_error [] (-2) (ascii "unknown command\n"),
            EntryManager.init)
      ∧ (ResponseSerializer.serialize_error [] (-2) (ascii "unknown command\n")).length = 25
      ∧ ResponseSerializer.serialize_error [] (-2) (ascii "unknown command\n")
        ≠ ascii "PONG\n" := by
  decide

/-- C40, the code: the loop `while (try_process_request()) {}` never ends, whatever
the connection and the keyspace are. On an empty read buffer
`try_process_request` returns false and changes nothing, and the loop goes on
calling it. -/
theorem C40_request_loop_never_ends {Score : Type} (lib : StdLib Score) (now : Nat)
    (fuel : Nat) (c : Connection) (m : EntryManager Score) :
    Connection.process_requests lib now fuel c m = none
      ∧ Connection.try_process_request lib now Connection.init m
        = some (false, Connection.init, m)
      ∧ Connection.after_calls lib now fuel Connection.init m
        = some (decide (fuel = 0), Connection.init, m) := by
  refine ⟨?_, rfl, ?_⟩
  · induction fuel generalizing c m with
    | zero => rfl
    | succ fuel ih =>
      simp only [Connection.process_requests]
      cases h : c.try_process_request lib now m with
      | none => rfl
      | some r =>
        obtain ⟨value, c1, m1⟩ := r
        simp only [Result.has_value, if_true]
        exact ih c1 m1
  · induction fuel with
    | zero => rfl
    | succ fuel ih =>
      simp only [Connection.after_calls, ih]
      rfl

/-- C31, the code at the failing input: the pushes of 15, 10 and 30 into the empty
heap are made and give the array 10, 15, 30, and then `pop()` and `top()` have
no result, on this heap and on every other: `pop()` holds `heap_mutex_` and
calls `empty()`, which locks it again, and so does `top()`. -/
theorem C31_pop_and_top_have_no_result :
    BinaryHeap.push_all (fun a b => decide (a < b))
        [HeapItem.mk (15 : Int) none, HeapItem.mk 10 none, HeapItem.mk 30 none]
      = [HeapItem.mk 10 none, HeapItem.mk 15 none, HeapItem.mk 30 none]
      ∧ BinaryHeap.pop (fun a b => decide (a < b))
          [HeapItem.mk (10 : Int) none, HeapItem.mk 15 none, HeapItem.mk 30 none] = none
      ∧ BinaryHeap.top [HeapItem.mk (10 : Int) none, HeapItem.mk 15 none, HeapItem.mk 30 none]
        = none
      ∧ ∀ (compare_ : Int → Int → Bool) (items : List (HeapItem Int)),
          BinaryHeap.pop compare_ items = none ∧ BinaryHeap.top items = none := by
  refine ⟨by decide, rfl, rfl, fun compare_ items => ⟨rfl, rfl⟩⟩

/-- C36: for an array of at most 2^64 items and an index `i` in range, `update(i)`
returns and the new array holds the same multiset of items; when only the value
at `i` was changed, that is, when the array with some value `old` at `i` is in
min-heap order, the new array is in min-heap order. For `i >= size`,
`update(i)` throws and the heap is as before. -/
theorem C36_update_restores_order {T : Type} [LinearOrder T] (items : List (HeapItem T))
    (i : Nat) (hlen : items.length ≤ 2 ^ 64) :
    (i < items.length →
        ∃ r, BinaryHeap.update (fun a b => decide (a < b)) items i = some r
          ∧ List.Perm r.1 items
          ∧ ((∃ old, BinaryHeap.HeapOrdered (items.set i old)) → BinaryHeap.HeapOrdered r.1))
      ∧ (items.length ≤ i → BinaryHeap.update (fun a b => decide (a < b)) items i = none) := by
  refine ⟨fun hi => ?_, BinaryHeap.update_out_of_range _ items i⟩
  obtain ⟨r, h1, h2, h3⟩ := BinaryHeap.update_spec items i hi hlen
  refine ⟨r, h1, h2, ?_⟩
  rintro ⟨old, ho⟩
  have hl1 : (items.set i old).length ≤ 2 ^ 64 := by simpa using hlen
  have hl2 : r.1.length ≤ 2 ^ 64 := by rw [h2.length_eq]; exact hlen
  exact (BinaryHeap.HeapOrdered_iff _ hl2).mpr
    (h3 ⟨old, (BinaryHeap.HeapOrdered_iff _ hl1).mp ho⟩)

/-- The claim C36 on the heap 1, 5, 3 after the value at index 2 was changed
to 0: `update(2)` gives a heap of the same items; and `update(3)` throws. -/
theorem C36_update_restores_order_witness :
    (∃ r, BinaryHeap.update (fun a b => decide (a < b))
          [HeapItem.mk (1 : Int) none, HeapItem.mk 5 none, HeapItem.mk 0 none] 2 = some r
        ∧ List.Perm r.1 [HeapItem.mk (1 : Int) none, HeapItem.mk 5 none, HeapItem.mk 0 none]
        ∧ BinaryHeap.HeapOrdered r.1)
      ∧ BinaryHeap.update (fun a b => decide (a < b))
          [HeapItem.mk (1 : Int) none, HeapItem.mk 5 none, HeapItem.mk 0 none] 3 = none := by
  have h := C36_update_restores_order
    [HeapItem.mk (1 : Int) none, HeapItem.mk 5 none, HeapItem.mk 0 none] 2 (by decide)
  obtain ⟨r, h1, h2, h3⟩ := h.1 (by decide)
  refine ⟨⟨r, h1, h2, h3 ⟨HeapItem.mk 3 none, ?_⟩⟩, ?_⟩
  · intro i c p hi hc hp
    rcases i with _ | _ | _ | i
    · omega
    · have e : BinaryHeap.parent 1 = 0 := by decide
      rw [e] at hp
      simp at hc hp
      subst hc hp
      decide
    · have e : BinaryHeap.parent 2 = 0 := by decide
      rw [e] at hp
      simp at hc hp
      subst hc hp
      decide
    · simp at hc
  · exact (C36_update_restores_order
      [HeapItem.mk (1 : Int) none, HeapItem.mk 5 none, HeapItem.mk 0 none] 3 (by decide)).2
      (by decide)

/-- C37, the code at the failing inputs: the heap holds the items 5 and 7, whose
position references are the slots 0 and 1, and the slots hold 0 and 1, so the
slots agree with the array. `pop()` has no result, and `swap(0, 1)` has none:
it holds `heap_mutex_` and calls `update(0)`, which locks it again. At that
call `std::swap` has exchanged the two items and no slot has been written: the
item 7 is at index 0 and its slot holds 1. No call of `pop` or `swap` has a
result. -/
theorem C37_pop_and_swap_have_no_result :
    BinaryHeap.RefsConsistent [HeapItem.mk (5 : Nat) (some 0), HeapItem.mk 7 (some 1)]
        (fun a => a)
      ∧ BinaryHeap.pop less [HeapItem.mk 5 (some 0), HeapItem.mk 7 (some 1)] = none
      ∧ BinaryHeap.swap less [HeapItem.mk 5 (some 0), HeapItem.mk 7 (some 1)] 0 1 = none
      ∧ BinaryHeap.swap_items [HeapItem.mk (5 : Nat) (some 0), HeapItem.mk 7 (some 1)] 0 1
        = some [HeapItem.mk 7 (some 1), HeapItem.mk 5 (some 0)]
      ∧ ¬ BinaryHeap.RefsConsistent [HeapItem.mk (7 : Nat) (some 1), HeapItem.mk 5 (some 0)]
          (fun a => a)
      ∧ ∀ (compare_ : Nat → Nat → Bool) (items : List (HeapItem Nat)) (i j : Nat),
          BinaryHeap.pop compare_ items = none ∧ BinaryHeap.swap compare_ items i j = none := by
  refine ⟨?_, rfl, by decide, by decide, ?_,
    fun compare_ items i j => ⟨rfl, BinaryHeap.swap_eq_none compare_ items i j⟩⟩
  · intro i item a hi hr
    rcases i with _ | _ | i
    · simp at hi
      subst hi
      simp at hr
      exact hr.symm
    · simp at hi
      subst hi
      simp at hr
      exact hr.symm
    · simp at hi
  · intro h
    have h0 := h 0 (HeapItem.mk 7 (some 1)) 1 (by decide) rfl
    exact absurd h0 (by decide)
